import Mathlib

/-!
Verification of the maze-generation core of `turtle_maze.py` (class
`MazeGenerator`): grid model, validation, DFS carving, and the double-BFS
diameter search.  Machine integers from Python are modelled as `Int`/`Nat`,
floats (`complexity`, `difficulty`, `random.random()`) as exact rationals,
and the global `random` module as an explicit oracle of outcomes.
-/

namespace TurtleMaze

/-- Compass directions, the wall identifiers `N, S, E, W` of the source. -/
inductive Dir : Type
  | N
  | S
  | E
  | W
deriving DecidableEq, Repr

open Dir

/-- The `OPPOSITE` dictionary: `{N: S, S: N, E: W, W: E}`. -/
def OPPOSITE : Dir → Dir
  | N => S
  | S => N
  | E => W
  | W => E

/-- The `DIR_VEC` dictionary of (row, col) offsets:
`{N: (-1, 0), S: (1, 0), E: (0, 1), W: (0, -1)}`. -/
def DIR_VEC : Dir → Int × Int
  | N => (-1, 0)
  | S => (1, 0)
  | E => (0, 1)
  | W => (0, -1)

/-- Insertion order of the `DIR_VEC` dictionary; every
`for direction, (dr, dc) in DIR_VEC.items()` loop iterates in this order. -/
def dirList : List Dir := [N, S, E, W]

/-- One grid cell: the wall dictionary `{N: True, S: True, E: True, W: True}`.
A flag is `true` when the wall is present, `false` when it has been carved
open. -/
structure Cell where
  wallN : Bool
  wallS : Bool
  wallE : Bool
  wallW : Bool
deriving DecidableEq, Repr

/-- Read one wall flag, `cell[direction]`. -/
def Cell.wall (cell : Cell) : Dir → Bool
  | N => cell.wallN
  | S => cell.wallS
  | E => cell.wallE
  | W => cell.wallW

/-- Write one wall flag, `cell[direction] = b`. -/
def Cell.setWall (cell : Cell) : Dir → Bool → Cell
  | N, b => { cell with wallN := b }
  | S, b => { cell with wallS := b }
  | E, b => { cell with wallE := b }
  | W, b => { cell with wallW := b }

/-- A freshly initialised cell with all four walls intact. -/
def fullCell : Cell := ⟨true, true, true, true⟩

/-- Read entry `(r, c)` of a matrix stored as a list of rows, with default
`d` out of range.  The Python sources index without bounds checks; every
access below is proven in bounds, so the default is never observable. -/
def matGet {α : Type} (m : List (List α)) (r c : Nat) (d : α) : α :=
  (m.getD r []).getD c d

/-- Write entry `(r, c)` of a matrix stored as a list of rows (out-of-range
writes are dropped; they are never reached). -/
def matSet {α : Type} (m : List (List α)) (r c : Nat) (x : α) :
    List (List α) :=
  m.set r ((m.getD r []).set c x)

/-- `self.grid`: a list of rows, each a list of cells. -/
abbrev Grid := List (List Cell)

/-- `self.grid[r][c]`. -/
def gridCell (g : Grid) (r c : Nat) : Cell := matGet g r c fullCell

/-- `self.grid[r][c][d]`. -/
def wallAt (g : Grid) (r c : Nat) (d : Dir) : Bool := (gridCell g r c).wall d

/-- `self.grid[r][c][d] = b`. -/
def setWallAt (g : Grid) (r c : Nat) (d : Dir) (b : Bool) : Grid :=
  matSet g r c ((gridCell g r c).setWall d b)

/-- The grid built in `__init__`: `rows × cols` cells, all walls intact. -/
def initGrid (rows cols : Nat) : Grid :=
  List.replicate rows (List.replicate cols fullCell)

/-- `visited[r][c]` for the carving loop's local matrix.  Out-of-range reads
return `true` (never reached: every read is guarded by a bounds check in the
source). -/
def visitedAt (vis : List (List Bool)) (r c : Nat) : Bool :=
  matGet vis r c true

/-- `visited[r][c] = True`. -/
def setVisited (vis : List (List Bool)) (r c : Nat) : List (List Bool) :=
  matSet vis r c true

/-- The all-`False` visited matrix allocated at the top of `_carve_passage`. -/
def initVisited (rows cols : Nat) : List (List Bool) :=
  List.replicate rows (List.replicate cols false)

/-- An entry of the `neighbours` list:
`(nr, nc, dir_from_current, dir_from_neighbour)`. -/
abbrev NEntry := Nat × Nat × Dir × Dir

/-- Abstraction of the global `random` module.  Per carving-loop iteration
`t`: `rand t` is the float drawn by `random.random()`, `choice t` drives
`random.choice` (reduced mod the list length), and `perm t` is the
rearrangement that `random.shuffle` would apply to its argument.
`startR`/`startC` drive the two `random.randrange` calls in `generate`
(reduced mod `rows`/`cols`).  Fixing the oracle corresponds to fixing the
seed and the consumption positions of the generator. -/
structure RandOracle where
  rand : Nat → ℚ
  choice : Nat → Nat
  perm : Nat → List NEntry → List NEntry
  startR : Nat
  startC : Nat

/-- `MazeGenerator._unvisited_neighbours(r, c, visited)`.  The list is built
in `DIR_VEC` insertion order (N, S, E, W), keeping in-bounds unvisited
neighbours.  Then `random.shuffle(neighbours[:shuffle_portion])` is executed:
in Python the slice `neighbours[:shuffle_portion]` is a fresh copy of the
leading portion, `random.shuffle` permutes that copy in place and returns
`None`, and the copy is dropped — so the returned list is the unshuffled
`neighbours`.  The permutation the generator would have applied is the
abstract `σ`. -/
def unvisited_neighbours (rows cols : Nat) (complexity : ℚ) (r c : Nat)
    (visited : List (List Bool)) (σ : List NEntry → List NEntry) :
    List NEntry :=
  let neighbours : List NEntry := dirList.filterMap (fun d =>
    let nr : Int := (r : Int) + (DIR_VEC d).1
    let nc : Int := (c : Int) + (DIR_VEC d).2
    if 0 ≤ nr ∧ nr < (rows : Int) ∧ 0 ≤ nc ∧ nc < (cols : Int) ∧
        visitedAt visited nr.toNat nc.toNat = false then
      some (nr.toNat, nc.toNat, d, OPPOSITE d)
    else
      none)
  let shuffle_portion : Int := Int.floor ((neighbours.length : ℚ) * complexity)
  let _shuffledCopy := σ (neighbours.take shuffle_portion.toNat)
  neighbours

/-- State of the `while stack:` loop in `_carve_passage`.  The Python stack
has its top at the end of the list; here the top is the head. -/
structure CarveState where
  grid : Grid
  visited : List (List Bool)
  stack : List (Nat × Nat)
deriving DecidableEq

/-- One iteration of the `while stack:` loop of `_carve_passage`, at
iteration counter `t` (used to index the random oracle).  On an empty stack
it is the identity. -/
def carveStep (rows cols : Nat) (complexity : ℚ) (o : RandOracle) (t : Nat)
    (st : CarveState) : CarveState :=
  match st.stack with
  | [] => st
  | (r, c) :: rest =>
    let neighbours :=
      unvisited_neighbours rows cols complexity r c st.visited (o.perm t)
    match neighbours with
    | [] => { st with stack := rest }
    | first :: _ =>
      let picked :=
        if o.rand t < complexity then
          neighbours.getD (o.choice t % neighbours.length) first
        else
          first
      let nr := picked.1
      let nc := picked.2.1
      let here_dir := picked.2.2.1
      let there_dir := picked.2.2.2
      let grid1 := setWallAt st.grid r c here_dir false
      let grid2 := setWallAt grid1 nr nc there_dir false
      { grid := grid2,
        visited := setVisited st.visited nr nc,
        stack := (nr, nc) :: st.stack }

/-- The `while stack:` loop of `_carve_passage`, run with explicit fuel.
Fuel `2 * rows * cols` is enough for the loop to drain its stack (each
iteration either marks a new cell visited or pops), as proven below. -/
def carveLoop (rows cols : Nat) (complexity : ℚ) (o : RandOracle) :
    Nat → Nat → CarveState → CarveState
  | 0, _, st => st
  | fuel + 1, t, st =>
    match st.stack with
    | [] => st
    | _ :: _ =>
      carveLoop rows cols complexity o fuel (t + 1)
        (carveStep rows cols complexity o t st)

/-- `MazeGenerator._carve_passage(start_r, start_c)` acting on grid `g`:
allocate the visited matrix, mark and push the start, run the loop.  Returns
the final grid together with the visited matrix and (empty) stack. -/
def carve_passage (rows cols : Nat) (complexity : ℚ) (o : RandOracle)
    (start_r start_c : Nat) (g : Grid) : CarveState :=
  carveLoop rows cols complexity o (2 * rows * cols) 0
    { grid := g,
      visited := setVisited (initVisited rows cols) start_r start_c,
      stack := [(start_r, start_c)] }

/-- State of the inner `bfs` closure of `_longest_path_endpoints`: the `dist`
matrix (`-1` means undiscovered), the deque `q` (head = left end), the
`parent` dictionary (modelled as an association list, most recent binding
first), and the running `farthest` cell. -/
structure BfsState where
  dist : List (List Int)
  q : List (Nat × Nat)
  parent : List ((Nat × Nat) × (Nat × Nat))
  farthest : Nat × Nat
deriving DecidableEq

/-- Python list indexing for the row index of the `dist` matrix: negative
indices wrap from the end (`l[-1]` is the last element).  Out-of-range
indices are clamped to the default of the read (Python would raise; such
reads are proven unreachable). -/
def pyIdx (len : Nat) (i : Int) : Nat :=
  if i < 0 then ((len : Int) + i).toNat else i.toNat

/-- `dist[i][j]` with Python indexing semantics. -/
def distAtI (dist : List (List Int)) (i j : Int) : Int :=
  let row := dist.getD (pyIdx dist.length i) []
  row.getD (pyIdx row.length j) (-1)

/-- `dist[i][j] = v` with Python indexing semantics. -/
def setDistI (dist : List (List Int)) (i j : Int) (v : Int) :
    List (List Int) :=
  let ri := pyIdx dist.length i
  let row := dist.getD ri []
  dist.set ri (row.set (pyIdx row.length j) v)

/-- The body of `for direction, (dr, dc) in DIR_VEC.items():` inside the BFS
loop: skip walls, and discover the neighbour behind an open wall if its
distance is still `-1`.  Coordinates of discovered cells are stored as
naturals; they are proven to be in `[0, rows) × [0, cols)`. -/
def bfsDirStep (g : Grid) (r c : Nat) (d : Dir) (st : BfsState) : BfsState :=
  if wallAt g r c d then
    st
  else
    let nr : Int := (r : Int) + (DIR_VEC d).1
    let nc : Int := (c : Int) + (DIR_VEC d).2
    if distAtI st.dist nr nc = -1 then
      { st with
        dist := setDistI st.dist nr nc (distAtI st.dist r c + 1),
        parent := ((nr.toNat, nc.toNat), (r, c)) :: st.parent,
        q := st.q ++ [(nr.toNat, nc.toNat)] }
    else
      st

/-- The `while q:` loop of the BFS, run with explicit fuel: pop the left end,
update `farthest` (`max` with a key returns its first argument on ties, so a
strictly greater distance is required to replace it — ties are broken by
first discovery), then process the four directions in `DIR_VEC` order. -/
def bfsLoop (g : Grid) : Nat → BfsState → BfsState
  | 0, st => st
  | fuel + 1, st =>
    match st.q with
    | [] => st
    | (r, c) :: rest =>
      let far :=
        if distAtI st.dist (st.farthest.1 : Int) (st.farthest.2 : Int) <
            distAtI st.dist (r : Int) (c : Int) then
          (r, c)
        else
          st.farthest
      let st1 : BfsState := { st with q := rest, farthest := far }
      bfsLoop g fuel (dirList.foldl (fun s d => bfsDirStep g r c d s) st1)

/-- The inner `bfs(start)` of `_longest_path_endpoints`: `dist` initialised
to `-1` except `0` at `start`, queue seeded with `start`, `farthest = start`.
Fuel `rows * cols` is enough: each iteration pops one cell and every cell is
enqueued at most once. -/
def bfs (rows cols : Nat) (g : Grid) (start : Nat × Nat) : BfsState :=
  let dist0 := setDistI
    (List.replicate rows (List.replicate cols (-1)))
    (start.1 : Int) (start.2 : Int) 0
  bfsLoop g (rows * cols)
    { dist := dist0, q := [start], parent := [], farthest := start }

/-- `MazeGenerator._longest_path_endpoints()`: BFS from `(0, 0)` gives
`end_a`, BFS from `end_a` gives `end_b`. -/
def longest_path_endpoints (rows cols : Nat) (g : Grid) :
    (Nat × Nat) × (Nat × Nat) :=
  let end_a := (bfs rows cols g (0, 0)).farthest
  let end_b := (bfs rows cols g end_a).farthest
  (end_a, end_b)

/-- The full state of a `MazeGenerator` instance.  `endCell` stands for the
Python attribute `end` (a reserved word in Lean). -/
structure MazeState where
  rows : Nat
  cols : Nat
  cell_size : Int
  complexity : ℚ
  difficulty : ℚ
  grid : Grid
  start : Option (Nat × Nat)
  endCell : Option (Nat × Nat)
deriving DecidableEq

/-- `MazeGenerator.__init__`.  Raising `ValueError` is modelled by
`Except.error` carrying the message; on error no state is produced at all,
and on success the grid is fully walled and `start`/`end` are `None`.
Python's arbitrary-precision `int` arguments are `Int`; the float arguments
are exact rationals. -/
def mazeInit (rows cols cell_size : Int) (complexity difficulty : ℚ) :
    Except String MazeState :=
  if rows < 2 ∨ cols < 2 then
    .error "Maze must have at least 2x2 cells"
  else if ¬ (0 ≤ complexity ∧ complexity ≤ 1) then
    .error "complexity must be between 0 and 1"
  else if ¬ (0 ≤ difficulty ∧ difficulty ≤ 1) then
    .error "difficulty must be between 0 and 1"
  else
    .ok
      { rows := rows.toNat,
        cols := cols.toNat,
        cell_size := cell_size,
        complexity := complexity,
        difficulty := difficulty,
        grid := initGrid rows.toNat cols.toNat,
        start := none,
        endCell := none }

/-- `MazeGenerator.generate()`: pick a random start cell, carve, then choose
entrance/exit by the three-way `difficulty` policy.  The float literals
`0.1` and `0.5` of the source are the rationals `1/10` and `1/2`. -/
def generate (st : MazeState) (o : RandOracle) : MazeState :=
  let start_r := o.startR % st.rows
  let start_c := o.startC % st.cols
  let carved :=
    carve_passage st.rows st.cols st.complexity o start_r start_c st.grid
  let st1 := { st with grid := carved.grid }
  if st.difficulty < 1 / 10 then
    { st1 with start := some (0, 0), endCell := some (1, 1) }
  else if st.difficulty < 1 / 2 then
    { st1 with
      start := some (0, 0),
      endCell := some (st.rows - 1, st.cols - 1) }
  else
    let ab := longest_path_endpoints st.rows st.cols carved.grid
    { st1 with start := some ab.1, endCell := some ab.2 }

/-- The generation guard at the top of `MazeGenerator.draw()`:
`if self.start is None or self.end is None: self.generate()`.  The rest of
`draw` only renders and is out of scope. -/
def drawEnsureGenerated (st : MazeState) (o : RandOracle) : MazeState :=
  if st.start = none ∨ st.endCell = none then generate st o else st

/-- The cell coordinate `(r, c)` lies in the `rows × cols` grid. -/
def inBounds (rows cols : Nat) (p : Nat × Nat) : Prop :=
  p.1 < rows ∧ p.2 < cols

instance (rows cols : Nat) (p : Nat × Nat) :
    Decidable (inBounds rows cols p) := by
  unfold inBounds
  infer_instance

/-- Boolean adjacency of the open-wall graph: `u` and `v` are in-bounds
cells that are grid neighbours and the shared wall is open on both sides
(the spec's "cells as nodes, open shared walls as edges").  Symmetric by
construction. -/
def openAdjB (rows cols : Nat) (g : Grid) (u v : Nat × Nat) : Bool :=
  decide (u.1 < rows) && decide (u.2 < cols) &&
  decide (v.1 < rows) && decide (v.2 < cols) &&
  ((decide (v.1 = u.1 + 1 ∧ v.2 = u.2) &&
      !wallAt g u.1 u.2 S && !wallAt g v.1 v.2 N) ||
   (decide (u.1 = v.1 + 1 ∧ u.2 = v.2) &&
      !wallAt g u.1 u.2 N && !wallAt g v.1 v.2 S) ||
   (decide (v.2 = u.2 + 1 ∧ v.1 = u.1) &&
      !wallAt g u.1 u.2 E && !wallAt g v.1 v.2 W) ||
   (decide (u.2 = v.2 + 1 ∧ u.1 = v.1) &&
      !wallAt g u.1 u.2 W && !wallAt g v.1 v.2 E))

theorem openAdjB_true_symm (rows cols : Nat) (g : Grid) (u v : Nat × Nat)
    (h : openAdjB rows cols g u v = true) :
    openAdjB rows cols g v u = true := by
  unfold openAdjB at h ⊢
  simp only [Bool.and_eq_true, Bool.or_eq_true, decide_eq_true_eq,
    Bool.not_eq_true'] at h ⊢
  obtain ⟨⟨⟨⟨h1, h2⟩, h3⟩, h4⟩, hd⟩ := h
  refine ⟨⟨⟨⟨h3, h4⟩, h1⟩, h2⟩, ?_⟩
  rcases hd with
    ((⟨⟨p, w1⟩, w2⟩ | ⟨⟨p, w1⟩, w2⟩) | ⟨⟨p, w1⟩, w2⟩) | ⟨⟨p, w1⟩, w2⟩
  · exact Or.inl (Or.inl (Or.inr ⟨⟨p, w2⟩, w1⟩))
  · exact Or.inl (Or.inl (Or.inl ⟨⟨p, w2⟩, w1⟩))
  · exact Or.inr ⟨⟨p, w2⟩, w1⟩
  · exact Or.inl (Or.inr ⟨⟨p, w2⟩, w1⟩)

theorem openAdjB_symm (rows cols : Nat) (g : Grid) (u v : Nat × Nat) :
    openAdjB rows cols g u v = openAdjB rows cols g v u := by
  rw [Bool.eq_iff_iff]
  exact ⟨openAdjB_true_symm rows cols g u v, openAdjB_true_symm rows cols g v u⟩

theorem openAdjB_irrefl (rows cols : Nat) (g : Grid) (u : Nat × Nat) :
    openAdjB rows cols g u u = false := by
  unfold openAdjB
  rcases u with ⟨a, b⟩
  simp only [Bool.and_eq_false_iff, Bool.or_eq_false_iff]
  right
  refine ⟨⟨⟨?_, ?_⟩, ?_⟩, ?_⟩ <;>
    simp only [Bool.and_eq_false_iff, decide_eq_false_iff_not, not_and] <;>
    omega

/-- Vertices of the open-wall graph of a `rows × cols` maze. -/
abbrev Vtx (rows cols : Nat) := Fin rows × Fin cols

/-- The open-wall graph of a grid, as a `SimpleGraph` on the cells. -/
def openGraph (rows cols : Nat) (g : Grid) : SimpleGraph (Vtx rows cols) where
  Adj u v := openAdjB rows cols g (u.1.val, u.2.val) (v.1.val, v.2.val) = true
  symm := by
    intro u v h
    rw [openAdjB_symm]
    exact h
  loopless := by
    intro u h
    rw [openAdjB_irrefl] at h
    exact Bool.false_ne_true h

instance (rows cols : Nat) (g : Grid) :
    DecidableRel (openGraph rows cols g).Adj := by
  intro u v
  unfold openGraph
  infer_instance

/-- Wall symmetry: each shared wall is open on one side iff it is open on
the paired side of the neighbour (S/N pairs vertically, E/W horizontally). -/
def wallSymm (rows cols : Nat) (g : Grid) : Prop :=
  ∀ r, r < rows → ∀ c, c < cols →
    (r + 1 < rows → wallAt g r c S = wallAt g (r + 1) c N) ∧
    (c + 1 < cols → wallAt g r c E = wallAt g r (c + 1) W)

instance (rows cols : Nat) (g : Grid) : Decidable (wallSymm rows cols g) := by
  unfold wallSymm
  infer_instance

/-- Boundary containment: every wall on the outer border of the grid is
present. -/
def boundaryIntact (rows cols : Nat) (g : Grid) : Prop :=
  ∀ r, r < rows → ∀ c, c < cols →
    (r = 0 → wallAt g r c N = true) ∧
    (r = rows - 1 → wallAt g r c S = true) ∧
    (c = 0 → wallAt g r c W = true) ∧
    (c = cols - 1 → wallAt g r c E = true)

instance (rows cols : Nat) (g : Grid) :
    Decidable (boundaryIntact rows cols g) := by
  unfold boundaryIntact
  infer_instance

/-- The matrix has exactly `rows` rows of `cols` entries each. -/
def matDims {α : Type} (rows cols : Nat) (m : List (List α)) : Prop :=
  m.length = rows ∧ ∀ row ∈ m, row.length = cols

/-- Reachability along open walls, on raw coordinates. -/
def openReach (rows cols : Nat) (g : Grid) (u v : Nat × Nat) : Prop :=
  Relation.ReflTransGen (fun a b => openAdjB rows cols g a b = true) u v

/-- The in-bounds neighbour of `(r, c)` in direction `d`, mirroring the
bounds check `0 <= nr < self.rows and 0 <= nc < self.cols` of
`_unvisited_neighbours`. -/
def stepN (rows cols : Nat) (r c : Nat) (d : Dir) : Option (Nat × Nat) :=
  let nr : Int := (r : Int) + (DIR_VEC d).1
  let nc : Int := (c : Int) + (DIR_VEC d).2
  if 0 ≤ nr ∧ nr < (rows : Int) ∧ 0 ≤ nc ∧ nc < (cols : Int) then
    some (nr.toNat, nc.toNat)
  else
    none

/-- Pure grid adjacency, ignoring walls: `v` is an in-bounds horizontal or
vertical neighbour of `u`. -/
def gridAdj (rows cols : Nat) (u v : Nat × Nat) : Prop :=
  ∃ d, stepN rows cols u.1 u.2 d = some v

section MatrixLemmas

variable {α : Type}

theorem getD_set_self (l : List α) (i : Nat) (a d : α) (h : i < l.length) :
    (l.set i a).getD i d = a := by
  simp [List.getD_eq_getElem?_getD, List.getElem?_set_self, h]

theorem getD_set_ne (l : List α) {i j : Nat} (h : i ≠ j) (a d : α) :
    (l.set i a).getD j d = l.getD j d := by
  simp [List.getD_eq_getElem?_getD, List.getElem?_set_ne h]

theorem getD_oob (l : List α) {i : Nat} (h : l.length ≤ i) (d : α) :
    l.getD i d = d := by
  simp [List.getD_eq_getElem?_getD, List.getElem?_eq_none h]

theorem getD_mem (l : List α) (i : Nat) (d : α) (h : i < l.length) :
    l.getD i d ∈ l := by
  rw [List.getD_eq_getElem?_getD, List.getElem?_eq_getElem h]
  exact List.getElem_mem h

theorem getD_replicate' (n : Nat) (a : α) (i : Nat) (d : α) :
    (List.replicate n a).getD i d = if i < n then a else d := by
  rw [List.getD_eq_getElem?_getD, List.getElem?_replicate]
  rcases lt_or_le i n with h | h
  · simp [h]
  · simp [h, Nat.not_lt.mpr h]

theorem matDims_replicate (rows cols : Nat) (x : α) :
    matDims rows cols (List.replicate rows (List.replicate cols x)) := by
  constructor
  · simp
  · intro row hrow
    rw [List.eq_of_mem_replicate hrow]
    simp

theorem matDims_matSet {rows cols : Nat} {m : List (List α)}
    (h : matDims rows cols m) (r c : Nat) (x : α) :
    matDims rows cols (matSet m r c x) := by
  obtain ⟨hlen, hrows⟩ := h
  by_cases hr : r < m.length
  · constructor
    · simpa [matSet] using hlen
    · intro row hrow
      rcases List.mem_or_eq_of_mem_set hrow with hmem | heq
      · exact hrows row hmem
      · subst heq
        rw [List.length_set]
        exact hrows _ (getD_mem _ _ _ hr)
  · unfold matSet
    rw [List.set_eq_of_length_le (le_of_not_lt hr)]
    exact ⟨hlen, hrows⟩

theorem matGet_matSet_self {rows cols : Nat} {m : List (List α)}
    (h : matDims rows cols m) {r c : Nat} (hr : r < rows) (hc : c < cols)
    (x d : α) : matGet (matSet m r c x) r c d = x := by
  obtain ⟨hlen, hrows⟩ := h
  have hrm : r < m.length := by omega
  have hcm : c < (m.getD r []).length := by
    rw [hrows _ (getD_mem _ _ _ hrm)]
    exact hc
  unfold matGet matSet
  rw [getD_set_self _ _ _ _ hrm, getD_set_self _ _ _ _ hcm]

theorem matGet_matSet_ne {m : List (List α)} {r c p q : Nat}
    (hne : ¬ (r = p ∧ c = q)) (x d : α) :
    matGet (matSet m r c x) p q d = matGet m p q d := by
  unfold matGet matSet
  by_cases hrp : r = p
  · subst hrp
    have hcq : c ≠ q := by tauto
    by_cases hrm : r < m.length
    · rw [getD_set_self _ _ _ _ hrm, getD_set_ne _ hcq]
    · rw [List.set_eq_of_length_le (le_of_not_lt hrm)]
  · rw [getD_set_ne _ hrp]

theorem set_getElem_self (l : List α) (i : Nat) (h : i < l.length) :
    l.set i l[i] = l := by
  apply List.ext_getElem
  · simp
  · intro n h1 h2
    rw [List.getElem_set]
    split
    · simp_all
    · rfl

theorem matSet_oob {rows cols : Nat} {m : List (List α)}
    (h : matDims rows cols m) {r c : Nat} (hrc : ¬ (r < rows ∧ c < cols))
    (x : α) : matSet m r c x = m := by
  obtain ⟨hlen, hrows⟩ := h
  unfold matSet
  by_cases hr : r < rows
  · have hc : cols ≤ c := by omega
    have hrm : r < m.length := by omega
    have hrowlen : (m.getD r []).length = cols :=
      hrows _ (getD_mem _ _ _ hrm)
    have hinner : (m.getD r []).set c x = m.getD r [] :=
      List.set_eq_of_length_le (by omega)
    rw [hinner]
    rw [List.getD_eq_getElem?_getD, List.getElem?_eq_getElem hrm,
      Option.getD_some]
    exact set_getElem_self m r hrm
  · rw [List.set_eq_of_length_le (by omega)]

theorem matGet_matSet_self_or (m : List (List α)) (r c : Nat) (x d : α) :
    matGet (matSet m r c x) r c d = x ∨
    matGet (matSet m r c x) r c d = matGet m r c d := by
  by_cases hrm : r < m.length
  · by_cases hcm : c < (m.getD r []).length
    · left
      unfold matGet matSet
      rw [getD_set_self _ _ _ _ hrm, getD_set_self _ _ _ _ hcm]
    · right
      unfold matGet matSet
      rw [getD_set_self _ _ _ _ hrm,
        List.set_eq_of_length_le (le_of_not_lt hcm)]
  · right
    unfold matGet matSet
    rw [List.set_eq_of_length_le (le_of_not_lt hrm)]

theorem matGet_replicate (rows cols : Nat) (x d : α) (r c : Nat) :
    matGet (List.replicate rows (List.replicate cols x)) r c d =
      if r < rows ∧ c < cols then x else d := by
  unfold matGet
  rw [getD_replicate']
  by_cases hr : r < rows
  · rw [if_pos hr, getD_replicate']
    by_cases hc : c < cols
    · simp [hr, hc]
    · simp [hr, hc]
  · rw [if_neg hr]
    simp [hr]

end MatrixLemmas

section WallLemmas

theorem Cell.wall_setWall_self (cell : Cell) (d : Dir) (b : Bool) :
    (cell.setWall d b).wall d = b := by
  cases d <;> rfl

theorem Cell.wall_setWall_ne (cell : Cell) {d d' : Dir} (h : d ≠ d')
    (b : Bool) : (cell.setWall d b).wall d' = cell.wall d' := by
  cases d <;> cases d' <;> first | rfl | exact absurd rfl h

theorem wallAt_initGrid (rows cols r c : Nat) (d : Dir) :
    wallAt (initGrid rows cols) r c d = true := by
  unfold wallAt gridCell initGrid
  rw [matGet_replicate]
  split <;> cases d <;> rfl

theorem gridDims_initGrid (rows cols : Nat) :
    matDims rows cols (initGrid rows cols) :=
  matDims_replicate rows cols fullCell

theorem gridDims_setWallAt {rows cols : Nat} {g : Grid}
    (h : matDims rows cols g) (r c : Nat) (d : Dir) (b : Bool) :
    matDims rows cols (setWallAt g r c d b) :=
  matDims_matSet h r c _

theorem wallAt_setWallAt_self {rows cols : Nat} {g : Grid}
    (h : matDims rows cols g) {r c : Nat} (hr : r < rows) (hc : c < cols)
    (d : Dir) (b : Bool) : wallAt (setWallAt g r c d b) r c d = b := by
  unfold wallAt gridCell setWallAt
  rw [matGet_matSet_self h hr hc]
  exact Cell.wall_setWall_self _ d b

theorem wallAt_setWallAt_ne_cell {g : Grid} {r c p q : Nat}
    (hne : ¬ (r = p ∧ c = q)) (d d' : Dir) (b : Bool) :
    wallAt (setWallAt g r c d b) p q d' = wallAt g p q d' := by
  unfold wallAt gridCell setWallAt
  rw [matGet_matSet_ne hne]

theorem wallAt_setWallAt_ne_dir {rows cols : Nat} {g : Grid}
    (h : matDims rows cols g) {r c : Nat} {d d' : Dir} (hd : d ≠ d')
    (b : Bool) : wallAt (setWallAt g r c d b) r c d' = wallAt g r c d' := by
  by_cases hrc : r < rows ∧ c < cols
  · unfold wallAt gridCell setWallAt
    rw [matGet_matSet_self h hrc.1 hrc.2]
    exact Cell.wall_setWall_ne _ hd b
  · unfold setWallAt
    rw [matSet_oob h hrc]

/-- Opening a wall never closes another: if a wall is present in the updated
grid, it was present before. -/
theorem wallAt_setWallAt_false_le {g : Grid} (r c : Nat) (d : Dir)
    (p q : Nat) (d' : Dir)
    (h : wallAt (setWallAt g r c d false) p q d' = true) :
    wallAt g p q d' = true := by
  by_cases hne : r = p ∧ c = q
  · obtain ⟨rfl, rfl⟩ := hne
    simp only [wallAt, gridCell, setWallAt] at h
    simp only [wallAt, gridCell]
    rcases matGet_matSet_self_or g r c ((matGet g r c fullCell).setWall d false)
        fullCell with heq | heq
    · rw [heq] at h
      by_cases hdd : d = d'
      · subst hdd
        rw [Cell.wall_setWall_self] at h
        exact absurd h (by simp)
      · rwa [Cell.wall_setWall_ne _ hdd] at h
    · rwa [heq] at h
  · rwa [wallAt_setWallAt_ne_cell hne] at h

end WallLemmas

section StepLemmas

theorem stepN_N_iff {rows cols r c : Nat} {p : Nat × Nat} :
    stepN rows cols r c N = some p ↔
      1 ≤ r ∧ r - 1 < rows ∧ c < cols ∧ p = (r - 1, c) := by
  obtain ⟨p1, p2⟩ := p
  simp only [stepN, DIR_VEC]
  split_ifs with hcond
  · simp only [Option.some_inj, Prod.mk.injEq]
    omega
  · simp only [reduceCtorEq, false_iff, not_and, Prod.mk.injEq]
    omega

theorem stepN_S_iff {rows cols r c : Nat} {p : Nat × Nat} :
    stepN rows cols r c S = some p ↔
      r + 1 < rows ∧ c < cols ∧ p = (r + 1, c) := by
  obtain ⟨p1, p2⟩ := p
  simp only [stepN, DIR_VEC]
  split_ifs with hcond
  · simp only [Option.some_inj, Prod.mk.injEq]
    omega
  · simp only [reduceCtorEq, false_iff, not_and, Prod.mk.injEq]
    omega

theorem stepN_E_iff {rows cols r c : Nat} {p : Nat × Nat} :
    stepN rows cols r c E = some p ↔
      r < rows ∧ c + 1 < cols ∧ p = (r, c + 1) := by
  obtain ⟨p1, p2⟩ := p
  simp only [stepN, DIR_VEC]
  split_ifs with hcond
  · simp only [Option.some_inj, Prod.mk.injEq]
    omega
  · simp only [reduceCtorEq, false_iff, not_and, Prod.mk.injEq]
    omega

theorem stepN_W_iff {rows cols r c : Nat} {p : Nat × Nat} :
    stepN rows cols r c W = some p ↔
      r < rows ∧ 1 ≤ c ∧ c - 1 < cols ∧ p = (r, c - 1) := by
  obtain ⟨p1, p2⟩ := p
  simp only [stepN, DIR_VEC]
  split_ifs with hcond
  · simp only [Option.some_inj, Prod.mk.injEq]
    omega
  · simp only [reduceCtorEq, false_iff, not_and, Prod.mk.injEq]
    omega

theorem stepN_some_inBounds {rows cols r c : Nat} {d : Dir} {p : Nat × Nat}
    (h : stepN rows cols r c d = some p) : p.1 < rows ∧ p.2 < cols := by
  cases d
  · rw [stepN_N_iff] at h
    obtain ⟨h1, h2, h3, rfl⟩ := h
    exact ⟨h2, h3⟩
  · rw [stepN_S_iff] at h
    obtain ⟨h1, h2, rfl⟩ := h
    exact ⟨by omega, h2⟩
  · rw [stepN_E_iff] at h
    obtain ⟨h1, h2, rfl⟩ := h
    exact ⟨h1, by omega⟩
  · rw [stepN_W_iff] at h
    obtain ⟨h1, h2, h3, rfl⟩ := h
    exact ⟨h1, h3⟩

theorem stepN_opposite {rows cols r c : Nat} {d : Dir} {p : Nat × Nat}
    (hr : r < rows) (hc : c < cols)
    (h : stepN rows cols r c d = some p) :
    stepN rows cols p.1 p.2 (OPPOSITE d) = some (r, c) := by
  cases d
  · rw [stepN_N_iff] at h
    obtain ⟨h1, h2, h3, rfl⟩ := h
    rw [OPPOSITE, stepN_S_iff]
    exact ⟨by omega, h3, by simp; omega⟩
  · rw [stepN_S_iff] at h
    obtain ⟨h1, h2, rfl⟩ := h
    rw [OPPOSITE, stepN_N_iff]
    exact ⟨by omega, by omega, h2, by simp⟩
  · rw [stepN_E_iff] at h
    obtain ⟨h1, h2, rfl⟩ := h
    rw [OPPOSITE, stepN_W_iff]
    exact ⟨h1, by omega, by omega, by simp⟩
  · rw [stepN_W_iff] at h
    obtain ⟨h1, h2, h3, rfl⟩ := h
    rw [OPPOSITE, stepN_E_iff]
    exact ⟨h1, by omega, by simp; omega⟩

theorem gridAdj_symm {rows cols : Nat} {u v : Nat × Nat}
    (hu : inBounds rows cols u) (h : gridAdj rows cols u v) :
    gridAdj rows cols v u := by
  obtain ⟨d, hd⟩ := h
  exact ⟨OPPOSITE d, by simpa using stepN_opposite hu.1 hu.2 hd⟩

end StepLemmas

section NeighbourLemmas

/-- The shuffle permutation is applied to a discarded copy of the slice, so
the returned list does not depend on it (the Python slice bug). -/
theorem unvisited_neighbours_perm_irrel (rows cols : Nat) (cx : ℚ)
    (r c : Nat) (vis : List (List Bool))
    (σ σ2 : List NEntry → List NEntry) :
    unvisited_neighbours rows cols cx r c vis σ =
      unvisited_neighbours rows cols cx r c vis σ2 := rfl

/-- The returned neighbour list, rewritten through `stepN`. -/
theorem unvisited_neighbours_eq (rows cols : Nat) (cx : ℚ) (r c : Nat)
    (vis : List (List Bool)) (σ : List NEntry → List NEntry) :
    unvisited_neighbours rows cols cx r c vis σ =
      dirList.filterMap (fun d =>
        (stepN rows cols r c d).bind (fun p =>
          if visitedAt vis p.1 p.2 = false then
            some (p.1, p.2, d, OPPOSITE d)
          else
            none)) := by
  have hdef : unvisited_neighbours rows cols cx r c vis σ =
      dirList.filterMap (fun d =>
        if 0 ≤ (r : Int) + (DIR_VEC d).1 ∧
            (r : Int) + (DIR_VEC d).1 < (rows : Int) ∧
            0 ≤ (c : Int) + (DIR_VEC d).2 ∧
            (c : Int) + (DIR_VEC d).2 < (cols : Int) ∧
            visitedAt vis ((r : Int) + (DIR_VEC d).1).toNat
              ((c : Int) + (DIR_VEC d).2).toNat = false then
          some (((r : Int) + (DIR_VEC d).1).toNat,
            ((c : Int) + (DIR_VEC d).2).toNat, d, OPPOSITE d)
        else none) := rfl
  rw [hdef]
  apply List.filterMap_congr
  intro d _
  simp only [stepN]
  by_cases hb : 0 ≤ (r : Int) + (DIR_VEC d).1 ∧
      (r : Int) + (DIR_VEC d).1 < (rows : Int) ∧
      0 ≤ (c : Int) + (DIR_VEC d).2 ∧ (c : Int) + (DIR_VEC d).2 < (cols : Int)
  · rw [if_pos hb, Option.some_bind]
    by_cases hv : visitedAt vis ((r : Int) + (DIR_VEC d).1).toNat
        ((c : Int) + (DIR_VEC d).2).toNat = false
    · rw [if_pos ⟨hb.1, hb.2.1, hb.2.2.1, hb.2.2.2, hv⟩, if_pos hv]
    · rw [if_neg (by tauto), if_neg hv]
  · rw [if_neg hb, if_neg (by tauto), Option.none_bind]

theorem mem_unvisited_neighbours {rows cols : Nat} {cx : ℚ} {r c : Nat}
    {vis : List (List Bool)} {σ : List NEntry → List NEntry} {e : NEntry} :
    e ∈ unvisited_neighbours rows cols cx r c vis σ ↔
      ∃ d, stepN rows cols r c d = some (e.1, e.2.1) ∧
        visitedAt vis e.1 e.2.1 = false ∧ e.2.2.1 = d ∧
        e.2.2.2 = OPPOSITE d := by
  rw [unvisited_neighbours_eq, List.mem_filterMap]
  constructor
  · rintro ⟨d, _, hd⟩
    refine ⟨d, ?_⟩
    rcases hstep : stepN rows cols r c d with _ | p
    · rw [hstep, Option.none_bind] at hd
      exact absurd hd (by simp)
    · rw [hstep, Option.some_bind] at hd
      by_cases hv : visitedAt vis p.1 p.2 = false
      · rw [if_pos hv] at hd
        obtain rfl := Option.some_inj.mp hd
        exact ⟨by simp, by simpa using hv, rfl, rfl⟩
      · rw [if_neg hv] at hd
        exact absurd hd (by simp)
  · rintro ⟨d, hstep, hv, h1, h2⟩
    refine ⟨d, by cases d <;> simp [dirList], ?_⟩
    rw [hstep, Option.some_bind, if_pos hv]
    obtain ⟨e1, e2, e3, e4⟩ := e
    simp only at hstep hv h1 h2 ⊢
    rw [h1, h2]

theorem unvisited_neighbours_nil_iff {rows cols : Nat} {cx : ℚ} {r c : Nat}
    {vis : List (List Bool)} {σ : List NEntry → List NEntry} :
    unvisited_neighbours rows cols cx r c vis σ = [] ↔
      ∀ d p, stepN rows cols r c d = some p →
        visitedAt vis p.1 p.2 = true := by
  rw [unvisited_neighbours_eq, List.filterMap_eq_nil_iff]
  constructor
  · intro h d p hstep
    have hthis := h d (by cases d <;> simp [dirList])
    rw [hstep, Option.some_bind] at hthis
    by_contra hv
    rw [if_pos (by simpa using hv)] at hthis
    exact absurd hthis (by simp)
  · intro h d _
    rcases hstep : stepN rows cols r c d with _ | p
    · rw [Option.none_bind]
    · rw [Option.some_bind, if_neg (by simp [h d p hstep])]

theorem getD_cons_self_mem {α : Type} (a : α) (l : List α) (i : Nat) :
    (a :: l).getD i a ∈ a :: l := by
  by_cases h : i < (a :: l).length
  · exact getD_mem _ _ _ h
  · rw [getD_oob _ (le_of_not_lt h)]
    exact List.mem_cons_self a l

theorem stepN_inj_source {rows cols : Nat} {u w p : Nat × Nat} {d : Dir}
    (hu : stepN rows cols u.1 u.2 d = some p)
    (hw : stepN rows cols w.1 w.2 d = some p) : u = w := by
  obtain ⟨u1, u2⟩ := u
  obtain ⟨w1, w2⟩ := w
  cases d
  · rw [stepN_N_iff] at hu hw
    obtain ⟨a1, a2, a3, rfl⟩ := hu
    obtain ⟨b1, b2, b3, hb⟩ := hw
    simp only [Prod.mk.injEq] at hb ⊢
    omega
  · rw [stepN_S_iff] at hu hw
    obtain ⟨a1, a2, rfl⟩ := hu
    obtain ⟨b1, b2, hb⟩ := hw
    simp only [Prod.mk.injEq] at hb ⊢
    omega
  · rw [stepN_E_iff] at hu hw
    obtain ⟨a1, a2, rfl⟩ := hu
    obtain ⟨b1, b2, hb⟩ := hw
    simp only [Prod.mk.injEq] at hb ⊢
    omega
  · rw [stepN_W_iff] at hu hw
    obtain ⟨a1, a2, a3, rfl⟩ := hu
    obtain ⟨b1, b2, b3, hb⟩ := hw
    simp only [Prod.mk.injEq] at hb ⊢
    omega

/-- The open-wall adjacency unpacked through `stepN`: a one-step in-bounds
move whose shared wall is open on both sides. -/
theorem openAdjB_iff {rows cols : Nat} {g : Grid} {u v : Nat × Nat} :
    openAdjB rows cols g u v = true ↔
      inBounds rows cols u ∧ inBounds rows cols v ∧
      ∃ d, stepN rows cols u.1 u.2 d = some v ∧
        wallAt g u.1 u.2 d = false ∧
        wallAt g v.1 v.2 (OPPOSITE d) = false := by
  obtain ⟨u1, u2⟩ := u
  obtain ⟨v1, v2⟩ := v
  unfold openAdjB inBounds
  simp only [Bool.and_eq_true, Bool.or_eq_true, decide_eq_true_eq,
    Bool.not_eq_true']
  constructor
  · rintro ⟨⟨⟨⟨h1, h2⟩, h3⟩, h4⟩, hd⟩
    refine ⟨⟨h1, h2⟩, ⟨h3, h4⟩, ?_⟩
    rcases hd with
      ((⟨⟨⟨hp, hq⟩, w1⟩, w2⟩ | ⟨⟨⟨hp, hq⟩, w1⟩, w2⟩) |
          ⟨⟨⟨hp, hq⟩, w1⟩, w2⟩) |
        ⟨⟨⟨hp, hq⟩, w1⟩, w2⟩
    · refine ⟨S, ?_, w1, w2⟩
      rw [stepN_S_iff]
      simp only [Prod.mk.injEq]
      omega
    · refine ⟨N, ?_, w1, w2⟩
      rw [stepN_N_iff]
      simp only [Prod.mk.injEq]
      omega
    · refine ⟨E, ?_, w1, w2⟩
      rw [stepN_E_iff]
      simp only [Prod.mk.injEq]
      omega
    · refine ⟨W, ?_, w1, w2⟩
      rw [stepN_W_iff]
      simp only [Prod.mk.injEq]
      omega
  · rintro ⟨⟨h1, h2⟩, ⟨h3, h4⟩, d, hstep, w1, w2⟩
    refine ⟨⟨⟨⟨h1, h2⟩, h3⟩, h4⟩, ?_⟩
    cases d
    · rw [stepN_N_iff] at hstep
      simp only [Prod.mk.injEq] at hstep
      exact Or.inl (Or.inl (Or.inr ⟨⟨⟨by omega, by omega⟩, w1⟩, w2⟩))
    · rw [stepN_S_iff] at hstep
      simp only [Prod.mk.injEq] at hstep
      exact Or.inl (Or.inl (Or.inl ⟨⟨⟨by omega, by omega⟩, w1⟩, w2⟩))
    · rw [stepN_E_iff] at hstep
      simp only [Prod.mk.injEq] at hstep
      exact Or.inl (Or.inr ⟨⟨⟨by omega, by omega⟩, w1⟩, w2⟩)
    · rw [stepN_W_iff] at hstep
      simp only [Prod.mk.injEq] at hstep
      exact Or.inr ⟨⟨⟨by omega, by omega⟩, w1⟩, w2⟩

end NeighbourLemmas

section CarveEdge

theorem OPPOSITE_ne (d : Dir) : OPPOSITE d ≠ d := by
  cases d <;> simp [OPPOSITE]

theorem OPPOSITE_OPPOSITE (d : Dir) : OPPOSITE (OPPOSITE d) = d := by
  cases d <;> rfl

theorem stepN_ne {rows cols r c : Nat} {d : Dir} {p : Nat × Nat}
    (h : stepN rows cols r c d = some p) : (r, c) ≠ p := by
  obtain ⟨p1, p2⟩ := p
  cases d
  · rw [stepN_N_iff] at h
    simp only [ne_eq, Prod.mk.injEq, not_and] at h ⊢
    omega
  · rw [stepN_S_iff] at h
    simp only [ne_eq, Prod.mk.injEq, not_and] at h ⊢
    omega
  · rw [stepN_E_iff] at h
    simp only [ne_eq, Prod.mk.injEq, not_and] at h ⊢
    omega
  · rw [stepN_W_iff] at h
    simp only [ne_eq, Prod.mk.injEq, not_and] at h ⊢
    omega

/-- Effect of knocking down the shared wall pair between `(r, c)` and its
`hd`-neighbour `(nr, nc)` (lines 105 and 106 of the source): exactly the two
paired flags flip to open, everything else is untouched. -/
theorem wallAt_carve_update {rows cols : Nat} {g : Grid}
    (hg : matDims rows cols g) {r c nr nc : Nat} {hd : Dir}
    (hr : r < rows) (hc : c < cols)
    (hstep : stepN rows cols r c hd = some (nr, nc)) (p q : Nat) (d' : Dir) :
    wallAt (setWallAt (setWallAt g r c hd false) nr nc (OPPOSITE hd) false)
        p q d' =
      if (p = r ∧ q = c ∧ d' = hd) ∨ (p = nr ∧ q = nc ∧ d' = OPPOSITE hd)
      then false
      else wallAt g p q d' := by
  have hnb := stepN_some_inBounds hstep
  have hne : (r, c) ≠ (nr, nc) := stepN_ne hstep
  have hg1 : matDims rows cols (setWallAt g r c hd false) :=
    gridDims_setWallAt hg r c hd false
  by_cases h1 : p = nr ∧ q = nc ∧ d' = OPPOSITE hd
  · obtain ⟨rfl, rfl, rfl⟩ := h1
    rw [if_pos (Or.inr ⟨rfl, rfl, rfl⟩)]
    exact wallAt_setWallAt_self hg1 hnb.1 hnb.2 _ false
  · by_cases h2 : p = r ∧ q = c ∧ d' = hd
    · obtain ⟨rfl, rfl, rfl⟩ := h2
      rw [if_pos (Or.inl ⟨rfl, rfl, rfl⟩)]
      have hcell : ¬ (nr = p ∧ nc = q) := by
        intro hx
        exact hne (by simp [Prod.ext_iff]; omega)
      rw [wallAt_setWallAt_ne_cell hcell]
      exact wallAt_setWallAt_self hg hr hc _ false
    · rw [if_neg (by tauto)]
      have step1 : wallAt (setWallAt (setWallAt g r c hd false) nr nc
          (OPPOSITE hd) false) p q d' =
          wallAt (setWallAt g r c hd false) p q d' := by
        by_cases hcell : nr = p ∧ nc = q
        · obtain ⟨rfl, rfl⟩ := hcell
          have hdir : OPPOSITE hd ≠ d' := by tauto
          exact wallAt_setWallAt_ne_dir hg1 hdir false
        · exact wallAt_setWallAt_ne_cell hcell _ _ false
      have step2 : wallAt (setWallAt g r c hd false) p q d' =
          wallAt g p q d' := by
        by_cases hcell : r = p ∧ c = q
        · obtain ⟨rfl, rfl⟩ := hcell
          have hdir : hd ≠ d' := by tauto
          exact wallAt_setWallAt_ne_dir hg hdir false
        · exact wallAt_setWallAt_ne_cell hcell _ _ false
      rw [step1, step2]

/-- Normal form of a carve update: whatever the chosen direction, the two
flipped flags are the S/N pair below some cell or the E/W pair beside some
cell. -/
theorem carve_update_normalize {rows cols : Nat} {g : Grid}
    (hg : matDims rows cols g) {r c nr nc : Nat} {hd : Dir}
    (hr : r < rows) (hc : c < cols)
    (hstep : stepN rows cols r c hd = some (nr, nc)) :
    (∃ a b, a + 1 < rows ∧ b < cols ∧
      ∀ p q d', wallAt (setWallAt (setWallAt g r c hd false) nr nc
          (OPPOSITE hd) false) p q d' =
        if (p = a ∧ q = b ∧ d' = S) ∨ (p = a + 1 ∧ q = b ∧ d' = N)
        then false
        else wallAt g p q d') ∨
    (∃ a b, a < rows ∧ b + 1 < cols ∧
      ∀ p q d', wallAt (setWallAt (setWallAt g r c hd false) nr nc
          (OPPOSITE hd) false) p q d' =
        if (p = a ∧ q = b ∧ d' = E) ∨ (p = a ∧ q = b + 1 ∧ d' = W)
        then false
        else wallAt g p q d') := by
  have hupd := wallAt_carve_update hg hr hc hstep
  cases hd
  · left
    rw [stepN_N_iff] at hstep
    obtain ⟨a1, a2, a3, heq⟩ := hstep
    simp only [Prod.mk.injEq] at heq
    refine ⟨r - 1, c, by omega, hc, ?_⟩
    intro p q d'
    rw [hupd p q d']
    apply if_congr _ rfl rfl
    constructor
    · rintro (⟨rfl, rfl, rfl⟩ | ⟨rfl, rfl, rfl⟩)
      · exact Or.inr ⟨by omega, by omega, by simp [OPPOSITE]⟩
      · exact Or.inl ⟨by omega, by omega, by simp [OPPOSITE]⟩
    · rintro (⟨rfl, rfl, rfl⟩ | ⟨rfl, rfl, rfl⟩)
      · exact Or.inr ⟨by omega, by omega, by simp [OPPOSITE]⟩
      · exact Or.inl ⟨by omega, by omega, by simp [OPPOSITE]⟩
  · left
    rw [stepN_S_iff] at hstep
    obtain ⟨a1, a2, heq⟩ := hstep
    simp only [Prod.mk.injEq] at heq
    refine ⟨r, c, by omega, hc, ?_⟩
    intro p q d'
    rw [hupd p q d']
    apply if_congr _ rfl rfl
    constructor
    · rintro (⟨rfl, rfl, rfl⟩ | ⟨rfl, rfl, rfl⟩)
      · exact Or.inl ⟨by omega, by omega, by simp [OPPOSITE]⟩
      · exact Or.inr ⟨by omega, by omega, by simp [OPPOSITE]⟩
    · rintro (⟨rfl, rfl, rfl⟩ | ⟨rfl, rfl, rfl⟩)
      · exact Or.inl ⟨by omega, by omega, by simp [OPPOSITE]⟩
      · exact Or.inr ⟨by omega, by omega, by simp [OPPOSITE]⟩
  · right
    rw [stepN_E_iff] at hstep
    obtain ⟨a1, a2, heq⟩ := hstep
    simp only [Prod.mk.injEq] at heq
    refine ⟨r, c, a1, by omega, ?_⟩
    intro p q d'
    rw [hupd p q d']
    apply if_congr _ rfl rfl
    constructor
    · rintro (⟨rfl, rfl, rfl⟩ | ⟨rfl, rfl, rfl⟩)
      · exact Or.inl ⟨by omega, by omega, by simp [OPPOSITE]⟩
      · exact Or.inr ⟨by omega, by omega, by simp [OPPOSITE]⟩
    · rintro (⟨rfl, rfl, rfl⟩ | ⟨rfl, rfl, rfl⟩)
      · exact Or.inl ⟨by omega, by omega, by simp [OPPOSITE]⟩
      · exact Or.inr ⟨by omega, by omega, by simp [OPPOSITE]⟩
  · right
    rw [stepN_W_iff] at hstep
    obtain ⟨a1, a2, a3, heq⟩ := hstep
    simp only [Prod.mk.injEq] at heq
    refine ⟨r, c - 1, a1, by omega, ?_⟩
    intro p q d'
    rw [hupd p q d']
    apply if_congr _ rfl rfl
    constructor
    · rintro (⟨rfl, rfl, rfl⟩ | ⟨rfl, rfl, rfl⟩)
      · exact Or.inr ⟨by omega, by omega, by simp [OPPOSITE]⟩
      · exact Or.inl ⟨by omega, by omega, by simp [OPPOSITE]⟩
    · rintro (⟨rfl, rfl, rfl⟩ | ⟨rfl, rfl, rfl⟩)
      · exact Or.inr ⟨by omega, by omega, by simp [OPPOSITE]⟩
      · exact Or.inl ⟨by omega, by omega, by simp [OPPOSITE]⟩

theorem OPPOSITE_inj {d e : Dir} (h : OPPOSITE d = OPPOSITE e) : d = e := by
  have := congrArg OPPOSITE h
  rwa [OPPOSITE_OPPOSITE, OPPOSITE_OPPOSITE] at this

/-- Knocking down a shared wall pair preserves wall symmetry. -/
theorem carve_wallSymm {rows cols : Nat} {g : Grid}
    (hg : matDims rows cols g) {r c nr nc : Nat} {hd : Dir}
    (hr : r < rows) (hc : c < cols)
    (hstep : stepN rows cols r c hd = some (nr, nc))
    (hw : wallSymm rows cols g) :
    wallSymm rows cols
      (setWallAt (setWallAt g r c hd false) nr nc (OPPOSITE hd) false) := by
  rcases carve_update_normalize hg hr hc hstep with
    ⟨a, b, hab, hbb, hupd⟩ | ⟨a, b, hab, hbb, hupd⟩
  · intro p hp q hq
    constructor
    · intro hp1
      rw [hupd p q S, hupd (p + 1) q N]
      by_cases hck : p = a ∧ q = b
      · rw [if_pos (Or.inl ⟨hck.1, hck.2, rfl⟩),
          if_pos (Or.inr ⟨by omega, hck.2, rfl⟩)]
      · rw [if_neg ?_, if_neg ?_]
        · exact (hw p hp q hq).1 hp1
        · rintro (⟨h1, h2, h3⟩ | ⟨h1, h2, h3⟩)
          · exact Dir.noConfusion h3
          · exact hck ⟨by omega, h2⟩
        · rintro (⟨h1, h2, h3⟩ | ⟨h1, h2, h3⟩)
          · exact hck ⟨h1, h2⟩
          · exact Dir.noConfusion h3
    · intro hq1
      rw [hupd p q E, hupd p (q + 1) W]
      rw [if_neg ?_, if_neg ?_]
      · exact (hw p hp q hq).2 hq1
      · rintro (⟨h1, h2, h3⟩ | ⟨h1, h2, h3⟩) <;> exact Dir.noConfusion h3
      · rintro (⟨h1, h2, h3⟩ | ⟨h1, h2, h3⟩) <;> exact Dir.noConfusion h3
  · intro p hp q hq
    constructor
    · intro hp1
      rw [hupd p q S, hupd (p + 1) q N]
      rw [if_neg ?_, if_neg ?_]
      · exact (hw p hp q hq).1 hp1
      · rintro (⟨h1, h2, h3⟩ | ⟨h1, h2, h3⟩) <;> exact Dir.noConfusion h3
      · rintro (⟨h1, h2, h3⟩ | ⟨h1, h2, h3⟩) <;> exact Dir.noConfusion h3
    · intro hq1
      rw [hupd p q E, hupd p (q + 1) W]
      by_cases hck : p = a ∧ q = b
      · rw [if_pos (Or.inl ⟨hck.1, hck.2, rfl⟩),
          if_pos (Or.inr ⟨hck.1, by omega, rfl⟩)]
      · rw [if_neg ?_, if_neg ?_]
        · exact (hw p hp q hq).2 hq1
        · rintro (⟨h1, h2, h3⟩ | ⟨h1, h2, h3⟩)
          · exact Dir.noConfusion h3
          · exact hck ⟨h1, by omega⟩
        · rintro (⟨h1, h2, h3⟩ | ⟨h1, h2, h3⟩)
          · exact hck ⟨h1, h2⟩
          · exact Dir.noConfusion h3

/-- Knocking down a shared wall pair never touches the outer border. -/
theorem carve_boundary {rows cols : Nat} {g : Grid}
    (hg : matDims rows cols g) {r c nr nc : Nat} {hd : Dir}
    (hr : r < rows) (hc : c < cols)
    (hstep : stepN rows cols r c hd = some (nr, nc))
    (hb : boundaryIntact rows cols g) :
    boundaryIntact rows cols
      (setWallAt (setWallAt g r c hd false) nr nc (OPPOSITE hd) false) := by
  rcases carve_update_normalize hg hr hc hstep with
    ⟨a, b, hab, hbb, hupd⟩ | ⟨a, b, hab, hbb, hupd⟩
  · intro p hp q hq
    refine ⟨?_, ?_, ?_, ?_⟩
    · intro h0
      rw [hupd p q N, if_neg ?_]
      · exact (hb p hp q hq).1 h0
      · rintro (⟨h1, h2, h3⟩ | ⟨h1, h2, h3⟩)
        · exact Dir.noConfusion h3
        · omega
    · intro h0
      rw [hupd p q S, if_neg ?_]
      · exact (hb p hp q hq).2.1 h0
      · rintro (⟨h1, h2, h3⟩ | ⟨h1, h2, h3⟩)
        · omega
        · exact Dir.noConfusion h3
    · intro h0
      rw [hupd p q W, if_neg ?_]
      · exact (hb p hp q hq).2.2.1 h0
      · rintro (⟨h1, h2, h3⟩ | ⟨h1, h2, h3⟩) <;> exact Dir.noConfusion h3
    · intro h0
      rw [hupd p q E, if_neg ?_]
      · exact (hb p hp q hq).2.2.2 h0
      · rintro (⟨h1, h2, h3⟩ | ⟨h1, h2, h3⟩) <;> exact Dir.noConfusion h3
  · intro p hp q hq
    refine ⟨?_, ?_, ?_, ?_⟩
    · intro h0
      rw [hupd p q N, if_neg ?_]
      · exact (hb p hp q hq).1 h0
      · rintro (⟨h1, h2, h3⟩ | ⟨h1, h2, h3⟩) <;> exact Dir.noConfusion h3
    · intro h0
      rw [hupd p q S, if_neg ?_]
      · exact (hb p hp q hq).2.1 h0
      · rintro (⟨h1, h2, h3⟩ | ⟨h1, h2, h3⟩) <;> exact Dir.noConfusion h3
    · intro h0
      rw [hupd p q W, if_neg ?_]
      · exact (hb p hp q hq).2.2.1 h0
      · rintro (⟨h1, h2, h3⟩ | ⟨h1, h2, h3⟩)
        · exact Dir.noConfusion h3
        · omega
    · intro h0
      rw [hupd p q E, if_neg ?_]
      · exact (hb p hp q hq).2.2.2 h0
      · rintro (⟨h1, h2, h3⟩ | ⟨h1, h2, h3⟩)
        · omega
        · exact Dir.noConfusion h3

/-- After the update, the intended edge is open. -/
theorem carve_openAdjB_new {rows cols : Nat} {g : Grid}
    (hg : matDims rows cols g) {r c nr nc : Nat} {hd : Dir}
    (hr : r < rows) (hc : c < cols)
    (hstep : stepN rows cols r c hd = some (nr, nc)) :
    openAdjB rows cols
      (setWallAt (setWallAt g r c hd false) nr nc (OPPOSITE hd) false)
      (r, c) (nr, nc) = true := by
  have hnb := stepN_some_inBounds hstep
  rw [openAdjB_iff]
  refine ⟨⟨hr, hc⟩, ⟨hnb.1, hnb.2⟩, hd, hstep, ?_, ?_⟩
  · rw [wallAt_carve_update hg hr hc hstep,
      if_pos (Or.inl ⟨rfl, rfl, rfl⟩)]
  · rw [wallAt_carve_update hg hr hc hstep,
      if_pos (Or.inr ⟨rfl, rfl, rfl⟩)]

/-- The update only opens walls, so adjacency is monotone. -/
theorem carve_openAdjB_mono {rows cols : Nat} {g : Grid}
    (hg : matDims rows cols g) {r c nr nc : Nat} {hd : Dir}
    (hr : r < rows) (hc : c < cols)
    (hstep : stepN rows cols r c hd = some (nr, nc)) {u v : Nat × Nat}
    (h : openAdjB rows cols g u v = true) :
    openAdjB rows cols
      (setWallAt (setWallAt g r c hd false) nr nc (OPPOSITE hd) false)
      u v = true := by
  rw [openAdjB_iff] at h ⊢
  obtain ⟨hu, hv, d, hstepd, w1, w2⟩ := h
  refine ⟨hu, hv, d, hstepd, ?_, ?_⟩
  · rw [wallAt_carve_update hg hr hc hstep]
    split_ifs with hcond
    · rfl
    · exact w1
  · rw [wallAt_carve_update hg hr hc hstep]
    split_ifs with hcond
    · rfl
    · exact w2

/-- Conversely, an edge of the updated grid is an old edge or the single new
one (in either orientation). -/
theorem carve_openAdjB_inv {rows cols : Nat} {g : Grid}
    (hg : matDims rows cols g) {r c nr nc : Nat} {hd : Dir}
    (hr : r < rows) (hc : c < cols)
    (hstep : stepN rows cols r c hd = some (nr, nc)) {u v : Nat × Nat}
    (h : openAdjB rows cols
      (setWallAt (setWallAt g r c hd false) nr nc (OPPOSITE hd) false)
      u v = true) :
    openAdjB rows cols g u v = true ∨
      (u = (r, c) ∧ v = (nr, nc)) ∨ (u = (nr, nc) ∧ v = (r, c)) := by
  rw [openAdjB_iff] at h
  obtain ⟨hu, hv, d, hstepd, w1, w2⟩ := h
  rw [wallAt_carve_update hg hr hc hstep] at w1 w2
  by_cases c1 : (u.1 = r ∧ u.2 = c ∧ d = hd) ∨
      (u.1 = nr ∧ u.2 = nc ∧ d = OPPOSITE hd)
  · rcases c1 with ⟨e1, e2, rfl⟩ | ⟨e1, e2, rfl⟩
    · right
      left
      have huq : u = (r, c) := by
        obtain ⟨u1, u2⟩ := u
        simp only [Prod.mk.injEq]
        exact ⟨e1, e2⟩
      refine ⟨huq, ?_⟩
      rw [huq] at hstepd
      exact (Option.some_inj.mp (hstepd.symm.trans hstep)).symm ▸ rfl
    · right
      right
      have huq : u = (nr, nc) := by
        obtain ⟨u1, u2⟩ := u
        simp only [Prod.mk.injEq]
        exact ⟨e1, e2⟩
      refine ⟨huq, ?_⟩
      rw [huq] at hstepd
      have hop := stepN_opposite hr hc hstep
      simp only at hop
      exact Option.some_inj.mp (hstepd.symm.trans hop)
  · rw [if_neg c1] at w1
    by_cases c2 : (v.1 = r ∧ v.2 = c ∧ OPPOSITE d = hd) ∨
        (v.1 = nr ∧ v.2 = nc ∧ OPPOSITE d = OPPOSITE hd)
    · rcases c2 with ⟨e1, e2, e3⟩ | ⟨e1, e2, e3⟩
      · right
        right
        have hvq : v = (r, c) := by
          obtain ⟨v1, v2⟩ := v
          simp only [Prod.mk.injEq]
          exact ⟨e1, e2⟩
        have hdq : d = OPPOSITE hd := by
          rw [← e3, OPPOSITE_OPPOSITE]
        rw [hvq, hdq] at hstepd
        have hop := stepN_opposite hr hc hstep
        simp only at hop
        have : u = (nr, nc) := stepN_inj_source hstepd hop
        exact ⟨this, hvq⟩
      · right
        left
        have hvq : v = (nr, nc) := by
          obtain ⟨v1, v2⟩ := v
          simp only [Prod.mk.injEq]
          exact ⟨e1, e2⟩
        have hdq : d = hd := OPPOSITE_inj e3
        rw [hvq, hdq] at hstepd
        have : u = (r, c) := stepN_inj_source hstepd hstep
        exact ⟨this, hvq⟩
    · rw [if_neg c2] at w2
      left
      rw [openAdjB_iff]
      exact ⟨hu, hv, d, hstepd, w1, w2⟩

end CarveEdge

section VisitedLemmas

theorem visDims_setVisited {rows cols : Nat} {vis : List (List Bool)}
    (h : matDims rows cols vis) (r c : Nat) :
    matDims rows cols (setVisited vis r c) :=
  matDims_matSet h r c true

theorem visDims_initVisited (rows cols : Nat) :
    matDims rows cols (initVisited rows cols) :=
  matDims_replicate rows cols false

theorem visitedAt_initVisited (rows cols r c : Nat) :
    visitedAt (initVisited rows cols) r c =
      if r < rows ∧ c < cols then false else true := by
  unfold visitedAt initVisited
  exact matGet_replicate rows cols false true r c

theorem visitedAt_setVisited_self {rows cols : Nat} {vis : List (List Bool)}
    (h : matDims rows cols vis) {r c : Nat} (hr : r < rows) (hc : c < cols) :
    visitedAt (setVisited vis r c) r c = true :=
  matGet_matSet_self h hr hc true true

theorem visitedAt_setVisited_ne {vis : List (List Bool)} {r c p q : Nat}
    (hne : ¬ (r = p ∧ c = q)) :
    visitedAt (setVisited vis r c) p q = visitedAt vis p q :=
  matGet_matSet_ne hne true true

theorem visitedAt_setVisited_mono {vis : List (List Bool)} {r c p q : Nat}
    (h : visitedAt vis p q = true) :
    visitedAt (setVisited vis r c) p q = true := by
  by_cases hne : r = p ∧ c = q
  · obtain ⟨rfl, rfl⟩ := hne
    rcases matGet_matSet_self_or vis r c true true with heq | heq
    · exact heq
    · unfold visitedAt setVisited
      rw [heq]
      exact h
  · rw [visitedAt_setVisited_ne hne]
    exact h

theorem visitedAt_setVisited_false {vis : List (List Bool)} {r c p q : Nat}
    (h : visitedAt (setVisited vis r c) p q = false) :
    visitedAt vis p q = false := by
  by_contra hcon
  rw [visitedAt_setVisited_mono (by simpa using hcon)] at h
  exact absurd h (by simp)

end VisitedLemmas

section Measure

/-- Number of in-bounds cells still unvisited. -/
def unvisCount (rows cols : Nat) (vis : List (List Bool)) : Nat :=
  (((Finset.range rows) ×ˢ (Finset.range cols)).filter
    (fun p => visitedAt vis p.1 p.2 = false)).card

/-- Number of in-bounds cells already visited. -/
def visCount (rows cols : Nat) (vis : List (List Bool)) : Nat :=
  (((Finset.range rows) ×ˢ (Finset.range cols)).filter
    (fun p => visitedAt vis p.1 p.2 = true)).card

/-- The loop variant: twice the unvisited cells plus the stack height. -/
def carveMeasure (rows cols : Nat) (st : CarveState) : Nat :=
  2 * unvisCount rows cols st.visited + st.stack.length

theorem unvisCount_setVisited_le (rows cols : Nat) (vis : List (List Bool))
    (r c : Nat) :
    unvisCount rows cols (setVisited vis r c) ≤ unvisCount rows cols vis := by
  apply Finset.card_le_card
  intro p hp
  rw [Finset.mem_filter] at hp ⊢
  exact ⟨hp.1, visitedAt_setVisited_false hp.2⟩

theorem unvisCount_setVisited_lt {rows cols : Nat} {vis : List (List Bool)}
    {r c : Nat} (hr : r < rows) (hc : c < cols)
    (hv : matDims rows cols vis)
    (hunvis : visitedAt vis r c = false) :
    unvisCount rows cols (setVisited vis r c) < unvisCount rows cols vis := by
  apply Finset.card_lt_card
  constructor
  · intro p hp
    rw [Finset.mem_filter] at hp ⊢
    exact ⟨hp.1, visitedAt_setVisited_false hp.2⟩
  · intro hsub
    have hmem : (r, c) ∈ ((Finset.range rows) ×ˢ (Finset.range cols)).filter
        (fun p => visitedAt vis p.1 p.2 = false) := by
      rw [Finset.mem_filter, Finset.mem_product, Finset.mem_range,
        Finset.mem_range]
      exact ⟨⟨hr, hc⟩, hunvis⟩
    have := hsub hmem
    rw [Finset.mem_filter] at this
    rw [visitedAt_setVisited_self hv hr hc] at this
    exact absurd this.2 (by simp)

theorem visCount_le (rows cols : Nat) (vis : List (List Bool)) :
    visCount rows cols vis ≤ rows * cols := by
  calc visCount rows cols vis
      ≤ ((Finset.range rows) ×ˢ (Finset.range cols)).card :=
        Finset.card_filter_le _ _
    _ = rows * cols := by rw [Finset.card_product, Finset.card_range,
        Finset.card_range]

theorem visCount_setVisited_mono (rows cols : Nat) (vis : List (List Bool))
    (r c : Nat) :
    visCount rows cols vis ≤ visCount rows cols (setVisited vis r c) := by
  apply Finset.card_le_card
  intro p hp
  rw [Finset.mem_filter] at hp ⊢
  exact ⟨hp.1, visitedAt_setVisited_mono hp.2⟩

end Measure

section CarveStepEqns

theorem carveStep_nil {rows cols : Nat} {cx : ℚ} {o : RandOracle} {t : Nat}
    {st : CarveState} (h : st.stack = []) :
    carveStep rows cols cx o t st = st := by
  obtain ⟨g, vis, stack⟩ := st
  simp only at h
  subst h
  rfl

theorem carveStep_pop {rows cols : Nat} {cx : ℚ} {o : RandOracle} {t : Nat}
    {st : CarveState} {r c : Nat} {rest : List (Nat × Nat)}
    (h : st.stack = (r, c) :: rest)
    (hn : unvisited_neighbours rows cols cx r c st.visited (o.perm t) = []) :
    carveStep rows cols cx o t st = { st with stack := rest } := by
  obtain ⟨g, vis, stack⟩ := st
  simp only at h hn
  subst h
  unfold carveStep
  simp only [hn]

/-- The entry selected in the push case of the loop body. -/
def pickedEntry (cx : ℚ) (o : RandOracle) (t : Nat) (first : NEntry)
    (tail : List NEntry) : NEntry :=
  if o.rand t < cx then
    (first :: tail).getD (o.choice t % (first :: tail).length) first
  else
    first

theorem pickedEntry_mem (cx : ℚ) (o : RandOracle) (t : Nat) (first : NEntry)
    (tail : List NEntry) :
    pickedEntry cx o t first tail ∈ first :: tail := by
  unfold pickedEntry
  split_ifs
  · exact getD_cons_self_mem first tail _
  · exact List.mem_cons_self first tail

theorem carveStep_push {rows cols : Nat} {cx : ℚ} {o : RandOracle} {t : Nat}
    {st : CarveState} {r c : Nat} {rest : List (Nat × Nat)}
    {first : NEntry} {tail : List NEntry}
    (h : st.stack = (r, c) :: rest)
    (hn : unvisited_neighbours rows cols cx r c st.visited (o.perm t) =
      first :: tail) :
    carveStep rows cols cx o t st =
      { grid := setWallAt
          (setWallAt st.grid r c (pickedEntry cx o t first tail).2.2.1 false)
          (pickedEntry cx o t first tail).1
          (pickedEntry cx o t first tail).2.1
          (pickedEntry cx o t first tail).2.2.2 false,
        visited := setVisited st.visited (pickedEntry cx o t first tail).1
          (pickedEntry cx o t first tail).2.1,
        stack := ((pickedEntry cx o t first tail).1,
          (pickedEntry cx o t first tail).2.1) :: st.stack } := by
  obtain ⟨g, vis, stack⟩ := st
  simp only at h hn ⊢
  subst h
  unfold carveStep
  simp only [hn, pickedEntry]

end CarveStepEqns

section CarveTermination

theorem visDims_carveStep {rows cols : Nat} {cx : ℚ} {o : RandOracle}
    {t : Nat} {st : CarveState} (hv : matDims rows cols st.visited) :
    matDims rows cols (carveStep rows cols cx o t st).visited := by
  rcases hstack : st.stack with _ | ⟨⟨r, c⟩, rest⟩
  · rw [carveStep_nil hstack]
    exact hv
  · rcases hn : unvisited_neighbours rows cols cx r c st.visited (o.perm t)
      with _ | ⟨first, tail⟩
    · rw [carveStep_pop hstack hn]
      exact hv
    · rw [carveStep_push hstack hn]
      exact visDims_setVisited hv _ _

theorem gridDims_carveStep {rows cols : Nat} {cx : ℚ} {o : RandOracle}
    {t : Nat} {st : CarveState} (hg : matDims rows cols st.grid) :
    matDims rows cols (carveStep rows cols cx o t st).grid := by
  rcases hstack : st.stack with _ | ⟨⟨r, c⟩, rest⟩
  · rw [carveStep_nil hstack]
    exact hg
  · rcases hn : unvisited_neighbours rows cols cx r c st.visited (o.perm t)
      with _ | ⟨first, tail⟩
    · rw [carveStep_pop hstack hn]
      exact hg
    · rw [carveStep_push hstack hn]
      exact gridDims_setWallAt (gridDims_setWallAt hg _ _ _ _) _ _ _ _

theorem carveLoop_zero (rows cols : Nat) (cx : ℚ) (o : RandOracle)
    (t : Nat) (st : CarveState) : carveLoop rows cols cx o 0 t st = st := rfl

theorem carveLoop_succ_nil {rows cols : Nat} {cx : ℚ} {o : RandOracle}
    {fuel t : Nat} {st : CarveState} (h : st.stack = []) :
    carveLoop rows cols cx o (fuel + 1) t st = st := by
  obtain ⟨g, vis, stack⟩ := st
  simp only at h
  subst h
  rfl

theorem carveLoop_succ_cons {rows cols : Nat} {cx : ℚ} {o : RandOracle}
    {fuel t : Nat} {st : CarveState} {p : Nat × Nat} {rest : List (Nat × Nat)}
    (h : st.stack = p :: rest) :
    carveLoop rows cols cx o (fuel + 1) t st =
      carveLoop rows cols cx o fuel (t + 1)
        (carveStep rows cols cx o t st) := by
  obtain ⟨g, vis, stack⟩ := st
  simp only at h
  subst h
  rfl

theorem carveMeasure_step_lt {rows cols : Nat} {cx : ℚ} {o : RandOracle}
    {t : Nat} {st : CarveState} (hv : matDims rows cols st.visited)
    (hne : st.stack ≠ []) :
    carveMeasure rows cols (carveStep rows cols cx o t st) <
      carveMeasure rows cols st := by
  rcases hstack : st.stack with _ | ⟨⟨r, c⟩, rest⟩
  · exact absurd hstack hne
  · rcases hn : unvisited_neighbours rows cols cx r c st.visited (o.perm t)
      with _ | ⟨first, tail⟩
    · rw [carveStep_pop hstack hn]
      unfold carveMeasure
      simp only [hstack]
      simp only [List.length_cons]
      omega
    · rw [carveStep_push hstack hn]
      have hmem : pickedEntry cx o t first tail ∈
          unvisited_neighbours rows cols cx r c st.visited (o.perm t) := by
        rw [hn]
        exact pickedEntry_mem cx o t first tail
      rw [mem_unvisited_neighbours] at hmem
      obtain ⟨d, hstep, hunvis, _, _⟩ := hmem
      have hnb := stepN_some_inBounds hstep
      have hnb2 : (pickedEntry cx o t first tail).1 < rows ∧
          (pickedEntry cx o t first tail).2.1 < cols := hnb
      have hlt := unvisCount_setVisited_lt hnb2.1 hnb2.2 hv hunvis
      unfold carveMeasure
      simp only [hstack, List.length_cons]
      omega

/-- Unfolding the loop from the back: running `fuel + 1` iterations is
running `fuel` iterations and then one more step (if the stack is not yet
empty). -/
theorem carveLoop_succ_last (rows cols : Nat) (cx : ℚ) (o : RandOracle) :
    ∀ (fuel t : Nat) (st : CarveState),
      carveLoop rows cols cx o (fuel + 1) t st =
        if (carveLoop rows cols cx o fuel t st).stack = [] then
          carveLoop rows cols cx o fuel t st
        else
          carveStep rows cols cx o (t + fuel)
            (carveLoop rows cols cx o fuel t st) := by
  intro fuel
  induction fuel with
  | zero =>
    intro t st
    rcases hstack : st.stack with _ | ⟨p, rest⟩
    · rw [carveLoop_succ_nil hstack, carveLoop_zero, if_pos hstack]
    · rw [carveLoop_succ_cons hstack, carveLoop_zero, carveLoop_zero,
        if_neg (by rw [hstack]; exact List.cons_ne_nil _ _), Nat.add_zero]
  | succ k ih =>
    intro t st
    rcases hstack : st.stack with _ | ⟨p, rest⟩
    · rw [carveLoop_succ_nil hstack, carveLoop_succ_nil hstack,
        if_pos hstack]
    · rw [@carveLoop_succ_cons rows cols cx o (k + 1) t st p rest hstack,
        @carveLoop_succ_cons rows cols cx o k t st p rest hstack, ih]
      have harith : t + 1 + k = t + (k + 1) := by omega
      rw [harith]

theorem carveLoop_stack_nil (rows cols : Nat) (cx : ℚ) (o : RandOracle) :
    ∀ (fuel t : Nat) (st : CarveState), matDims rows cols st.visited →
      carveMeasure rows cols st ≤ fuel →
      (carveLoop rows cols cx o fuel t st).stack = [] := by
  intro fuel
  induction fuel with
  | zero =>
    intro t st hv hm
    unfold carveMeasure at hm
    have hlen : st.stack.length = 0 := by omega
    rw [List.length_eq_zero] at hlen
    rw [carveLoop_zero]
    exact hlen
  | succ k ih =>
    intro t st hv hm
    rcases hstack : st.stack with _ | ⟨p, rest⟩
    · rw [carveLoop_succ_nil hstack]
      exact hstack
    · have hne : st.stack ≠ [] := by
        rw [hstack]
        exact List.cons_ne_nil _ _
      have hlt := @carveMeasure_step_lt rows cols cx o t st hv hne
      have hrec := ih (t + 1) (carveStep rows cols cx o t st)
        (visDims_carveStep hv) (by omega)
      rw [carveLoop_succ_cons hstack]
      exact hrec

end CarveTermination

section CarveInvariant

/-- Reachability along open walls is monotone under wall opening. -/
theorem openReach_mono {rows cols : Nat} {g g2 : Grid}
    (h : ∀ a b, openAdjB rows cols g a b = true →
      openAdjB rows cols g2 a b = true) {u v : Nat × Nat}
    (hr : openReach rows cols g u v) : openReach rows cols g2 u v :=
  Relation.ReflTransGen.mono h hr

theorem openAdjB_initGrid (rows cols : Nat) (u v : Nat × Nat) :
    openAdjB rows cols (initGrid rows cols) u v = false := by
  unfold openAdjB
  simp [wallAt_initGrid]

theorem wallSymm_initGrid (rows cols : Nat) :
    wallSymm rows cols (initGrid rows cols) := by
  intro r hr c hc
  constructor
  · intro h
    rw [wallAt_initGrid, wallAt_initGrid]
  · intro h
    rw [wallAt_initGrid, wallAt_initGrid]

theorem boundaryIntact_initGrid (rows cols : Nat) :
    boundaryIntact rows cols (initGrid rows cols) := by
  intro r hr c hc
  exact ⟨fun _ => wallAt_initGrid rows cols r c N,
    fun _ => wallAt_initGrid rows cols r c S,
    fun _ => wallAt_initGrid rows cols r c W,
    fun _ => wallAt_initGrid rows cols r c E⟩

/-- Loop invariant of `_carve_passage`, relative to the start cell. -/
structure CarveInv (rows cols : Nat) (start : Nat × Nat) (st : CarveState) :
    Prop where
  gdims : matDims rows cols st.grid
  vdims : matDims rows cols st.visited
  wsym : wallSymm rows cols st.grid
  bdry : boundaryIntact rows cols st.grid
  startVis : visitedAt st.visited start.1 start.2 = true
  edgeVis : ∀ u v : Nat × Nat, openAdjB rows cols st.grid u v = true →
    visitedAt st.visited u.1 u.2 = true
  reachStart : ∀ p : Nat × Nat, inBounds rows cols p →
    visitedAt st.visited p.1 p.2 = true → openReach rows cols st.grid start p
  stackGood : ∀ p ∈ st.stack, inBounds rows cols p ∧
    visitedAt st.visited p.1 p.2 = true
  stackNodup : st.stack.Nodup
  doneClosed : ∀ p : Nat × Nat, inBounds rows cols p →
    visitedAt st.visited p.1 p.2 = true → p ∉ st.stack →
    ∀ d q, stepN rows cols p.1 p.2 d = some q →
      visitedAt st.visited q.1 q.2 = true
  ranked : ∃ parent : Nat × Nat → Nat × Nat, ∃ rank : Nat × Nat → Nat,
    ∀ u v : Nat × Nat, openAdjB rows cols st.grid u v = true →
      (u = parent v ∧ rank u < rank v) ∨ (v = parent u ∧ rank v < rank u)

theorem carveInv_init {rows cols sr sc : Nat} (hr : sr < rows)
    (hc : sc < cols) :
    CarveInv rows cols (sr, sc)
      { grid := initGrid rows cols,
        visited := setVisited (initVisited rows cols) sr sc,
        stack := [(sr, sc)] } := by
  have hvd : matDims rows cols (setVisited (initVisited rows cols) sr sc) :=
    visDims_setVisited (visDims_initVisited rows cols) sr sc
  have hvis_iff : ∀ p : Nat × Nat, inBounds rows cols p →
      visitedAt (setVisited (initVisited rows cols) sr sc) p.1 p.2 = true →
      p = (sr, sc) := by
    rintro ⟨p1, p2⟩ hin hvis
    by_contra hne
    rw [visitedAt_setVisited_ne (by
      simp only [ne_eq, Prod.mk.injEq] at hne
      tauto)] at hvis
    rw [visitedAt_initVisited, if_pos ⟨hin.1, hin.2⟩] at hvis
    exact absurd hvis (by simp)
  refine ⟨gridDims_initGrid rows cols, hvd, wallSymm_initGrid rows cols,
    boundaryIntact_initGrid rows cols, ?_, ?_, ?_, ?_, ?_, ?_, ?_⟩
  · exact visitedAt_setVisited_self (visDims_initVisited rows cols) hr hc
  · intro u v hadj
    rw [openAdjB_initGrid] at hadj
    exact absurd hadj (by simp)
  · intro p hin hvis
    rw [hvis_iff p hin hvis]
    exact Relation.ReflTransGen.refl
  · intro p hp
    simp only [List.mem_singleton] at hp
    subst hp
    exact ⟨⟨hr, hc⟩,
      visitedAt_setVisited_self (visDims_initVisited rows cols) hr hc⟩
  · exact List.nodup_singleton _
  · intro p hin hvis hnot
    exfalso
    apply hnot
    rw [hvis_iff p hin hvis]
    exact List.mem_singleton.mpr rfl
  · refine ⟨id, fun _ => 0, ?_⟩
    intro u v hadj
    rw [openAdjB_initGrid] at hadj
    exact absurd hadj (by simp)

theorem carveInv_step {rows cols : Nat} {start : Nat × Nat} {cx : ℚ}
    {o : RandOracle} {t : Nat} {st : CarveState}
    (hinv : CarveInv rows cols start st) :
    CarveInv rows cols start (carveStep rows cols cx o t st) := by
  rcases hstack : st.stack with _ | ⟨⟨r, c⟩, rest⟩
  · rw [carveStep_nil hstack]
    exact hinv
  · have hrc_mem : (r, c) ∈ st.stack := by
      rw [hstack]
      exact List.mem_cons_self _ _
    have hrc := hinv.stackGood (r, c) hrc_mem
    rcases hn : unvisited_neighbours rows cols cx r c st.visited (o.perm t)
      with _ | ⟨first, tail⟩
    · rw [carveStep_pop hstack hn]
      have hclosed_rc : ∀ d q, stepN rows cols r c d = some q →
          visitedAt st.visited q.1 q.2 = true :=
        unvisited_neighbours_nil_iff.mp hn
      refine ⟨hinv.gdims, hinv.vdims, hinv.wsym, hinv.bdry, hinv.startVis,
        hinv.edgeVis, hinv.reachStart, ?_, ?_, ?_, hinv.ranked⟩
      · intro p hp
        exact hinv.stackGood p (by rw [hstack]; exact List.mem_cons_of_mem _ hp)
      · have := hinv.stackNodup
        rw [hstack] at this
        exact this.of_cons
      · intro p hin hvis hnot d q hq
        by_cases hpeq : p = (r, c)
        · subst hpeq
          exact hclosed_rc d q hq
        · apply hinv.doneClosed p hin hvis _ d q hq
          rw [hstack]
          intro hmem
          rcases List.mem_cons.mp hmem with heq | hmem2
          · exact hpeq heq
          · exact hnot hmem2
    · rw [carveStep_push hstack hn]
      have hmem : pickedEntry cx o t first tail ∈
          unvisited_neighbours rows cols cx r c st.visited (o.perm t) := by
        rw [hn]
        exact pickedEntry_mem cx o t first tail
      rw [mem_unvisited_neighbours] at hmem
      obtain ⟨d, hstep, hunvis, hdir1, hdir2⟩ := hmem
      set X := pickedEntry cx o t first tail with hX
      have hnb : X.1 < rows ∧ X.2.1 < cols := stepN_some_inBounds hstep
      rw [hdir1, hdir2]
      have hstep2 : stepN rows cols r c d = some (X.1, X.2.1) := hstep
      have hgd := hinv.gdims
      have hnewadj := carve_openAdjB_new hgd hrc.1.1 hrc.1.2 hstep2
      have hmono := fun {u v : Nat × Nat} h =>
        @carve_openAdjB_mono rows cols st.grid hgd r c X.1 X.2.1 d
          hrc.1.1 hrc.1.2 hstep2 u v h
      have hinvadj := fun {u v : Nat × Nat} h =>
        @carve_openAdjB_inv rows cols st.grid hgd r c X.1 X.2.1 d
          hrc.1.1 hrc.1.2 hstep2 u v h
      have hnewvis : visitedAt (setVisited st.visited X.1 X.2.1) X.1 X.2.1 =
          true := visitedAt_setVisited_self hinv.vdims hnb.1 hnb.2
      have hXne : ∀ p : Nat × Nat, visitedAt st.visited p.1 p.2 = true →
          p ≠ (X.1, X.2.1) := by
        intro p hvis heq
        rw [heq] at hvis
        rw [hvis] at hunvis
        exact absurd hunvis (by simp)
      refine ⟨?_, ?_, ?_, ?_, ?_, ?_, ?_, ?_, ?_, ?_, ?_⟩
      · exact gridDims_setWallAt (gridDims_setWallAt hgd _ _ _ _) _ _ _ _
      · exact visDims_setVisited hinv.vdims _ _
      · exact carve_wallSymm hgd hrc.1.1 hrc.1.2 hstep2 hinv.wsym
      · exact carve_boundary hgd hrc.1.1 hrc.1.2 hstep2 hinv.bdry
      · exact visitedAt_setVisited_mono hinv.startVis
      · intro u v hadj
        rcases hinvadj hadj with hold | ⟨rfl, rfl⟩ | ⟨rfl, rfl⟩
        · exact visitedAt_setVisited_mono (hinv.edgeVis u v hold)
        · exact visitedAt_setVisited_mono hrc.2
        · exact hnewvis
      · intro p hin hvis
        by_cases hpeq : p = (X.1, X.2.1)
        · subst hpeq
          have hreach_rc : openReach rows cols st.grid start (r, c) :=
            hinv.reachStart (r, c) hrc.1 hrc.2
          exact Relation.ReflTransGen.tail
            (openReach_mono (fun a b h => hmono h) hreach_rc) hnewadj
        · have hvisold : visitedAt st.visited p.1 p.2 = true := by
            rwa [visitedAt_setVisited_ne (by
              obtain ⟨p1, p2⟩ := p
              simp only [ne_eq, Prod.mk.injEq] at hpeq
              tauto)] at hvis
          exact openReach_mono (fun a b h => hmono h)
            (hinv.reachStart p hin hvisold)
      · intro p hp
        rcases List.mem_cons.mp hp with heq | hmem2
        · subst heq
          exact ⟨⟨hnb.1, hnb.2⟩, hnewvis⟩
        · obtain ⟨hin2, hvis2⟩ := hinv.stackGood p hmem2
          exact ⟨hin2, visitedAt_setVisited_mono hvis2⟩
      · refine List.Nodup.cons ?_ hinv.stackNodup
        intro hmem2
        exact hXne (X.1, X.2.1) (hinv.stackGood _ hmem2).2 rfl
      · intro p hin hvis hnot d0 q hq
        have hpnot_new : p ≠ (X.1, X.2.1) := by
          intro heq
          exact hnot (by rw [heq]; exact List.mem_cons_self _ _)
        have hpnot_old : p ∉ st.stack := by
          intro hmem2
          exact hnot (List.mem_cons_of_mem _ hmem2)
        have hvisold : visitedAt st.visited p.1 p.2 = true := by
          rwa [visitedAt_setVisited_ne (by
            obtain ⟨p1, p2⟩ := p
            simp only [ne_eq, Prod.mk.injEq] at hpnot_new
            tauto)] at hvis
        exact visitedAt_setVisited_mono
          (hinv.doneClosed p hin hvisold hpnot_old d0 q hq)
      · obtain ⟨parent, rank, hpr⟩ := hinv.ranked
        classical
        refine ⟨Function.update parent (X.1, X.2.1) (r, c),
          Function.update rank (X.1, X.2.1)
            (((Finset.range rows) ×ˢ (Finset.range cols)).sup rank + 1),
          ?_⟩
        set B := ((Finset.range rows) ×ˢ (Finset.range cols)).sup rank
          with hB
        have hrankrc : rank (r, c) ≤ B := by
          apply Finset.le_sup
          rw [Finset.mem_product, Finset.mem_range, Finset.mem_range]
          exact ⟨hrc.1.1, hrc.1.2⟩
        have hrc_ne : (r, c) ≠ (X.1, X.2.1) := hXne (r, c) hrc.2
        intro u v hadj
        rcases hinvadj hadj with hold | ⟨rfl, rfl⟩ | ⟨rfl, rfl⟩
        · have hu_ne : u ≠ (X.1, X.2.1) := hXne u (hinv.edgeVis u v hold)
          have hv_ne : v ≠ (X.1, X.2.1) :=
            hXne v (hinv.edgeVis v u (openAdjB_true_symm rows cols _ _ _ hold))
          rcases hpr u v hold with ⟨hp, hrk⟩ | ⟨hp, hrk⟩
          · left
            rw [Function.update_noteq hv_ne, Function.update_noteq hu_ne,
              Function.update_noteq hv_ne]
            exact ⟨hp, hrk⟩
          · right
            rw [Function.update_noteq hu_ne, Function.update_noteq hu_ne,
              Function.update_noteq hv_ne]
            exact ⟨hp, hrk⟩
        · left
          rw [Function.update_same, Function.update_same,
            Function.update_noteq hrc_ne]
          exact ⟨rfl, by omega⟩
        · right
          rw [Function.update_same, Function.update_same,
            Function.update_noteq hrc_ne]
          exact ⟨rfl, by omega⟩

theorem carveInv_loop {rows cols : Nat} {start : Nat × Nat} {cx : ℚ}
    {o : RandOracle} :
    ∀ (fuel t : Nat) (st : CarveState), CarveInv rows cols start st →
      CarveInv rows cols start (carveLoop rows cols cx o fuel t st) := by
  intro fuel
  induction fuel with
  | zero =>
    intro t st hinv
    rw [carveLoop_zero]
    exact hinv
  | succ k ih =>
    intro t st hinv
    rcases hstack : st.stack with _ | ⟨p, rest⟩
    · rw [carveLoop_succ_nil hstack]
      exact hinv
    · rw [carveLoop_succ_cons hstack]
      exact ih (t + 1) _ (carveInv_step hinv)

end CarveInvariant

section Acyclicity

/-- A graph whose every edge steps down to a unique parent under an
injective-enough ranking is acyclic: on a cycle, the maximal-rank vertex
would need two distinct parents. -/
theorem isAcyclic_of_rank {V : Type} [DecidableEq V] (G : SimpleGraph V)
    (parent : V → V) (rank : V → Nat)
    (H : ∀ u v, G.Adj u v →
      (u = parent v ∧ rank u < rank v) ∨ (v = parent u ∧ rank v < rank u)) :
    G.IsAcyclic := by
  intro v c hc
  have hvs : v ∈ c.support := c.start_mem_support
  have hnonempty : c.support.toFinset.Nonempty :=
    ⟨v, List.mem_toFinset.mpr hvs⟩
  obtain ⟨m, hms0, hmax0⟩ :=
    Finset.exists_max_image c.support.toFinset rank hnonempty
  have hms : m ∈ c.support := List.mem_toFinset.mp hms0
  have hmax : ∀ u ∈ c.support, rank u ≤ rank m := fun u hu =>
    hmax0 u (List.mem_toFinset.mpr hu)
  have hc2cyc : (c.rotate hms).IsCycle := hc.rotate hms
  have hsupp : ∀ u, u ∈ (c.rotate hms).support → u ∈ c.support := by
    intro u hu
    rcases (SimpleGraph.Walk.mem_support_iff _).mp hu with heq | htail
    · rw [heq]
      exact hms
    · have hrot := SimpleGraph.Walk.support_rotate c hms
      exact List.mem_of_mem_tail (hrot.mem_iff.mp htail)
  revert hc2cyc hsupp
  generalize c.rotate hms = c2
  intro hc2cyc hsupp
  cases c2 with
  | nil =>
    have := hc2cyc.three_le_length
    simp at this
  | cons hadj p =>
    rename_i x
    obtain ⟨hp, hedge⟩ := (SimpleGraph.Walk.cons_isCycle_iff p hadj).mp hc2cyc
    have hx_in : x ∈ c.support := by
      apply hsupp
      rw [SimpleGraph.Walk.support_cons]
      exact List.mem_cons_of_mem _ p.start_mem_support
    have hx_par : x = parent m := by
      rcases H m x hadj with ⟨heq, hlt⟩ | ⟨heq, hlt⟩
      · exact absurd hlt (not_lt.mpr (hmax x hx_in))
      · exact heq
    have hqnil : ¬ p.reverse.Nil := by
      rw [SimpleGraph.Walk.not_nil_iff_lt_length,
        SimpleGraph.Walk.length_reverse]
      have h3 := hc2cyc.three_le_length
      rw [SimpleGraph.Walk.length_cons] at h3
      omega
    obtain ⟨y, hadj2, q2, hq2⟩ := SimpleGraph.Walk.not_nil_iff.mp hqnil
    have hy_in : y ∈ c.support := by
      apply hsupp
      rw [SimpleGraph.Walk.support_cons]
      apply List.mem_cons_of_mem
      have : y ∈ p.reverse.support := by
        rw [hq2, SimpleGraph.Walk.support_cons]
        exact List.mem_cons_of_mem _ q2.start_mem_support
      rwa [SimpleGraph.Walk.support_reverse, List.mem_reverse] at this
    have hy_par : y = parent m := by
      rcases H m y hadj2 with ⟨heq, hlt⟩ | ⟨heq, hlt⟩
      · exact absurd hlt (not_lt.mpr (hmax y hy_in))
      · exact heq
    have hxy : y = x := by rw [hy_par, hx_par]
    subst hxy
    have hq2path : q2.IsPath := by
      have hrevpath : p.reverse.IsPath := hp.reverse
      rw [hq2] at hrevpath
      exact ((SimpleGraph.Walk.cons_isPath_iff _ _).mp hrevpath).1
    have hq2nil : q2 = SimpleGraph.Walk.nil :=
      (SimpleGraph.Walk.isPath_iff_eq_nil _).mp hq2path
    have hplen : p.length = 1 := by
      have : p.reverse.length = 1 := by
        rw [hq2, hq2nil]
        rfl
      rwa [SimpleGraph.Walk.length_reverse] at this
    have h3 := hc2cyc.three_le_length
    rw [SimpleGraph.Walk.length_cons, hplen] at h3
    omega

end Acyclicity

section GridConnectivity

theorem gridReach_W (rows cols : Nat) :
    ∀ (k r c : Nat), r < rows → c + k < cols →
      Relation.ReflTransGen (gridAdj rows cols) (r, c + k) (r, c) := by
  intro k
  induction k with
  | zero => intro r c _ _; exact Relation.ReflTransGen.refl
  | succ n ih =>
    intro r c hr hc
    have hstep : gridAdj rows cols (r, c + (n + 1)) (r, c + n) := by
      refine ⟨W, ?_⟩
      rw [stepN_W_iff]
      refine ⟨hr, by omega, by omega, by simp only [Prod.mk.injEq, true_and, and_true]; omega⟩
    exact Relation.ReflTransGen.head hstep (ih r c hr (by omega))

theorem gridReach_N (rows cols : Nat) :
    ∀ (k r c : Nat), r + k < rows → c < cols →
      Relation.ReflTransGen (gridAdj rows cols) (r + k, c) (r, c) := by
  intro k
  induction k with
  | zero => intro r c _ _; exact Relation.ReflTransGen.refl
  | succ n ih =>
    intro r c hr hc
    have hstep : gridAdj rows cols (r + (n + 1), c) (r + n, c) := by
      refine ⟨N, ?_⟩
      rw [stepN_N_iff]
      refine ⟨by omega, by omega, hc, by simp only [Prod.mk.injEq, true_and, and_true]; omega⟩
    exact Relation.ReflTransGen.head hstep (ih r c (by omega) hc)

theorem gridReach_E (rows cols : Nat) :
    ∀ (k r c : Nat), r < rows → c + k < cols →
      Relation.ReflTransGen (gridAdj rows cols) (r, c) (r, c + k) := by
  intro k
  induction k with
  | zero => intro r c _ _; exact Relation.ReflTransGen.refl
  | succ n ih =>
    intro r c hr hc
    have hstep : gridAdj rows cols (r, c + n) (r, c + (n + 1)) := by
      refine ⟨E, ?_⟩
      rw [stepN_E_iff]
      refine ⟨hr, by omega, by simp only [Prod.mk.injEq, true_and, and_true]; omega⟩
    exact Relation.ReflTransGen.tail (ih r c hr (by omega)) hstep

theorem gridReach_S (rows cols : Nat) :
    ∀ (k r c : Nat), r + k < rows → c < cols →
      Relation.ReflTransGen (gridAdj rows cols) (r, c) (r + k, c) := by
  intro k
  induction k with
  | zero => intro r c _ _; exact Relation.ReflTransGen.refl
  | succ n ih =>
    intro r c hr hc
    have hstep : gridAdj rows cols (r + n, c) (r + (n + 1), c) := by
      refine ⟨S, ?_⟩
      rw [stepN_S_iff]
      refine ⟨by omega, hc, by simp only [Prod.mk.injEq, true_and, and_true]; omega⟩
    exact Relation.ReflTransGen.tail (ih r c (by omega) hc) hstep

/-- The bare grid graph is connected. -/
theorem gridReach_all {rows cols : Nat} {u v : Nat × Nat}
    (hu : inBounds rows cols u) (hv : inBounds rows cols v) :
    Relation.ReflTransGen (gridAdj rows cols) u v := by
  obtain ⟨u1, u2⟩ := u
  obtain ⟨v1, v2⟩ := v
  obtain ⟨hu1, hu2⟩ := hu
  obtain ⟨hv1, hv2⟩ := hv
  have s1 : Relation.ReflTransGen (gridAdj rows cols) (u1, u2) (u1, 0) := by
    have := gridReach_W rows cols u2 u1 0 hu1 (by omega)
    simpa using this
  have s2 : Relation.ReflTransGen (gridAdj rows cols) (u1, 0) (0, 0) := by
    have := gridReach_N rows cols u1 0 0 (by omega) (by omega)
    simpa using this
  have s3 : Relation.ReflTransGen (gridAdj rows cols) (0, 0) (v1, 0) := by
    have := gridReach_S rows cols v1 0 0 (by omega) (by omega)
    simpa using this
  have s4 : Relation.ReflTransGen (gridAdj rows cols) (v1, 0) (v1, v2) := by
    have := gridReach_E rows cols v2 v1 0 hv1 (by omega)
    simpa using this
  exact ((s1.trans s2).trans s3).trans s4

/-- When the stack has drained, every in-bounds cell is visited. -/
theorem carve_all_visited {rows cols : Nat} {start : Nat × Nat}
    {st : CarveState} (hinv : CarveInv rows cols start st)
    (hempty : st.stack = []) (hstart : inBounds rows cols start) :
    ∀ p : Nat × Nat, inBounds rows cols p →
      visitedAt st.visited p.1 p.2 = true := by
  have main : ∀ p : Nat × Nat,
      Relation.ReflTransGen (gridAdj rows cols) start p →
      inBounds rows cols p ∧ visitedAt st.visited p.1 p.2 = true := by
    intro p hreach
    induction hreach with
    | refl => exact ⟨hstart, hinv.startVis⟩
    | tail h1 h2 ih =>
      obtain ⟨d, hd⟩ := h2
      refine ⟨stepN_some_inBounds hd, ?_⟩
      have hnot : ∀ z : Nat × Nat, z ∉ st.stack := by
        rw [hempty]
        intro z
        exact List.not_mem_nil z
      exact hinv.doneClosed _ ih.1 ih.2 (hnot _) d _ hd
  intro p hp
  exact (main p (gridReach_all hstart hp)).2

end GridConnectivity

section TreeAssembly

/-- Package an in-bounds coordinate pair as a vertex of the open-wall
graph. -/
def toVtx (rows cols : Nat) (p : Nat × Nat) (h : inBounds rows cols p) :
    Vtx rows cols := (⟨p.1, h.1⟩, ⟨p.2, h.2⟩)

theorem toVtx_eq {rows cols : Nat} {p : Nat × Nat}
    (h : inBounds rows cols p) (q : Vtx rows cols)
    (heq : p = (q.1.val, q.2.val)) : toVtx rows cols p h = q := by
  obtain ⟨p1, p2⟩ := p
  obtain ⟨⟨q1, hq1⟩, ⟨q2, hq2⟩⟩ := q
  simp only [Prod.mk.injEq] at heq
  unfold toVtx
  simp only [Prod.mk.injEq, Fin.mk.injEq]
  exact heq

theorem openGraph_adj_iff {rows cols : Nat} {g : Grid} {a b : Vtx rows cols} :
    (openGraph rows cols g).Adj a b ↔
      openAdjB rows cols g (a.1.val, a.2.val) (b.1.val, b.2.val) = true :=
  Iff.rfl

theorem openReach_reachable {rows cols : Nat} {g : Grid} {u v : Nat × Nat}
    (hu : inBounds rows cols u) (h : openReach rows cols g u v) :
    ∀ (hv : inBounds rows cols v),
      (openGraph rows cols g).Reachable (toVtx rows cols u hu)
        (toVtx rows cols v hv) := by
  induction h with
  | refl =>
    intro hv
    exact SimpleGraph.Reachable.refl _
  | @tail b c h1 h2 ih =>
    intro hv
    have hbounds := openAdjB_iff.mp h2
    have hb : inBounds rows cols b := hbounds.1
    have hAdj : (openGraph rows cols g).Adj (toVtx rows cols b hb)
        (toVtx rows cols c hv) := by
      rw [openGraph_adj_iff]
      obtain ⟨b1, b2⟩ := b
      obtain ⟨c1, c2⟩ := c
      exact h2
    exact (ih hb).trans hAdj.reachable

theorem unvisCount_start_le {rows cols sr sc : Nat} (hsr : sr < rows)
    (hsc : sc < cols) :
    unvisCount rows cols (setVisited (initVisited rows cols) sr sc) + 1 ≤
      rows * cols := by
  have hmem : (sr, sc) ∈ (Finset.range rows) ×ˢ (Finset.range cols) := by
    rw [Finset.mem_product, Finset.mem_range, Finset.mem_range]
    exact ⟨hsr, hsc⟩
  have hsub : (((Finset.range rows) ×ˢ (Finset.range cols)).filter
      (fun p => visitedAt (setVisited (initVisited rows cols) sr sc)
        p.1 p.2 = false)) ⊆
      ((Finset.range rows) ×ˢ (Finset.range cols)).erase (sr, sc) := by
    intro p hp
    rw [Finset.mem_filter] at hp
    rw [Finset.mem_erase]
    refine ⟨?_, hp.1⟩
    intro heq
    rw [heq] at hp
    rw [visitedAt_setVisited_self (visDims_initVisited rows cols) hsr hsc]
      at hp
    exact absurd hp.2 (by simp)
  have hcard := Finset.card_le_card hsub
  rw [Finset.card_erase_of_mem hmem, Finset.card_product,
    Finset.card_range, Finset.card_range] at hcard
  unfold unvisCount
  have hpos : 1 ≤ rows * cols := by
    have : 0 < rows := by omega
    have : 0 < cols := by omega
    exact Nat.one_le_iff_ne_zero.mpr (by positivity)
  omega

theorem carve_passage_def (rows cols : Nat) (cx : ℚ) (o : RandOracle)
    (sr sc : Nat) (g : Grid) :
    carve_passage rows cols cx o sr sc g =
      carveLoop rows cols cx o (2 * rows * cols) 0
        { grid := g,
          visited := setVisited (initVisited rows cols) sr sc,
          stack := [(sr, sc)] } := rfl

/-- The invariant holds of the final carve state. -/
theorem carve_passage_inv {rows cols sr sc : Nat} (cx : ℚ) (o : RandOracle)
    (hsr : sr < rows) (hsc : sc < cols) :
    CarveInv rows cols (sr, sc)
      (carve_passage rows cols cx o sr sc (initGrid rows cols)) := by
  rw [carve_passage_def]
  exact carveInv_loop _ _ _ (carveInv_init hsr hsc)

/-- The loop has drained its stack within the `2·rows·cols` fuel. -/
theorem carve_passage_stack_nil {rows cols sr sc : Nat} (cx : ℚ)
    (o : RandOracle) (hsr : sr < rows) (hsc : sc < cols) (g : Grid) :
    (carve_passage rows cols cx o sr sc g).stack = [] := by
  rw [carve_passage_def]
  apply carveLoop_stack_nil
  · exact visDims_setVisited (visDims_initVisited rows cols) sr sc
  · unfold carveMeasure
    simp only [List.length_singleton]
    have := unvisCount_start_le hsr hsc
    have heq : 2 * rows * cols = 2 * (rows * cols) := by ring
    omega

/-- Every in-bounds cell is visited when `_carve_passage` returns. -/
theorem carve_passage_all_visited {rows cols sr sc : Nat} (cx : ℚ)
    (o : RandOracle) (hsr : sr < rows) (hsc : sc < cols) :
    ∀ p : Nat × Nat, inBounds rows cols p →
      visitedAt
        (carve_passage rows cols cx o sr sc (initGrid rows cols)).visited
        p.1 p.2 = true :=
  carve_all_visited (carve_passage_inv cx o hsr hsc)
    (carve_passage_stack_nil cx o hsr hsc _) ⟨hsr, hsc⟩

/-- The open-wall graph of the carved grid is a tree. -/
theorem carve_passage_isTree {rows cols sr sc : Nat} (cx : ℚ)
    (o : RandOracle) (hsr : sr < rows) (hsc : sc < cols) :
    (openGraph rows cols
      (carve_passage rows cols cx o sr sc (initGrid rows cols)).grid).IsTree
    := by
  have hinv := carve_passage_inv cx o hsr hsc
  have hall := carve_passage_all_visited cx o hsr hsc
  set cs := carve_passage rows cols cx o sr sc (initGrid rows cols) with hcs
  have hreach : ∀ a : Vtx rows cols,
      (openGraph rows cols cs.grid).Reachable
        (toVtx rows cols (sr, sc) ⟨hsr, hsc⟩) a := by
    intro a
    have hain : inBounds rows cols (a.1.val, a.2.val) := ⟨a.1.isLt, a.2.isLt⟩
    have hvis := hall (a.1.val, a.2.val) hain
    have hr := hinv.reachStart (a.1.val, a.2.val) hain hvis
    have := openReach_reachable ⟨hsr, hsc⟩ hr hain
    rwa [toVtx_eq hain a rfl] at this
  constructor
  · rw [SimpleGraph.connected_iff]
    refine ⟨?_, ⟨toVtx rows cols (sr, sc) ⟨hsr, hsc⟩⟩⟩
    intro a b
    exact (hreach a).symm.trans (hreach b)
  · obtain ⟨parent, rank, hpr⟩ := hinv.ranked
    classical
    apply isAcyclic_of_rank _
      (fun p : Vtx rows cols =>
        if h : inBounds rows cols (parent (p.1.val, p.2.val)) then
          toVtx rows cols _ h
        else p)
      (fun p : Vtx rows cols => rank (p.1.val, p.2.val))
    intro a b hAdj
    rw [openGraph_adj_iff] at hAdj
    rcases hpr _ _ hAdj with ⟨hp, hrk⟩ | ⟨hp, hrk⟩
    · left
      have hin : inBounds rows cols (parent (b.1.val, b.2.val)) := by
        rw [← hp]
        exact ⟨a.1.isLt, a.2.isLt⟩
      rw [dif_pos hin]
      exact ⟨(toVtx_eq hin a hp.symm).symm, hrk⟩
    · right
      have hin : inBounds rows cols (parent (a.1.val, a.2.val)) := by
        rw [← hp]
        exact ⟨b.1.isLt, b.2.isLt⟩
      rw [dif_pos hin]
      exact ⟨(toVtx_eq hin b hp.symm).symm, hrk⟩

/-- The carved maze has exactly `rows · cols − 1` open wall pairs. -/
theorem carve_passage_card {rows cols sr sc : Nat} (cx : ℚ) (o : RandOracle)
    (hsr : sr < rows) (hsc : sc < cols) :
    (openGraph rows cols
        (carve_passage rows cols cx o sr sc (initGrid rows cols)).grid
      ).edgeFinset.card = rows * cols - 1 := by
  have htree := carve_passage_isTree cx o hsr hsc
  have hcard := htree.card_edgeFinset
  rw [Fintype.card_prod, Fintype.card_fin, Fintype.card_fin] at hcard
  omega

end TreeAssembly

section BoundarySafety

/-- Behind an open wall of an in-bounds cell of a boundary-intact grid lies
an in-bounds neighbour. -/
theorem open_wall_step_inBounds {rows cols : Nat} {g : Grid}
    (hb : boundaryIntact rows cols g) {r c : Nat} (hr : r < rows)
    (hc : c < cols) {d : Dir} (hw : wallAt g r c d = false) :
    ∃ p, stepN rows cols r c d = some p ∧ inBounds rows cols p := by
  cases d
  · by_cases h0 : r = 0
    · rw [(hb r hr c hc).1 h0] at hw
      exact absurd hw (by simp)
    · refine ⟨(r - 1, c), ?_, by omega, hc⟩
      rw [stepN_N_iff]
      exact ⟨by omega, by omega, hc, rfl⟩
  · by_cases h0 : r = rows - 1
    · rw [(hb r hr c hc).2.1 h0] at hw
      exact absurd hw (by simp)
    · refine ⟨(r + 1, c), ?_, by omega, hc⟩
      rw [stepN_S_iff]
      exact ⟨by omega, hc, rfl⟩
  · by_cases h0 : c = cols - 1
    · rw [(hb r hr c hc).2.2.2 h0] at hw
      exact absurd hw (by simp)
    · refine ⟨(r, c + 1), ?_, hr, by omega⟩
      rw [stepN_E_iff]
      exact ⟨hr, by omega, rfl⟩
  · by_cases h0 : c = 0
    · rw [(hb r hr c hc).2.2.1 h0] at hw
      exact absurd hw (by simp)
    · refine ⟨(r, c - 1), ?_, hr, by omega⟩
      rw [stepN_W_iff]
      exact ⟨hr, by omega, by omega, rfl⟩

end BoundarySafety

section WitnessData

/-- A concrete random oracle for witnesses. -/
def oracle0 : RandOracle :=
  { rand := fun _ => 0,
    choice := fun _ => 0,
    perm := fun _ l => l,
    startR := 0,
    startC := 0 }

/-- A concrete freshly-constructed generator state for witnesses. -/
def demoState : MazeState :=
  { rows := 2,
    cols := 2,
    cell_size := 20,
    complexity := 0,
    difficulty := 0,
    grid := initGrid 2 2,
    start := none,
    endCell := none }

end WitnessData

section TreeDiameter

variable {V : Type} {G : SimpleGraph V}

theorem walk_exists_prefix :
    ∀ {u v : V} (p : G.Walk u v) (i : Nat), i ≤ p.length →
      ∃ q : G.Walk u (p.getVert i), q.length = i := by
  intro u v p
  induction p with
  | nil =>
    intro i hi
    simp only [SimpleGraph.Walk.length_nil, Nat.le_zero] at hi
    subst hi
    exact ⟨SimpleGraph.Walk.nil, rfl⟩
  | cons h p ih =>
    intro i hi
    cases i with
    | zero =>
      exact ⟨SimpleGraph.Walk.nil, rfl⟩
    | succ n =>
      rw [SimpleGraph.Walk.length_cons] at hi
      simp only [SimpleGraph.Walk.getVert_cons_succ]
      obtain ⟨q, hq⟩ := ih n (by omega)
      exact ⟨SimpleGraph.Walk.cons h q, by simp [hq]⟩

theorem walk_exists_suffix :
    ∀ {u v : V} (p : G.Walk u v) (i : Nat), i ≤ p.length →
      ∃ q : G.Walk (p.getVert i) v, q.length = p.length - i ∧
        ∀ k, q.getVert k = p.getVert (i + k) := by
  intro u v p
  induction p with
  | nil =>
    intro i hi
    simp only [SimpleGraph.Walk.length_nil, Nat.le_zero] at hi
    subst hi
    refine ⟨SimpleGraph.Walk.nil, rfl, ?_⟩
    intro k
    rfl
  | cons h p ih =>
    intro i hi
    cases i with
    | zero =>
      refine ⟨SimpleGraph.Walk.cons h p, by simp, ?_⟩
      intro k
      rw [Nat.zero_add]
    | succ n =>
      rw [SimpleGraph.Walk.length_cons] at hi
      simp only [SimpleGraph.Walk.getVert_cons_succ]
      obtain ⟨q, hq1, hq2⟩ := ih n (by omega)
      refine ⟨q, by rw [hq1]; simp only [SimpleGraph.Walk.length_cons]; omega,
        ?_⟩
      intro k
      rw [hq2 k, show n + 1 + k = (n + k) + 1 by omega,
        SimpleGraph.Walk.getVert_cons_succ]

/-- On a shortest walk, distances between way-points are the index
differences. -/
theorem shortest_getVert_dist (hconn : G.Connected) {x y : V}
    (p : G.Walk x y) (hlen : p.length = G.dist x y) {i j : Nat}
    (hij : i ≤ j) (hj : j ≤ p.length) :
    G.dist (p.getVert i) (p.getVert j) = j - i := by
  obtain ⟨q, hq1, hq2⟩ := walk_exists_suffix p i (le_trans hij hj)
  obtain ⟨q2, hq21⟩ := walk_exists_prefix q (j - i) (by omega)
  have hub : G.dist (p.getVert i) (p.getVert j) ≤ j - i := by
    have h0 := SimpleGraph.dist_le q2
    rw [hq21, hq2 (j - i), show i + (j - i) = j by omega] at h0
    exact h0
  obtain ⟨q3, hq31⟩ := walk_exists_prefix p i (le_trans hij hj)
  obtain ⟨q4, hq41, _⟩ := walk_exists_suffix p j hj
  have ht1 : G.dist x y ≤ G.dist x (p.getVert i) +
      G.dist (p.getVert i) y := hconn.dist_triangle
  have ht2 : G.dist (p.getVert i) y ≤
      G.dist (p.getVert i) (p.getVert j) + G.dist (p.getVert j) y :=
    hconn.dist_triangle
  have hd1 : G.dist x (p.getVert i) ≤ i := by
    have := SimpleGraph.dist_le q3
    omega
  have hd2 : G.dist (p.getVert j) y ≤ p.length - j := by
    have := SimpleGraph.dist_le q4
    omega
  omega

/-- In a graph where no two adjacent vertices are equidistant from any
source, adjacent distances differ by exactly one. -/
theorem dist_adj_cases (hconn : G.Connected)
    (hdiff : ∀ s u v : V, G.Adj u v → G.dist s u ≠ G.dist s v)
    {u v : V} (hadj : G.Adj u v) (s : V) :
    G.dist s v = G.dist s u + 1 ∨ G.dist s u = G.dist s v + 1 := by
  have h1 : G.dist s v ≤ G.dist s u + G.dist u v := hconn.dist_triangle
  have h2 : G.dist s u ≤ G.dist s v + G.dist v u := hconn.dist_triangle
  rw [SimpleGraph.dist_eq_one_iff_adj.mpr hadj] at h1
  rw [SimpleGraph.dist_eq_one_iff_adj.mpr hadj.symm] at h2
  have h3 := hdiff s u v hadj
  omega

theorem concat_getVert_length {u v w : V} (q : G.Walk u v)
    (h : G.Adj v w) : (q.concat h).getVert q.length = v := by
  rw [SimpleGraph.Walk.concat, SimpleGraph.Walk.getVert_append,
    if_neg (lt_irrefl _), Nat.sub_self, SimpleGraph.Walk.getVert_zero]

/-- In a tree, a vertex at distance `n + 1` from `s` has a unique
neighbour at distance `n`. -/
theorem tree_unique_pred (htree : G.IsTree) {s w u1 u2 : V}
    (h1 : G.Adj u1 w) (h2 : G.Adj u2 w)
    (d1 : G.dist s u1 + 1 = G.dist s w)
    (d2 : G.dist s u2 + 1 = G.dist s w) : u1 = u2 := by
  have hconn := htree.isConnected
  obtain ⟨w1, hw1⟩ := (hconn s u1).exists_walk_length_eq_dist
  obtain ⟨w2, hw2⟩ := (hconn s u2).exists_walk_length_eq_dist
  have hp1len : (w1.concat h1).length = G.dist s w := by
    rw [SimpleGraph.Walk.length_concat, hw1]
    exact d1
  have hp2len : (w2.concat h2).length = G.dist s w := by
    rw [SimpleGraph.Walk.length_concat, hw2]
    exact d2
  have hp1 : (w1.concat h1).IsPath :=
    SimpleGraph.Walk.isPath_of_length_eq_dist _ hp1len
  have hp2 : (w2.concat h2).IsPath :=
    SimpleGraph.Walk.isPath_of_length_eq_dist _ hp2len
  obtain ⟨q, hq, huniq⟩ := htree.existsUnique_path s w
  have he1 : w1.concat h1 = q := huniq _ hp1
  have he2 : w2.concat h2 = q := huniq _ hp2
  have heq : w1.concat h1 = w2.concat h2 := he1.trans he2.symm
  have hg1 : (w1.concat h1).getVert w1.length = u1 := concat_getVert_length _ _
  have hg2 : (w2.concat h2).getVert w2.length = u2 := concat_getVert_length _ _
  have hlen12 : w1.length = w2.length := by omega
  rw [← hg1, ← hg2, ← hlen12, heq]

/-- Way-points of a path are pairwise distinct. -/
theorem path_getVert_ne :
    ∀ {u v : V} (p : G.Walk u v), p.IsPath → ∀ {i j : Nat}, i < j →
      j ≤ p.length → p.getVert i ≠ p.getVert j := by
  intro u v p
  induction p with
  | nil =>
    intro _ i j hij hj
    simp only [SimpleGraph.Walk.length_nil] at hj
    omega
  | cons h p ih =>
    intro hpath i j hij hj
    rw [SimpleGraph.Walk.cons_isPath_iff] at hpath
    rw [SimpleGraph.Walk.length_cons] at hj
    cases i with
    | zero =>
      rw [SimpleGraph.Walk.getVert_zero]
      obtain ⟨j2, rfl⟩ : ∃ j2, j = j2 + 1 := ⟨j - 1, by omega⟩
      rw [SimpleGraph.Walk.getVert_cons_succ]
      intro heq
      apply hpath.2
      rw [SimpleGraph.Walk.mem_support_iff_exists_getVert]
      exact ⟨j2, heq.symm, by omega⟩
    | succ i2 =>
      obtain ⟨j2, rfl⟩ : ∃ j2, j = j2 + 1 := ⟨j - 1, by omega⟩
      rw [SimpleGraph.Walk.getVert_cons_succ,
        SimpleGraph.Walk.getVert_cons_succ]
      exact ih hpath.1 (by omega) (by omega)

/-- No descent after an ascent along a shortest path: otherwise the peak
would have two distinct predecessors. -/
theorem no_descent (htree : G.IsTree)
    (hdiff : ∀ s u v : V, G.Adj u v → G.dist s u ≠ G.dist s v)
    {x y : V} (p : G.Walk x y) (hlen : p.length = G.dist x y) (s : V)
    {i : Nat} (h0 : 0 < i) (hi : i < p.length)
    (hasc : G.dist s (p.getVert i) = G.dist s (p.getVert (i - 1)) + 1) :
    G.dist s (p.getVert (i + 1)) = G.dist s (p.getVert i) + 1 := by
  have hpath := SimpleGraph.Walk.isPath_of_length_eq_dist p hlen
  have hadj1 : G.Adj (p.getVert (i - 1)) (p.getVert i) := by
    have := p.adj_getVert_succ (show i - 1 < p.length by omega)
    rwa [show i - 1 + 1 = i by omega] at this
  have hadj2 : G.Adj (p.getVert i) (p.getVert (i + 1)) :=
    p.adj_getVert_succ hi
  rcases dist_adj_cases htree.isConnected hdiff hadj2 s with hcase | hcase
  · exact hcase
  · exfalso
    have heq := tree_unique_pred htree hadj1 hadj2.symm
      hasc.symm hcase.symm
    exact path_getVert_ne p hpath (show i - 1 < i + 1 by omega)
      (by omega) heq

/-- Right half of the valley property: walking away from the minimum, the
distance to `s` grows by one at each step. -/
theorem gate_right (htree : G.IsTree)
    (hdiff : ∀ s u v : V, G.Adj u v → G.dist s u ≠ G.dist s v)
    {x y : V} (p : G.Walk x y) (hlen : p.length = G.dist x y) (s : V)
    {j : Nat} (hj : j ≤ p.length)
    (hmin : ∀ i, i ≤ p.length →
      G.dist s (p.getVert j) ≤ G.dist s (p.getVert i)) :
    ∀ m, j + m ≤ p.length →
      G.dist s (p.getVert (j + m)) = G.dist s (p.getVert j) + m ∧
      (0 < m → G.dist s (p.getVert (j + m)) =
        G.dist s (p.getVert (j + m - 1)) + 1) := by
  intro m
  induction m with
  | zero =>
    intro _
    exact ⟨by simp, by omega⟩
  | succ n ih =>
    intro hm
    obtain ⟨hval, hascp⟩ := ih (by omega)
    have hadj : G.Adj (p.getVert (j + n)) (p.getVert (j + n + 1)) :=
      p.adj_getVert_succ (by omega)
    have hstep : G.dist s (p.getVert (j + n + 1)) =
        G.dist s (p.getVert (j + n)) + 1 := by
      rcases Nat.eq_zero_or_pos n with rfl | hn
      · rcases dist_adj_cases htree.isConnected hdiff hadj s with h | h
        · rwa [Nat.add_zero] at h
        · exfalso
          have := hmin (j + 0 + 1) (by omega)
          simp only [Nat.add_zero] at h this
          omega
      · exact no_descent htree hdiff p hlen s (by omega) (by omega)
          (hascp hn)
    constructor
    · rw [show j + (n + 1) = j + n + 1 by omega, hstep, hval]
      omega
    · intro _
      rw [show j + (n + 1) = j + n + 1 by omega, Nat.add_sub_cancel]
      exact hstep

/-- Left half of the valley property, by applying the right half to the
reversed walk. -/
theorem gate_left (htree : G.IsTree)
    (hdiff : ∀ s u v : V, G.Adj u v → G.dist s u ≠ G.dist s v)
    {x y : V} (p : G.Walk x y) (hlen : p.length = G.dist x y) (s : V)
    {j : Nat} (hj : j ≤ p.length)
    (hmin : ∀ i, i ≤ p.length →
      G.dist s (p.getVert j) ≤ G.dist s (p.getVert i)) :
    ∀ m, m ≤ j →
      G.dist s (p.getVert (j - m)) = G.dist s (p.getVert j) + m := by
  intro m hm
  have hrevlen : p.reverse.length = G.dist y x := by
    rw [SimpleGraph.Walk.length_reverse, hlen, SimpleGraph.dist_comm]
  have hrevmin : ∀ i, i ≤ p.reverse.length →
      G.dist s (p.reverse.getVert (p.length - j)) ≤
        G.dist s (p.reverse.getVert i) := by
    intro i hi
    rw [SimpleGraph.Walk.length_reverse] at hi
    rw [SimpleGraph.Walk.getVert_reverse, SimpleGraph.Walk.getVert_reverse,
      show p.length - (p.length - j) = j by omega]
    exact hmin (p.length - i) (by omega)
  have hj2 : p.length - j ≤ p.reverse.length := by
    rw [SimpleGraph.Walk.length_reverse]
    omega
  have := (gate_right htree hdiff p.reverse hrevlen s hj2 hrevmin m
    (by rw [SimpleGraph.Walk.length_reverse]; omega)).1
  rw [SimpleGraph.Walk.getVert_reverse, SimpleGraph.Walk.getVert_reverse,
    show p.length - (p.length - j + m) = j - m by omega,
    show p.length - (p.length - j) = j by omega] at this
  exact this

/-- Two-pass sweep exactness on trees: if `A` is farthest from `s` and `B`
is farthest from `A`, then `(A, B)` realizes the diameter. -/
theorem tree_two_sweep (htree : G.IsTree)
    (hdiff : ∀ s u v : V, G.Adj u v → G.dist s u ≠ G.dist s v)
    (s A B : V) (hA : ∀ z, G.dist s z ≤ G.dist s A)
    (hB : ∀ z, G.dist A z ≤ G.dist A B) (x y : V) :
    G.dist x y ≤ G.dist A B := by
  have hconn := htree.isConnected
  obtain ⟨p, hplen⟩ := (hconn x y).exists_walk_length_eq_dist
  have hne : (Finset.range (p.length + 1)).Nonempty := ⟨0, by simp⟩
  obtain ⟨i, hi_mem, hi_min⟩ := Finset.exists_min_image
    (Finset.range (p.length + 1)) (fun k => G.dist A (p.getVert k)) hne
  obtain ⟨j, hj_mem, hj_min⟩ := Finset.exists_min_image
    (Finset.range (p.length + 1)) (fun k => G.dist s (p.getVert k)) hne
  rw [Finset.mem_range] at hi_mem hj_mem
  have hi_le : i ≤ p.length := by omega
  have hj_le : j ≤ p.length := by omega
  have hi_min2 : ∀ k, k ≤ p.length →
      G.dist A (p.getVert i) ≤ G.dist A (p.getVert k) := by
    intro k hk
    exact hi_min k (Finset.mem_range.mpr (by omega))
  have hj_min2 : ∀ k, k ≤ p.length →
      G.dist s (p.getVert j) ≤ G.dist s (p.getVert k) := by
    intro k hk
    exact hj_min k (Finset.mem_range.mpr (by omega))
  have hg0 : p.getVert 0 = x := p.getVert_zero
  have hglen : p.getVert p.length = y := p.getVert_length
  -- gate equalities for A
  have hAX : G.dist A x = G.dist A (p.getVert i) + i := by
    have := gate_left htree hdiff p hplen A hi_le hi_min2 i (le_refl i)
    rwa [Nat.sub_self, hg0] at this
  have hAY : G.dist A y = G.dist A (p.getVert i) + (p.length - i) := by
    have := (gate_right htree hdiff p hplen A hi_le hi_min2
      (p.length - i) (by omega)).1
    rwa [show i + (p.length - i) = p.length by omega, hglen] at this
  -- gate equalities for s
  have hsX : G.dist s x = G.dist s (p.getVert j) + j := by
    have := gate_left htree hdiff p hplen s hj_le hj_min2 j (le_refl j)
    rwa [Nat.sub_self, hg0] at this
  have hsY : G.dist s y = G.dist s (p.getVert j) + (p.length - j) := by
    have := (gate_right htree hdiff p hplen s hj_le hj_min2
      (p.length - j) (by omega)).1
    rwa [show j + (p.length - j) = p.length by omega, hglen] at this
  have hsAX := hA x
  have hsAY := hA y
  have hBx := hB x
  have hBy := hB y
  rcases le_or_lt j i with hji | hij
  · -- segment distance j .. i
    have hseg : G.dist (p.getVert j) (p.getVert i) = i - j :=
      shortest_getVert_dist hconn p hplen hji hi_le
    have htri : G.dist s A ≤ G.dist s (p.getVert j) +
        G.dist (p.getVert j) (p.getVert i) + G.dist (p.getVert i) A := by
      have t1 : G.dist s A ≤ G.dist s (p.getVert i) +
          G.dist (p.getVert i) A := hconn.dist_triangle
      have t2 : G.dist s (p.getVert i) ≤ G.dist s (p.getVert j) +
          G.dist (p.getVert j) (p.getVert i) := hconn.dist_triangle
      omega
    have hc1 : G.dist (p.getVert i) A = G.dist A (p.getVert i) :=
      SimpleGraph.dist_comm
    rw [hseg, hc1] at htri
    have hfin : G.dist x y ≤ G.dist A x := by omega
    omega
  · have hseg : G.dist (p.getVert i) (p.getVert j) = j - i :=
      shortest_getVert_dist hconn p hplen (le_of_lt hij) hj_le
    have htri : G.dist s A ≤ G.dist s (p.getVert j) +
        G.dist (p.getVert i) (p.getVert j) + G.dist (p.getVert i) A := by
      have t1 : G.dist s A ≤ G.dist s (p.getVert i) +
          G.dist (p.getVert i) A := hconn.dist_triangle
      have t2 : G.dist s (p.getVert i) ≤ G.dist s (p.getVert j) +
          G.dist (p.getVert j) (p.getVert i) := hconn.dist_triangle
      have hc2 : G.dist (p.getVert j) (p.getVert i) =
          G.dist (p.getVert i) (p.getVert j) := SimpleGraph.dist_comm
      rw [hc2] at t2
      omega
    have hc1 : G.dist (p.getVert i) A = G.dist A (p.getVert i) :=
      SimpleGraph.dist_comm
    rw [hseg, hc1] at htri
    have hfin : G.dist x y ≤ G.dist A y := by omega
    omega

end TreeDiameter

section BfsVerification

/-- Raw coordinates of a vertex of the open-wall graph. -/
def vraw {rows cols : Nat} (p : Vtx rows cols) : Nat × Nat :=
  (p.1.val, p.2.val)

theorem vraw_inj {rows cols : Nat} {u v : Vtx rows cols}
    (h : vraw u = vraw v) : u = v := by
  obtain ⟨⟨u1, hu1⟩, ⟨u2, hu2⟩⟩ := u
  obtain ⟨⟨v1, hv1⟩, ⟨v2, hv2⟩⟩ := v
  simp only [vraw, Prod.mk.injEq] at h
  simp only [Prod.mk.injEq, Fin.mk.injEq]
  exact h

theorem vraw_inBounds {rows cols : Nat} (u : Vtx rows cols) :
    inBounds rows cols (vraw u) := ⟨u.1.isLt, u.2.isLt⟩

theorem vraw_toVtx {rows cols : Nat} (p : Nat × Nat)
    (h : inBounds rows cols p) : vraw (toVtx rows cols p h) = p := rfl

/-- Adjacent cells of the open-wall graph have opposite coordinate-sum
parity: every open wall joins a cell to a horizontal or vertical
neighbour. -/
theorem openAdj_parity {rows cols : Nat} {g : Grid} {u v : Vtx rows cols}
    (h : (openGraph rows cols g).Adj u v) :
    (u.1.val + u.2.val + (v.1.val + v.2.val)) % 2 = 1 := by
  have h' : openAdjB rows cols g (u.1.val, u.2.val) (v.1.val, v.2.val)
      = true := h
  rw [openAdjB_iff] at h'
  obtain ⟨_, _, d, hstep, _, _⟩ := h'
  cases d
  · rw [stepN_N_iff] at hstep
    obtain ⟨h1, _, _, hp⟩ := hstep
    simp only [Prod.mk.injEq] at hp
    omega
  · rw [stepN_S_iff] at hstep
    obtain ⟨_, _, hp⟩ := hstep
    simp only [Prod.mk.injEq] at hp
    omega
  · rw [stepN_E_iff] at hstep
    obtain ⟨_, _, hp⟩ := hstep
    simp only [Prod.mk.injEq] at hp
    omega
  · rw [stepN_W_iff] at hstep
    obtain ⟨_, h1, _, hp⟩ := hstep
    simp only [Prod.mk.injEq] at hp
    omega

/-- Every walk of the open-wall graph has length congruent mod 2 to the
coordinate-sum parity difference of its endpoints. -/
theorem walk_parity {rows cols : Nat} {g : Grid} {u v : Vtx rows cols}
    (p : (openGraph rows cols g).Walk u v) :
    (p.length + (u.1.val + u.2.val) + (v.1.val + v.2.val)) % 2 = 0 := by
  induction p with
  | nil => simp only [SimpleGraph.Walk.length_nil]; omega
  | cons h q ih =>
    have hpar := openAdj_parity h
    simp only [SimpleGraph.Walk.length_cons]
    omega

/-- In the open-wall graph, two adjacent cells never lie at the same
distance from any source: distances have the parity of the coordinate
sums. -/
theorem openGraph_hdiff {rows cols : Nat} {g : Grid}
    (hconn : (openGraph rows cols g).Connected) :
    ∀ s u v : Vtx rows cols, (openGraph rows cols g).Adj u v →
      (openGraph rows cols g).dist s u ≠ (openGraph rows cols g).dist s v
    := by
  intro s u v hadj heq
  obtain ⟨p, hp⟩ := (hconn s u).exists_walk_length_eq_dist
  obtain ⟨q, hq⟩ := (hconn s v).exists_walk_length_eq_dist
  have h1 := walk_parity p
  have h2 := walk_parity q
  have h3 := openAdj_parity hadj
  rw [hp, heq] at h1
  rw [hq] at h2
  omega

/-- Wall symmetry upgrades a one-sided open wall to open-wall adjacency:
the paired wall of the neighbour is open as well. -/
theorem openAdjB_of_open_wall {rows cols : Nat} {g : Grid}
    (hsym : wallSymm rows cols g) {r c : Nat} (hr : r < rows)
    (hc : c < cols) {d : Dir} {p : Nat × Nat}
    (hstep : stepN rows cols r c d = some p)
    (hw : wallAt g r c d = false) :
    openAdjB rows cols g (r, c) p = true := by
  rw [openAdjB_iff]
  have hpb := stepN_some_inBounds hstep
  refine ⟨⟨hr, hc⟩, hpb, d, hstep, hw, ?_⟩
  cases d
  · rw [stepN_N_iff] at hstep
    obtain ⟨h1, h2, h3, rfl⟩ := hstep
    have := (hsym (r - 1) (by omega) c hc).1 (by omega)
    rw [show r - 1 + 1 = r by omega] at this
    simp only [OPPOSITE]
    rw [this]
    exact hw
  · rw [stepN_S_iff] at hstep
    obtain ⟨h1, h2, rfl⟩ := hstep
    have := (hsym r hr c hc).1 h1
    simp only [OPPOSITE]
    rw [← this]
    exact hw
  · rw [stepN_E_iff] at hstep
    obtain ⟨h1, h2, rfl⟩ := hstep
    have := (hsym r hr c hc).2 h2
    simp only [OPPOSITE]
    rw [← this]
    exact hw
  · rw [stepN_W_iff] at hstep
    obtain ⟨h1, h2, h3, rfl⟩ := hstep
    have := (hsym r hr (c - 1) (by omega)).2 (by omega)
    rw [show c - 1 + 1 = c by omega] at this
    simp only [OPPOSITE]
    rw [this]
    exact hw

/-- `dist[p]` read at natural coordinates. -/
def dAt (dist : List (List Int)) (p : Nat × Nat) : Int :=
  distAtI dist (p.1 : Int) (p.2 : Int)

theorem pyIdx_natCast (len n : Nat) : pyIdx len (n : Int) = n := by
  unfold pyIdx
  rw [if_neg (by omega)]
  exact Int.toNat_natCast n

theorem distAtI_natCast (dist : List (List Int)) (r c : Nat) :
    distAtI dist (r : Int) (c : Int) = (dist.getD r []).getD c (-1) := by
  simp only [distAtI, pyIdx_natCast]

theorem setDistI_natCast (dist : List (List Int)) (r c : Nat) (v : Int) :
    setDistI dist (r : Int) (c : Int) v =
      dist.set r ((dist.getD r []).set c v) := by
  simp only [setDistI, pyIdx_natCast]

theorem setDistI_dims {rows cols : Nat} {dist : List (List Int)}
    (hdim : matDims rows cols dist) {p : Nat × Nat}
    (hp : inBounds rows cols p) (v : Int) :
    matDims rows cols (setDistI dist (p.1 : Int) (p.2 : Int) v) := by
  rw [setDistI_natCast]
  have hr : p.1 < dist.length := by rw [hdim.1]; exact hp.1
  refine ⟨by rw [List.length_set]; exact hdim.1, ?_⟩
  intro row hrow
  rcases List.mem_or_eq_of_mem_set hrow with h | h
  · exact hdim.2 row h
  · subst h
    rw [List.length_set]
    exact hdim.2 _ (getD_mem dist p.1 [] hr)

theorem dAt_setDist_self {rows cols : Nat} {dist : List (List Int)}
    (hdim : matDims rows cols dist) {p : Nat × Nat}
    (hp : inBounds rows cols p) (v : Int) :
    dAt (setDistI dist (p.1 : Int) (p.2 : Int) v) p = v := by
  unfold dAt
  rw [setDistI_natCast, distAtI_natCast]
  have hr : p.1 < dist.length := by rw [hdim.1]; exact hp.1
  have hrow : (dist.getD p.1 []).length = cols :=
    hdim.2 _ (getD_mem dist p.1 [] hr)
  rw [getD_set_self dist p.1 _ [] hr, getD_set_self _ p.2 v (-1)
    (by rw [hrow]; exact hp.2)]

theorem dAt_setDist_ne {rows cols : Nat} {dist : List (List Int)}
    (hdim : matDims rows cols dist) {p q : Nat × Nat}
    (hne : q ≠ p) (v : Int) :
    dAt (setDistI dist (p.1 : Int) (p.2 : Int) v) q = dAt dist q := by
  unfold dAt
  rw [setDistI_natCast, distAtI_natCast, distAtI_natCast]
  rcases eq_or_ne q.1 p.1 with h1 | h1
  · have h2 : q.2 ≠ p.2 := by
      intro h2
      exact hne (Prod.ext h1 h2)
    rw [h1]
    rcases lt_or_le p.1 dist.length with hlt | hle
    · rw [getD_set_self dist p.1 _ [] hlt, getD_set_ne _ (Ne.symm h2)]
    · rw [List.set_eq_of_length_le hle]
  · rw [getD_set_ne _ (Ne.symm h1)]

/-- `≠ -1` entries survive a write into another cell. -/
theorem dAt_setDist_preserve {rows cols : Nat} {dist : List (List Int)}
    (hdim : matDims rows cols dist) {p q : Nat × Nat}
    (hp : inBounds rows cols p) (hq : dAt dist q ≠ -1) (v : Int)
    (hv : v ≠ -1) :
    dAt (setDistI dist (p.1 : Int) (p.2 : Int) v) q ≠ -1 := by
  rcases eq_or_ne q p with rfl | hne
  · rw [dAt_setDist_self hdim hp]
    exact hv
  · rw [dAt_setDist_ne hdim hne]
    exact hq

/-- The integer coordinates used by the BFS step equal the in-bounds
neighbour computed by `stepN`. -/
theorem stepN_int_coords {rows cols r c : Nat} {d : Dir} {p : Nat × Nat}
    (h : stepN rows cols r c d = some p) :
    (r : Int) + (DIR_VEC d).1 = (p.1 : Int) ∧
    (c : Int) + (DIR_VEC d).2 = (p.2 : Int) := by
  cases d
  · rw [stepN_N_iff] at h
    obtain ⟨h1, h2, h3, rfl⟩ := h
    exact ⟨by simp only [DIR_VEC]; omega, by simp only [DIR_VEC]; omega⟩
  · rw [stepN_S_iff] at h
    obtain ⟨h1, h2, rfl⟩ := h
    exact ⟨by simp only [DIR_VEC]; omega, by simp only [DIR_VEC]; omega⟩
  · rw [stepN_E_iff] at h
    obtain ⟨h1, h2, rfl⟩ := h
    exact ⟨by simp only [DIR_VEC]; omega, by simp only [DIR_VEC]; omega⟩
  · rw [stepN_W_iff] at h
    obtain ⟨h1, h2, h3, rfl⟩ := h
    exact ⟨by simp only [DIR_VEC]; omega, by simp only [DIR_VEC]; omega⟩

theorem bfsLoop_zero (g : Grid) (st : BfsState) : bfsLoop g 0 st = st :=
  rfl

theorem bfsLoop_succ_nil (g : Grid) (fuel : Nat) (st : BfsState)
    (h : st.q = []) : bfsLoop g (fuel + 1) st = st := by
  obtain ⟨dm, q, par, far⟩ := st
  simp only at h
  subst h
  rfl

theorem bfsLoop_succ_cons (g : Grid) (fuel : Nat) (st : BfsState)
    (r c : Nat) (rest : List (Nat × Nat)) (h : st.q = (r, c) :: rest) :
    bfsLoop g (fuel + 1) st =
      bfsLoop g fuel
        (dirList.foldl (fun s d => bfsDirStep g r c d s)
          { st with
            q := rest,
            farthest :=
              if distAtI st.dist (st.farthest.1 : Int) (st.farthest.2 : Int)
                  < distAtI st.dist (r : Int) (c : Int) then
                (r, c)
              else
                st.farthest }) := by
  obtain ⟨dm, q, par, far⟩ := st
  simp only at h
  subst h
  rfl

theorem bfsDirStep_wall {g : Grid} {r c : Nat} {d : Dir} (st : BfsState)
    (h : wallAt g r c d = true) : bfsDirStep g r c d st = st := by
  unfold bfsDirStep
  rw [if_pos h]

theorem bfsDirStep_open_miss {g : Grid} {r c : Nat} {d : Dir}
    (st : BfsState) (h : wallAt g r c d = false)
    (h2 : distAtI st.dist ((r : Int) + (DIR_VEC d).1)
      ((c : Int) + (DIR_VEC d).2) ≠ -1) :
    bfsDirStep g r c d st = st := by
  unfold bfsDirStep
  rw [if_neg (by rw [h]; exact Bool.false_ne_true), if_neg h2]

theorem bfsDirStep_open_hit {g : Grid} {r c : Nat} {d : Dir}
    (st : BfsState) (h : wallAt g r c d = false)
    (h2 : distAtI st.dist ((r : Int) + (DIR_VEC d).1)
      ((c : Int) + (DIR_VEC d).2) = -1) :
    bfsDirStep g r c d st =
      { st with
        dist := setDistI st.dist ((r : Int) + (DIR_VEC d).1)
          ((c : Int) + (DIR_VEC d).2)
          (distAtI st.dist (r : Int) (c : Int) + 1),
        parent := ((((r : Int) + (DIR_VEC d).1).toNat,
          ((c : Int) + (DIR_VEC d).2).toNat), (r, c)) :: st.parent,
        q := st.q ++ [(((r : Int) + (DIR_VEC d).1).toNat,
          ((c : Int) + (DIR_VEC d).2).toNat)] } := by
  unfold bfsDirStep
  rw [if_neg (by rw [h]; exact Bool.false_ne_true), if_pos h2]

/-- Number of cells still undiscovered (`dist` entry `-1`). -/
def undiscCount (rows cols : Nat) (dist : List (List Int)) : Nat :=
  (Finset.univ.filter
    (fun u : Vtx rows cols => dAt dist (vraw u) = -1)).card

/-- Invariant of the BFS loop at the top of each `while q:` iteration. -/
structure BfsInv (rows cols : Nat) (g : Grid) (S : Vtx rows cols)
    (st : BfsState) : Prop where
  ddims : matDims rows cols st.dist
  qb : ∀ p ∈ st.q, inBounds rows cols p
  qnd : st.q.Nodup
  qdisc : ∀ p ∈ st.q, dAt st.dist p ≠ -1
  sdisc : dAt st.dist (vraw S) ≠ -1
  dval : ∀ u : Vtx rows cols, dAt st.dist (vraw u) ≠ -1 →
    dAt st.dist (vraw u) = ((openGraph rows cols g).dist S u : Int)
  qsorted : st.q.Pairwise (fun a b => dAt st.dist a ≤ dAt st.dist b)
  qspread : ∀ a ∈ st.q, ∀ b ∈ st.q, dAt st.dist a ≤ dAt st.dist b + 1
  closed : ∀ u : Vtx rows cols, dAt st.dist (vraw u) ≠ -1 →
    vraw u ∉ st.q → ∀ v : Vtx rows cols,
    (openGraph rows cols g).Adj u v → dAt st.dist (vraw v) ≠ -1
  farb : inBounds rows cols st.farthest
  fardisc : dAt st.dist st.farthest ≠ -1
  farmax : ∀ u : Vtx rows cols, dAt st.dist (vraw u) ≠ -1 →
    vraw u ∉ st.q → dAt st.dist (vraw u) ≤ dAt st.dist st.farthest

/-- Invariant inside the four-direction fold after popping `RC`: the walls
of the directions in `done` have already been handled. -/
structure BfsMid (rows cols : Nat) (g : Grid) (S RC : Vtx rows cols)
    (done : List Dir) (st : BfsState) : Prop where
  ddims : matDims rows cols st.dist
  qb : ∀ p ∈ st.q, inBounds rows cols p
  qnd : st.q.Nodup
  qdisc : ∀ p ∈ st.q, dAt st.dist p ≠ -1
  sdisc : dAt st.dist (vraw S) ≠ -1
  dval : ∀ u : Vtx rows cols, dAt st.dist (vraw u) ≠ -1 →
    dAt st.dist (vraw u) = ((openGraph rows cols g).dist S u : Int)
  qlo : ∀ p ∈ st.q, dAt st.dist (vraw RC) ≤ dAt st.dist p
  qhi : ∀ p ∈ st.q, dAt st.dist p ≤ dAt st.dist (vraw RC) + 1
  qsorted : st.q.Pairwise (fun a b => dAt st.dist a ≤ dAt st.dist b)
  rcdisc : dAt st.dist (vraw RC) ≠ -1
  rcnotq : vraw RC ∉ st.q
  closedOld : ∀ u : Vtx rows cols, dAt st.dist (vraw u) ≠ -1 →
    vraw u ∉ st.q → u ≠ RC → ∀ v : Vtx rows cols,
    (openGraph rows cols g).Adj u v → dAt st.dist (vraw v) ≠ -1
  closedRC : ∀ d ∈ done, ∀ p : Nat × Nat,
    stepN rows cols (vraw RC).1 (vraw RC).2 d = some p →
    wallAt g (vraw RC).1 (vraw RC).2 d = false → dAt st.dist p ≠ -1
  farb : inBounds rows cols st.farthest
  fardisc : dAt st.dist st.farthest ≠ -1
  rcfar : dAt st.dist (vraw RC) ≤ dAt st.dist st.farthest
  farmax2 : ∀ u : Vtx rows cols, dAt st.dist (vraw u) ≠ -1 →
    vraw u ∉ st.q → u ≠ RC → dAt st.dist (vraw u) ≤ dAt st.dist st.farthest

theorem dAt_init_replicate (rows cols : Nat) (p : Nat × Nat) :
    dAt (List.replicate rows (List.replicate cols (-1))) p = -1 := by
  unfold dAt
  rw [distAtI_natCast, getD_replicate']
  split_ifs with h
  · rw [getD_replicate']
    split_ifs <;> rfl
  · exact getD_oob [] (by simp) (-1)

/-- The invariant holds for the seeded state of `bfs`. -/
theorem bfsInv_init (rows cols : Nat) (g : Grid) (S : Vtx rows cols) :
    BfsInv rows cols g S
      { dist := setDistI (List.replicate rows (List.replicate cols (-1)))
          (((vraw S).1 : Nat) : Int) (((vraw S).2 : Nat) : Int) 0,
        q := [vraw S], parent := [], farthest := vraw S } := by
  have hdim0 : matDims rows cols
      (List.replicate rows (List.replicate cols (-1 : Int))) :=
    matDims_replicate rows cols _
  have hdims := setDistI_dims hdim0 (vraw_inBounds S) 0
  have d0 : dAt (setDistI (List.replicate rows (List.replicate cols (-1)))
      ((vraw S).1 : Int) ((vraw S).2 : Int) 0) (vraw S) = 0 :=
    dAt_setDist_self hdim0 (vraw_inBounds S) 0
  have dother : ∀ q : Nat × Nat, q ≠ vraw S →
      dAt (setDistI (List.replicate rows (List.replicate cols (-1)))
        ((vraw S).1 : Int) ((vraw S).2 : Int) 0) q = -1 := by
    intro q hq
    rw [dAt_setDist_ne hdim0 hq, dAt_init_replicate]
  have honly : ∀ u : Vtx rows cols,
      dAt (setDistI (List.replicate rows (List.replicate cols (-1)))
        ((vraw S).1 : Int) ((vraw S).2 : Int) 0) (vraw u) ≠ -1 → u = S := by
    intro u hu
    by_contra hne
    exact hu (dother (vraw u) (fun h => hne (vraw_inj h)))
  constructor
  · exact hdims
  · intro p hp
    rw [List.mem_singleton] at hp
    subst hp
    exact vraw_inBounds S
  · exact List.nodup_singleton _
  · intro p hp
    rw [List.mem_singleton] at hp
    subst hp
    rw [d0]
    omega
  · rw [d0]
    omega
  · intro u hu
    have := honly u hu
    subst this
    rw [d0, SimpleGraph.dist_self]
    simp
  · exact List.pairwise_singleton _ _
  · intro a ha b hb
    rw [List.mem_singleton] at ha hb
    subst ha
    subst hb
    omega
  · intro u hu hq v hadj
    have := honly u hu
    subst this
    exact absurd (List.mem_singleton.mpr rfl) hq
  · exact vraw_inBounds S
  · rw [d0]
    omega
  · intro u hu hq
    have := honly u hu
    subst this
    exact absurd (List.mem_singleton.mpr rfl) hq

/-- Mid-fold BFS invariant implies every vertex strictly closer to the
source than the popped cell has already been discovered and dequeued. -/
theorem mid_discovered_below {rows cols : Nat} {g : Grid}
    {S RC : Vtx rows cols} {done : List Dir} {st : BfsState}
    (hconn : (openGraph rows cols g).Connected)
    (inv : BfsMid rows cols g S RC done st) :
    ∀ k : Nat, ∀ w : Vtx rows cols,
      (openGraph rows cols g).dist S w = k →
      k < (openGraph rows cols g).dist S RC →
      dAt st.dist (vraw w) ≠ -1 ∧ vraw w ∉ st.q := by
  have hm : dAt st.dist (vraw RC) =
      ((openGraph rows cols g).dist S RC : Int) := inv.dval RC inv.rcdisc
  have hS : dAt st.dist (vraw S) =
      ((openGraph rows cols g).dist S S : Int) := inv.dval S inv.sdisc
  intro k
  induction k using Nat.strong_induction_on with
  | _ k ih =>
    intro w hk hlt
    match k, hk, hlt with
    | 0, hk, hlt =>
      obtain ⟨p, hp⟩ := (hconn S w).exists_walk_length_eq_dist
      rw [hk] at hp
      have hw : S = w := SimpleGraph.Walk.eq_of_length_eq_zero hp
      subst hw
      refine ⟨inv.sdisc, ?_⟩
      intro hin
      have h1 := inv.qlo (vraw S) hin
      rw [hm, hS, SimpleGraph.dist_self] at h1
      omega
    | k + 1, hk, hlt =>
      obtain ⟨p, hp⟩ := (hconn S w).exists_walk_length_eq_dist
      rw [hk] at hp
      have hadj0 : (openGraph rows cols g).Adj (p.getVert k)
          (p.getVert (k + 1)) := p.adj_getVert_succ (by omega)
      have hvk1 : p.getVert (k + 1) = w := by
        rw [show k + 1 = p.length by omega]
        exact p.getVert_length
      rw [hvk1] at hadj0
      have hdk : (openGraph rows cols g).dist S (p.getVert k) = k := by
        have := shortest_getVert_dist hconn p (by rw [hp, hk])
          (Nat.zero_le k) (by omega)
        rwa [p.getVert_zero, Nat.sub_zero] at this
      obtain ⟨hdisc, hnotq⟩ := ih k (by omega) (p.getVert k) hdk (by omega)
      have hne : p.getVert k ≠ RC := by
        intro h
        rw [h] at hdk
        omega
      have hwdisc := inv.closedOld (p.getVert k) hdisc hnotq hne w hadj0
      refine ⟨hwdisc, ?_⟩
      intro hin
      have h1 := inv.qlo (vraw w) hin
      have h2 := inv.dval w hwdisc
      rw [hm, h2, hk] at h1
      omega

/-- Popping the head of the queue establishes the mid-fold invariant with
no direction handled yet. -/
theorem bfsMid_of_pop {rows cols : Nat} {g : Grid} {S : Vtx rows cols}
    {st : BfsState} {rc : Nat × Nat} {rest : List (Nat × Nat)}
    (inv : BfsInv rows cols g S st) (hq : st.q = rc :: rest)
    (hrc : inBounds rows cols rc) :
    BfsMid rows cols g S (toVtx rows cols rc hrc) []
      { st with
        q := rest,
        farthest :=
          if distAtI st.dist (st.farthest.1 : Int) (st.farthest.2 : Int)
              < distAtI st.dist (rc.1 : Int) (rc.2 : Int) then
            rc
          else
            st.farthest } := by
  have hvr : vraw (toVtx rows cols rc hrc) = rc := vraw_toVtx rc hrc
  have hrcmem : rc ∈ st.q := by rw [hq]; exact List.mem_cons_self rc rest
  have hrest : ∀ p ∈ rest, p ∈ st.q := by
    intro p hp
    rw [hq]
    exact List.mem_cons_of_mem rc hp
  have hrcdisc : dAt st.dist rc ≠ -1 := inv.qdisc rc hrcmem
  have hfar_eq : dAt st.dist
      (if distAtI st.dist (st.farthest.1 : Int) (st.farthest.2 : Int)
          < distAtI st.dist (rc.1 : Int) (rc.2 : Int) then rc
        else st.farthest) = max (dAt st.dist st.farthest) (dAt st.dist rc)
      := by
    unfold dAt
    split_ifs with h
    · omega
    · omega
  have hsorted := inv.qsorted
  rw [hq] at hsorted
  rw [List.pairwise_cons] at hsorted
  constructor
  · exact inv.ddims
  · intro p hp
    exact inv.qb p (hrest p hp)
  · have := inv.qnd
    rw [hq] at this
    exact (List.nodup_cons.mp this).2
  · intro p hp
    exact inv.qdisc p (hrest p hp)
  · exact inv.sdisc
  · exact inv.dval
  · intro p hp
    rw [hvr]
    exact hsorted.1 p hp
  · intro p hp
    rw [hvr]
    exact inv.qspread p (hrest p hp) rc hrcmem
  · exact hsorted.2
  · rw [hvr]
    exact hrcdisc
  · rw [hvr]
    have := inv.qnd
    rw [hq] at this
    exact (List.nodup_cons.mp this).1
  · intro u hu hnq hne v hadj
    refine inv.closed u hu ?_ v hadj
    rw [hq]
    intro hmem
    rcases List.mem_cons.mp hmem with h | h
    · exact hne (vraw_inj (h.trans hvr.symm))
    · exact hnq h
  · intro d hd
    exact absurd hd (List.not_mem_nil d)
  · simp only
    split_ifs with h
    · exact hrc
    · exact inv.farb
  · simp only
    rw [hfar_eq]
    have := inv.fardisc
    unfold dAt at this hrcdisc ⊢
    omega
  · simp only
    rw [hvr, hfar_eq]
    omega
  · intro u hu hnq hne
    simp only at hnq ⊢
    rw [hfar_eq]
    have hnq2 : vraw u ∉ st.q := by
      rw [hq]
      intro hmem
      rcases List.mem_cons.mp hmem with h | h
      · exact hne (vraw_inj (h.trans hvr.symm))
      · exact hnq h
    have := inv.farmax u hu hnq2
    omega

/-- Discovering a fresh neighbour `p` of the popped cell `RC` preserves the
mid-fold invariant and converts one undiscovered cell into a queued one. -/
theorem bfsMid_discover {rows cols : Nat} {g : Grid} {S RC : Vtx rows cols}
    {done : List Dir} {st : BfsState}
    (hsym : wallSymm rows cols g)
    (hconn : (openGraph rows cols g).Connected)
    (inv : BfsMid rows cols g S RC done st) {d : Dir} {p : Nat × Nat}
    (hw : wallAt g (vraw RC).1 (vraw RC).2 d = false)
    (hstep : stepN rows cols (vraw RC).1 (vraw RC).2 d = some p)
    (hpb : inBounds rows cols p)
    (h2 : dAt st.dist p = -1) :
    BfsMid rows cols g S RC (d :: done)
      { st with
        dist := setDistI st.dist (p.1 : Int) (p.2 : Int)
          (dAt st.dist (vraw RC) + 1),
        parent := (p, vraw RC) :: st.parent,
        q := st.q ++ [p] } ∧
    undiscCount rows cols (setDistI st.dist (p.1 : Int) (p.2 : Int)
      (dAt st.dist (vraw RC) + 1)) + 1 = undiscCount rows cols st.dist := by
  have hr : (vraw RC).1 < rows := (vraw_inBounds RC).1
  have hc : (vraw RC).2 < cols := (vraw_inBounds RC).2
  have hm := inv.dval RC inv.rcdisc
  have hm1 : dAt st.dist (vraw RC) + 1 ≠ -1 := by
    rw [hm]
    omega
  have hpres : ∀ x : Nat × Nat, dAt st.dist x ≠ -1 →
      dAt (setDistI st.dist (p.1 : Int) (p.2 : Int)
        (dAt st.dist (vraw RC) + 1)) x ≠ -1 := by
    intro x hx
    exact dAt_setDist_preserve inv.ddims hpb hx _ hm1
  have hne_p : ∀ x : Nat × Nat, dAt st.dist x ≠ -1 → x ≠ p := by
    intro x hx heq
    rw [heq] at hx
    exact hx h2
  have hsame : ∀ x : Nat × Nat, x ≠ p →
      dAt (setDistI st.dist (p.1 : Int) (p.2 : Int)
        (dAt st.dist (vraw RC) + 1)) x = dAt st.dist x := by
    intro x hx
    exact dAt_setDist_ne inv.ddims hx _
  have hnew : dAt (setDistI st.dist (p.1 : Int) (p.2 : Int)
      (dAt st.dist (vraw RC) + 1)) p = dAt st.dist (vraw RC) + 1 :=
    dAt_setDist_self inv.ddims hpb _
  have hvp : vraw (toVtx rows cols p hpb) = p := vraw_toVtx p hpb
  have hrc_ne : vraw RC ≠ p := hne_p (vraw RC) inv.rcdisc
  have hs_ne : vraw S ≠ p := hne_p (vraw S) inv.sdisc
  have hfar_ne : st.farthest ≠ p := hne_p st.farthest inv.fardisc
  have hadj : (openGraph rows cols g).Adj RC (toVtx rows cols p hpb) :=
    openAdjB_of_open_wall hsym hr hc hstep hw
  have hDp : (openGraph rows cols g).dist S (toVtx rows cols p hpb) =
      (openGraph rows cols g).dist S RC + 1 := by
    rcases dist_adj_cases hconn (openGraph_hdiff hconn) hadj S with h | h
    · exact h
    · exfalso
      have hlt : (openGraph rows cols g).dist S (toVtx rows cols p hpb) <
          (openGraph rows cols g).dist S RC := by omega
      have := (mid_discovered_below hconn inv _ (toVtx rows cols p hpb)
        rfl hlt).1
      rw [hvp] at this
      exact this h2
  constructor
  · constructor
    · exact setDistI_dims inv.ddims hpb _
    · intro x hx
      rcases List.mem_append.mp hx with h | h
      · exact inv.qb x h
      · rw [List.mem_singleton] at h
        subst h
        exact hpb
    · refine List.Nodup.append inv.qnd (List.nodup_singleton p) ?_
      intro x hx hx2
      rw [List.mem_singleton] at hx2
      subst hx2
      exact hne_p x (inv.qdisc x hx) rfl
    · intro x hx
      rcases List.mem_append.mp hx with h | h
      · exact hpres x (inv.qdisc x h)
      · rw [List.mem_singleton] at h
        subst h
        rw [hnew]
        exact hm1
    · rw [hsame (vraw S) hs_ne]
      exact inv.sdisc
    · intro u hu
      rcases eq_or_ne (vraw u) p with he | he
      · have hup : u = toVtx rows cols p hpb := vraw_inj (he.trans hvp.symm)
        subst hup
        rw [hvp] at hu ⊢
        rw [hnew, hm, hDp]
        push_cast
        ring
      · rw [hsame (vraw u) he] at hu ⊢
        exact inv.dval u hu
    · intro x hx
      rw [hsame (vraw RC) hrc_ne]
      rcases List.mem_append.mp hx with h | h
      · rw [hsame x (hne_p x (inv.qdisc x h))]
        exact inv.qlo x h
      · rw [List.mem_singleton] at h
        subst h
        rw [hnew]
        omega
    · intro x hx
      rw [hsame (vraw RC) hrc_ne]
      rcases List.mem_append.mp hx with h | h
      · rw [hsame x (hne_p x (inv.qdisc x h))]
        exact inv.qhi x h
      · rw [List.mem_singleton] at h
        subst h
        rw [hnew]
    · rw [List.pairwise_append]
      refine ⟨?_, List.pairwise_singleton _ _, ?_⟩
      · refine inv.qsorted.imp_of_mem ?_
        intro a b ha hb hab
        rw [hsame a (hne_p a (inv.qdisc a ha)),
          hsame b (hne_p b (inv.qdisc b hb))]
        exact hab
      · intro a ha b hb
        rw [List.mem_singleton] at hb
        subst hb
        rw [hsame a (hne_p a (inv.qdisc a ha)), hnew]
        exact inv.qhi a ha
    · rw [hsame (vraw RC) hrc_ne]
      exact inv.rcdisc
    · intro hx
      rcases List.mem_append.mp hx with h | h
      · exact inv.rcnotq h
      · rw [List.mem_singleton] at h
        exact hrc_ne h
    · intro u hu hnq hne v hadj2
      have hup : vraw u ≠ p := by
        intro he
        exact hnq (List.mem_append.mpr (Or.inr (by
          rw [List.mem_singleton]
          exact he)))
      rw [hsame (vraw u) hup] at hu
      have hnq2 : vraw u ∉ st.q := by
        intro h
        exact hnq (List.mem_append.mpr (Or.inl h))
      rcases eq_or_ne (vraw v) p with he | he
      · rw [he, hnew]
        exact hm1
      · rw [hsame (vraw v) he]
        exact inv.closedOld u hu hnq2 hne v hadj2
    · intro d2 hd2 q2 hstep2 hw2
      rcases List.mem_cons.mp hd2 with h | h
      · subst h
        have : q2 = p := by
          rw [hstep] at hstep2
          exact (Option.some.injEq _ _ ▸ hstep2.symm)
        subst this
        rw [hnew]
        exact hm1
      · rcases eq_or_ne q2 p with he | he
        · subst he
          rw [hnew]
          exact hm1
        · rw [hsame q2 he]
          exact inv.closedRC d2 h q2 hstep2 hw2
    · exact inv.farb
    · rw [hsame st.farthest hfar_ne]
      exact inv.fardisc
    · rw [hsame (vraw RC) hrc_ne, hsame st.farthest hfar_ne]
      exact inv.rcfar
    · intro u hu hnq hne
      have hup : vraw u ≠ p := by
        intro he
        exact hnq (List.mem_append.mpr (Or.inr (by
          rw [List.mem_singleton]
          exact he)))
      rw [hsame (vraw u) hup] at hu ⊢
      rw [hsame st.farthest hfar_ne]
      have hnq2 : vraw u ∉ st.q := by
        intro h
        exact hnq (List.mem_append.mpr (Or.inl h))
      exact inv.farmax2 u hu hnq2 hne
  · have hfilter :
        Finset.univ.filter (fun u : Vtx rows cols =>
          dAt (setDistI st.dist (p.1 : Int) (p.2 : Int)
            (dAt st.dist (vraw RC) + 1)) (vraw u) = -1) =
        (Finset.univ.filter (fun u : Vtx rows cols =>
          dAt st.dist (vraw u) = -1)).erase (toVtx rows cols p hpb) := by
      ext u
      simp only [Finset.mem_filter, Finset.mem_erase, Finset.mem_univ,
        true_and]
      constructor
      · intro hu
        rcases eq_or_ne (vraw u) p with he | he
        · exfalso
          rw [he, hnew] at hu
          exact hm1 hu
        · rw [hsame (vraw u) he] at hu
          refine ⟨?_, hu⟩
          intro heq
          subst heq
          exact he hvp
      · intro ⟨hne, hu⟩
        have he : vraw u ≠ p := by
          intro h
          exact hne (vraw_inj (h.trans hvp.symm))
        rw [hsame (vraw u) he]
        exact hu
    have hmem : toVtx rows cols p hpb ∈
        Finset.univ.filter (fun u : Vtx rows cols =>
          dAt st.dist (vraw u) = -1) := by
      simp only [Finset.mem_filter, Finset.mem_univ, true_and]
      rw [hvp]
      exact h2
    unfold undiscCount
    rw [hfilter, Finset.card_erase_of_mem hmem]
    have hpos : 0 < (Finset.univ.filter (fun u : Vtx rows cols =>
        dAt st.dist (vraw u) = -1)).card :=
      Finset.card_pos.mpr ⟨_, hmem⟩
    omega

/-- One direction of the `DIR_VEC` fold preserves the mid-fold invariant
and the quantity queued-plus-undiscovered. -/
theorem bfsMid_step {rows cols : Nat} {g : Grid} {S RC : Vtx rows cols}
    {done : List Dir} {st : BfsState}
    (hsym : wallSymm rows cols g) (hbd : boundaryIntact rows cols g)
    (hconn : (openGraph rows cols g).Connected)
    (inv : BfsMid rows cols g S RC done st) (d : Dir) :
    BfsMid rows cols g S RC (d :: done)
      (bfsDirStep g (vraw RC).1 (vraw RC).2 d st) ∧
    (bfsDirStep g (vraw RC).1 (vraw RC).2 d st).q.length +
      undiscCount rows cols
        (bfsDirStep g (vraw RC).1 (vraw RC).2 d st).dist =
      st.q.length + undiscCount rows cols st.dist := by
  have hr : (vraw RC).1 < rows := (vraw_inBounds RC).1
  have hc : (vraw RC).2 < cols := (vraw_inBounds RC).2
  cases hw : wallAt g (vraw RC).1 (vraw RC).2 d with
  | true =>
    rw [bfsDirStep_wall st hw]
    refine ⟨?_, rfl⟩
    constructor
    · exact inv.ddims
    · exact inv.qb
    · exact inv.qnd
    · exact inv.qdisc
    · exact inv.sdisc
    · exact inv.dval
    · exact inv.qlo
    · exact inv.qhi
    · exact inv.qsorted
    · exact inv.rcdisc
    · exact inv.rcnotq
    · exact inv.closedOld
    · intro d2 hd2 q2 hstep2 hw2
      rcases List.mem_cons.mp hd2 with h | h
      · subst h
        rw [hw] at hw2
        exact absurd hw2 (by simp)
      · exact inv.closedRC d2 h q2 hstep2 hw2
    · exact inv.farb
    · exact inv.fardisc
    · exact inv.rcfar
    · exact inv.farmax2
  | false =>
    obtain ⟨p, hstep, hpb⟩ := open_wall_step_inBounds hbd hr hc hw
    have hcoords := stepN_int_coords hstep
    rcases eq_or_ne (dAt st.dist p) (-1) with h2 | h2
    · have hrec : bfsDirStep g (vraw RC).1 (vraw RC).2 d st =
          { st with
            dist := setDistI st.dist (p.1 : Int) (p.2 : Int)
              (dAt st.dist (vraw RC) + 1),
            parent := (p, vraw RC) :: st.parent,
            q := st.q ++ [p] } := by
        rw [bfsDirStep_open_hit st hw (by rw [hcoords.1, hcoords.2]; exact h2)]
        rw [hcoords.1, hcoords.2]
        simp only [Int.toNat_natCast]
        rfl
      obtain ⟨hmid, hcount⟩ := bfsMid_discover hsym hconn inv hw hstep hpb h2
      rw [hrec]
      refine ⟨hmid, ?_⟩
      simp only [List.length_append, List.length_singleton]
      omega
    · rw [bfsDirStep_open_miss st hw (by rw [hcoords.1, hcoords.2]; exact h2)]
      refine ⟨?_, rfl⟩
      constructor
      · exact inv.ddims
      · exact inv.qb
      · exact inv.qnd
      · exact inv.qdisc
      · exact inv.sdisc
      · exact inv.dval
      · exact inv.qlo
      · exact inv.qhi
      · exact inv.qsorted
      · exact inv.rcdisc
      · exact inv.rcnotq
      · exact inv.closedOld
      · intro d2 hd2 q2 hstep2 hw2
        rcases List.mem_cons.mp hd2 with h | h
        · subst h
          have hq2 : q2 = p := by
            rw [hstep] at hstep2
            exact (Option.some.inj hstep2).symm
          subst hq2
          exact h2
        · exact inv.closedRC d2 h q2 hstep2 hw2
      · exact inv.farb
      · exact inv.fardisc
      · exact inv.rcfar
      · exact inv.farmax2

theorem bfsLoop_succ_cons2 (g : Grid) (fuel : Nat) (st : BfsState)
    (rc : Nat × Nat) (rest : List (Nat × Nat)) (h : st.q = rc :: rest) :
    bfsLoop g (fuel + 1) st =
      bfsLoop g fuel
        (dirList.foldl (fun s d => bfsDirStep g rc.1 rc.2 d s)
          { st with
            q := rest,
            farthest :=
              if distAtI st.dist (st.farthest.1 : Int) (st.farthest.2 : Int)
                  < distAtI st.dist (rc.1 : Int) (rc.2 : Int) then
                rc
              else
                st.farthest }) := by
  obtain ⟨r, c⟩ := rc
  exact bfsLoop_succ_cons g fuel st r c rest h

/-- After all four directions have been handled, the loop invariant is
restored. -/
theorem bfsInv_of_mid {rows cols : Nat} {g : Grid} {S RC : Vtx rows cols}
    {st : BfsState} (hmid : BfsMid rows cols g S RC [W, E, Dir.S, N] st) :
    BfsInv rows cols g S st := by
  constructor
  · exact hmid.ddims
  · exact hmid.qb
  · exact hmid.qnd
  · exact hmid.qdisc
  · exact hmid.sdisc
  · exact hmid.dval
  · exact hmid.qsorted
  · intro a ha b hb
    have h1 := hmid.qhi a ha
    have h2 := hmid.qlo b hb
    omega
  · intro u hu hnq v hadj
    rcases eq_or_ne u RC with rfl | hne
    · have hB : openAdjB rows cols g (vraw u) (vraw v) = true := hadj
      rw [openAdjB_iff] at hB
      obtain ⟨_, _, d, hstep, hwall, _⟩ := hB
      exact hmid.closedRC d (by cases d <;> decide) (vraw v) hstep hwall
    · exact hmid.closedOld u hu hnq hne v hadj
  · exact hmid.farb
  · exact hmid.fardisc
  · intro u hu hnq
    rcases eq_or_ne u RC with rfl | hne
    · exact hmid.rcfar
    · exact hmid.farmax2 u hu hnq hne

/-- One full iteration of the BFS loop: pop, fold over the four directions,
restore the invariant; the queued-plus-undiscovered count drops by one. -/
theorem bfsInv_iter {rows cols : Nat} {g : Grid} {S : Vtx rows cols}
    (hsym : wallSymm rows cols g) (hbd : boundaryIntact rows cols g)
    (hconn : (openGraph rows cols g).Connected) {st : BfsState}
    {rc : Nat × Nat} {rest : List (Nat × Nat)}
    (inv : BfsInv rows cols g S st) (hq : st.q = rc :: rest) :
    BfsInv rows cols g S
      (dirList.foldl (fun s d => bfsDirStep g rc.1 rc.2 d s)
        { st with
          q := rest,
          farthest :=
            if distAtI st.dist (st.farthest.1 : Int) (st.farthest.2 : Int)
                < distAtI st.dist (rc.1 : Int) (rc.2 : Int) then
              rc
            else
              st.farthest }) ∧
    (dirList.foldl (fun s d => bfsDirStep g rc.1 rc.2 d s)
        { st with
          q := rest,
          farthest :=
            if distAtI st.dist (st.farthest.1 : Int) (st.farthest.2 : Int)
                < distAtI st.dist (rc.1 : Int) (rc.2 : Int) then
              rc
            else
              st.farthest }).q.length +
      undiscCount rows cols
        (dirList.foldl (fun s d => bfsDirStep g rc.1 rc.2 d s)
          { st with
            q := rest,
            farthest :=
              if distAtI st.dist (st.farthest.1 : Int) (st.farthest.2 : Int)
                  < distAtI st.dist (rc.1 : Int) (rc.2 : Int) then
                rc
              else
                st.farthest }).dist + 1 =
      st.q.length + undiscCount rows cols st.dist := by
  have hrc : inBounds rows cols rc := inv.qb rc (by
    rw [hq]
    exact List.mem_cons_self rc rest)
  have hmid0 := bfsMid_of_pop inv hq hrc
  have h1 := bfsMid_step hsym hbd hconn hmid0 N
  have h2 := bfsMid_step hsym hbd hconn h1.1 Dir.S
  have h3 := bfsMid_step hsym hbd hconn h2.1 E
  have h4 := bfsMid_step hsym hbd hconn h3.1 W
  simp only [dirList, List.foldl_cons, List.foldl_nil]
  constructor
  · exact bfsInv_of_mid h4.1
  · have e1 := h1.2
    have e2 := h2.2
    have e3 := h3.2
    have e4 := h4.2
    simp only [vraw_toVtx] at e1 e2 e3 e4
    have hlen : st.q.length = rest.length + 1 := by
      rw [hq]
      rfl
    omega

/-- Running the BFS loop with enough fuel drains the queue while keeping
the invariant. -/
theorem bfsLoop_drain {rows cols : Nat} {g : Grid} {S : Vtx rows cols}
    (hsym : wallSymm rows cols g) (hbd : boundaryIntact rows cols g)
    (hconn : (openGraph rows cols g).Connected) :
    ∀ fuel (st : BfsState), BfsInv rows cols g S st →
      st.q.length + undiscCount rows cols st.dist ≤ fuel →
      (bfsLoop g fuel st).q = [] ∧
      BfsInv rows cols g S (bfsLoop g fuel st) := by
  intro fuel
  induction fuel with
  | zero =>
    intro st inv hle
    rw [bfsLoop_zero]
    have hlen : st.q.length = 0 := by omega
    exact ⟨List.length_eq_zero.mp hlen, inv⟩
  | succ n ih =>
    intro st inv hle
    cases hq : st.q with
    | nil =>
      rw [bfsLoop_succ_nil g n st hq]
      exact ⟨hq, inv⟩
    | cons rc rest =>
      rw [bfsLoop_succ_cons2 g n st rc rest hq]
      obtain ⟨inv2, hcount⟩ := bfsInv_iter hsym hbd hconn inv hq
      refine ih _ inv2 ?_
      have hlen : st.q.length = rest.length + 1 := by
        rw [hq]
        rfl
      omega

/-- With the queue drained, every cell has been discovered. -/
theorem bfsInv_all_disc {rows cols : Nat} {g : Grid} {S : Vtx rows cols}
    (hconn : (openGraph rows cols g).Connected) {st : BfsState}
    (inv : BfsInv rows cols g S st) (hq : st.q = []) :
    ∀ u : Vtx rows cols, dAt st.dist (vraw u) ≠ -1 := by
  have hnq : ∀ x : Nat × Nat, x ∉ st.q := by
    intro x
    rw [hq]
    exact List.not_mem_nil x
  have key : ∀ k, ∀ u : Vtx rows cols,
      (openGraph rows cols g).dist S u = k → dAt st.dist (vraw u) ≠ -1 := by
    intro k
    induction k using Nat.strong_induction_on with
    | _ k ih =>
      intro u hk
      match k, hk with
      | 0, hk =>
        obtain ⟨p, hp⟩ := (hconn S u).exists_walk_length_eq_dist
        rw [hk] at hp
        have hw : S = u := SimpleGraph.Walk.eq_of_length_eq_zero hp
        subst hw
        exact inv.sdisc
      | k + 1, hk =>
        obtain ⟨p, hp⟩ := (hconn S u).exists_walk_length_eq_dist
        rw [hk] at hp
        have hadj0 : (openGraph rows cols g).Adj (p.getVert k)
            (p.getVert (k + 1)) := p.adj_getVert_succ (by omega)
        have hvk1 : p.getVert (k + 1) = u := by
          rw [show k + 1 = p.length by omega]
          exact p.getVert_length
        rw [hvk1] at hadj0
        have hdk : (openGraph rows cols g).dist S (p.getVert k) = k := by
          have := shortest_getVert_dist hconn p (by rw [hp, hk])
            (Nat.zero_le k) (by omega)
          rwa [p.getVert_zero, Nat.sub_zero] at this
        have hdisc := ih k (by omega) (p.getVert k) hdk
        exact inv.closed (p.getVert k) hdisc (hnq _) u hadj0
  intro u
  exact key _ u rfl

theorem undiscCount_init {rows cols : Nat} (S : Vtx rows cols) :
    undiscCount rows cols
      (setDistI (List.replicate rows (List.replicate cols (-1)))
        ((vraw S).1 : Int) ((vraw S).2 : Int) 0) + 1 = rows * cols := by
  have hdim0 : matDims rows cols
      (List.replicate rows (List.replicate cols (-1 : Int))) :=
    matDims_replicate rows cols _
  have hfilter : Finset.univ.filter (fun u : Vtx rows cols =>
      dAt (setDistI (List.replicate rows (List.replicate cols (-1)))
        ((vraw S).1 : Int) ((vraw S).2 : Int) 0) (vraw u) = -1) =
      Finset.univ.erase S := by
    ext u
    simp only [Finset.mem_filter, Finset.mem_erase, Finset.mem_univ,
      true_and, and_true]
    constructor
    · intro hu heq
      subst heq
      rw [dAt_setDist_self hdim0 (vraw_inBounds u) 0] at hu
      exact absurd hu (by omega)
    · intro hne
      rw [dAt_setDist_ne hdim0 (fun h => hne (vraw_inj h)) 0,
        dAt_init_replicate]
  unfold undiscCount
  rw [hfilter, Finset.card_erase_of_mem (Finset.mem_univ S)]
  have hcard : (Finset.univ : Finset (Vtx rows cols)).card = rows * cols := by
    rw [Finset.card_univ]
    rw [Fintype.card_prod, Fintype.card_fin, Fintype.card_fin]
  have hpos : 0 < (Finset.univ : Finset (Vtx rows cols)).card :=
    Finset.card_pos.mpr ⟨S, Finset.mem_univ S⟩
  omega

/-- The BFS from a cell `S` terminates with an empty queue, exact graph
distances, and a `farthest` cell realizing the eccentricity of `S`. -/
theorem bfs_correct {rows cols : Nat} {g : Grid}
    (hsym : wallSymm rows cols g) (hbd : boundaryIntact rows cols g)
    (hconn : (openGraph rows cols g).Connected) (S : Vtx rows cols) :
    ∃ F : Vtx rows cols, vraw F = (bfs rows cols g (vraw S)).farthest ∧
      ∀ u : Vtx rows cols, (openGraph rows cols g).dist S u ≤
        (openGraph rows cols g).dist S F := by
  have hinit := bfsInv_init rows cols g S
  have hmeas := undiscCount_init S
  have hdrain := @bfsLoop_drain rows cols g S hsym hbd hconn (rows * cols)
    { dist := setDistI (List.replicate rows (List.replicate cols (-1)))
        (((vraw S).1 : Nat) : Int) (((vraw S).2 : Nat) : Int) 0,
      q := [vraw S], parent := [], farthest := vraw S }
    hinit (by
      simp only [List.length_singleton]
      omega)
  have hbfs : bfs rows cols g (vraw S) =
      bfsLoop g (rows * cols)
        { dist := setDistI (List.replicate rows (List.replicate cols (-1)))
            (((vraw S).1 : Nat) : Int) (((vraw S).2 : Nat) : Int) 0,
          q := [vraw S], parent := [], farthest := vraw S } := rfl
  rw [← hbfs] at hdrain
  obtain ⟨hqnil, hfin⟩ := hdrain
  have halldisc := bfsInv_all_disc hconn hfin hqnil
  have hFb : inBounds rows cols (bfs rows cols g (vraw S)).farthest :=
    hfin.farb
  refine ⟨toVtx rows cols _ hFb, vraw_toVtx _ hFb, ?_⟩
  intro u
  have hle := hfin.farmax u (halldisc u) (by
    rw [hqnil]
    exact List.not_mem_nil _)
  have hu := hfin.dval u (halldisc u)
  have hF := hfin.dval (toVtx rows cols _ hFb)
    (halldisc (toVtx rows cols _ hFb))
  rw [vraw_toVtx _ hFb] at hF
  rw [hu, hF] at hle
  exact_mod_cast hle

end BfsVerification

/-- C1: for every valid grid (`rows, cols ≥ 2`, all walls initially
present) and every in-bounds start cell, after `_carve_passage` completes
every cell has been visited and the open-wall graph is a spanning tree:
connected and acyclic (`IsTree`), with exactly `rows·cols − 1` open-wall
pairs (edges). -/
theorem C1_carve_spanning_tree (rows cols : Nat) (cx : ℚ) (o : RandOracle)
    (sr sc : Nat) (hrows : 2 ≤ rows) (hcols : 2 ≤ cols) (hsr : sr < rows)
    (hsc : sc < cols) :
    (∀ p : Nat × Nat, inBounds rows cols p →
      visitedAt
        (carve_passage rows cols cx o sr sc (initGrid rows cols)).visited
        p.1 p.2 = true) ∧
    (openGraph rows cols
      (carve_passage rows cols cx o sr sc (initGrid rows cols)).grid).IsTree ∧
    (openGraph rows cols
        (carve_passage rows cols cx o sr sc (initGrid rows cols)).grid
      ).edgeFinset.card = rows * cols - 1 :=
  ⟨carve_passage_all_visited cx o hsr hsc,
    carve_passage_isTree cx o hsr hsc,
    carve_passage_card cx o hsr hsc⟩

/-- Witness for C1 at `rows = cols = 2`, start `(0, 0)`. -/
theorem C1_carve_spanning_tree_witness :
    (2 ≤ 2) ∧
    ((∀ p : Nat × Nat, inBounds 2 2 p →
      visitedAt
        (carve_passage 2 2 0 oracle0 0 0 (initGrid 2 2)).visited
        p.1 p.2 = true) ∧
    (openGraph 2 2
      (carve_passage 2 2 0 oracle0 0 0 (initGrid 2 2)).grid).IsTree ∧
    (openGraph 2 2
        (carve_passage 2 2 0 oracle0 0 0 (initGrid 2 2)).grid
      ).edgeFinset.card = 2 * 2 - 1) :=
  ⟨by decide, C1_carve_spanning_tree 2 2 0 oracle0 0 0 (by decide) (by decide)
    (by decide) (by decide)⟩

/-- C2 (code evaluated at the failing input): `random.shuffle` acts on the
discarded copy `neighbours[:shuffle_portion]`, so for every state of the
random generator the returned list is exactly the deterministic N, S, E, W
construction order — never a non-identity permutation of it.  Shown both in
general (the result does not depend on the permutation at all) and at the
concrete failing input `rows = cols = 2`, `complexity = 1`, cell `(0, 0)`,
no cell visited, where the leading portion is the whole two-element list. -/
theorem C2_shuffle_has_no_effect :
    (∀ (rows cols : Nat) (cx : ℚ) (r c : Nat) (vis : List (List Bool))
      (σ σ2 : List NEntry → List NEntry),
      unvisited_neighbours rows cols cx r c vis σ =
        unvisited_neighbours rows cols cx r c vis σ2) ∧
    (∀ σ : List NEntry → List NEntry,
      unvisited_neighbours 2 2 1 0 0 (initVisited 2 2) σ =
        [(1, 0, S, N), (0, 1, E, W)]) := by
  constructor
  · intro rows cols cx r c vis σ σ2
    exact unvisited_neighbours_perm_irrel rows cols cx r c vis σ σ2
  · intro σ
    rw [unvisited_neighbours_perm_irrel 2 2 1 0 0 (initVisited 2 2) σ
      (fun l => l)]
    decide

/-- C3: `generate` selects endpoints by the three-way difficulty policy:
below 1/10 the fixed near pair, from 1/10 up to 1/2 the opposite corners,
and from 1/2 the two-pass BFS diameter pair of the carved grid. -/
theorem C3_difficulty_policy (st : MazeState) (o : RandOracle) :
    (st.difficulty < 1 / 10 →
      (generate st o).start = some (0, 0) ∧
      (generate st o).endCell = some (1, 1)) ∧
    (1 / 10 ≤ st.difficulty → st.difficulty < 1 / 2 →
      (generate st o).start = some (0, 0) ∧
      (generate st o).endCell = some (st.rows - 1, st.cols - 1)) ∧
    (1 / 2 ≤ st.difficulty →
      (generate st o).start = some (longest_path_endpoints st.rows st.cols
        (carve_passage st.rows st.cols st.complexity o (o.startR % st.rows)
          (o.startC % st.cols) st.grid).grid).1 ∧
      (generate st o).endCell = some (longest_path_endpoints st.rows st.cols
        (carve_passage st.rows st.cols st.complexity o (o.startR % st.rows)
          (o.startC % st.cols) st.grid).grid).2) := by
  refine ⟨?_, ?_, ?_⟩
  · intro hlt
    unfold generate
    rw [if_pos hlt]
    exact ⟨rfl, rfl⟩
  · intro hge hlt
    unfold generate
    rw [if_neg (by exact not_lt.mpr hge), if_pos hlt]
    exact ⟨rfl, rfl⟩
  · intro hge
    unfold generate
    rw [if_neg (by exact not_lt.mpr (le_trans (by norm_num) hge)),
      if_neg (by exact not_lt.mpr hge)]
    exact ⟨rfl, rfl⟩

/-- Witness for C3: at difficulty 0 the near pair is selected. -/
theorem C3_difficulty_policy_witness :
    (generate demoState oracle0).start = some (0, 0) ∧
    (generate demoState oracle0).endCell = some (1, 1) :=
  (C3_difficulty_policy demoState oracle0).1 (by norm_num [demoState])

/-- C4: for every carved maze whose open-wall graph is a spanning tree, the
pair `(A, B)` returned by `_longest_path_endpoints` (BFS from `(0, 0)` to
find the farthest cell `A`, then BFS from `A` to find the farthest cell
`B`) is an exact diameter pair: `dist(A, B) ≥ dist(X, Y)` for every pair of
cells `X`, `Y`. -/
theorem C4_two_pass_bfs_diameter (rows cols : Nat) (g : Grid)
    (hrows : 1 ≤ rows) (hcols : 1 ≤ cols)
    (hsym : wallSymm rows cols g) (hbd : boundaryIntact rows cols g)
    (htree : (openGraph rows cols g).IsTree) :
    ∃ A B : Vtx rows cols,
      vraw A = (longest_path_endpoints rows cols g).1 ∧
      vraw B = (longest_path_endpoints rows cols g).2 ∧
      ∀ X Y : Vtx rows cols,
        (openGraph rows cols g).dist X Y ≤
          (openGraph rows cols g).dist A B := by
  have hconn := htree.isConnected
  have hdiff := openGraph_hdiff hconn
  have h00 : inBounds rows cols (0, 0) := ⟨hrows, hcols⟩
  obtain ⟨A, hA_eq, hA_max⟩ :=
    bfs_correct hsym hbd hconn (toVtx rows cols (0, 0) h00)
  obtain ⟨B, hB_eq, hB_max⟩ := bfs_correct hsym hbd hconn A
  have hA_eq2 : vraw A = (bfs rows cols g (0, 0)).farthest := hA_eq
  refine ⟨A, B, hA_eq2, ?_, ?_⟩
  · show vraw B = (bfs rows cols g ((bfs rows cols g (0, 0)).farthest)
      ).farthest
    rw [← hA_eq2]
    exact hB_eq
  · intro X Y
    exact tree_two_sweep htree hdiff (toVtx rows cols (0, 0) h00) A B
      hA_max hB_max X Y

/-- Witness for C4 on the concrete `2 × 2` maze carved with the all-zero
oracle; the spanning-tree hypothesis is discharged by the carving
correctness theorems. -/
theorem C4_two_pass_bfs_diameter_witness :
    ∃ A B : Vtx 2 2,
      vraw A = (longest_path_endpoints 2 2
        (carve_passage 2 2 0 oracle0 0 0 (initGrid 2 2)).grid).1 ∧
      vraw B = (longest_path_endpoints 2 2
        (carve_passage 2 2 0 oracle0 0 0 (initGrid 2 2)).grid).2 ∧
      ∀ X Y : Vtx 2 2,
        (openGraph 2 2
          (carve_passage 2 2 0 oracle0 0 0 (initGrid 2 2)).grid).dist X Y ≤
        (openGraph 2 2
          (carve_passage 2 2 0 oracle0 0 0 (initGrid 2 2)).grid).dist A B :=
  C4_two_pass_bfs_diameter 2 2
    (carve_passage 2 2 0 oracle0 0 0 (initGrid 2 2)).grid
    (by decide) (by decide) (by decide) (by decide)
    (carve_passage_isTree 0 oracle0 (by decide) (by decide))

/-- C5: wall symmetry is an invariant: it holds of the fully-walled initial
grid and at every point during and after carving (after any number of loop
iterations, hence in particular after `_carve_passage` returns). -/
theorem C5_wall_symmetry (rows cols : Nat) (cx : ℚ) (o : RandOracle)
    (sr sc : Nat) (hsr : sr < rows) (hsc : sc < cols) :
    wallSymm rows cols (initGrid rows cols) ∧
    (∀ fuel : Nat, wallSymm rows cols
      (carveLoop rows cols cx o fuel 0
        { grid := initGrid rows cols,
          visited := setVisited (initVisited rows cols) sr sc,
          stack := [(sr, sc)] }).grid) ∧
    wallSymm rows cols
      (carve_passage rows cols cx o sr sc (initGrid rows cols)).grid := by
  refine ⟨wallSymm_initGrid rows cols, ?_, ?_⟩
  · intro fuel
    exact (carveInv_loop fuel 0 _ (carveInv_init hsr hsc)).wsym
  · rw [carve_passage_def]
    exact (carveInv_loop _ 0 _ (carveInv_init hsr hsc)).wsym

/-- Witness for C5 at `rows = cols = 2`. -/
theorem C5_wall_symmetry_witness :
    wallSymm 2 2 (initGrid 2 2) ∧
    (∀ fuel : Nat, wallSymm 2 2
      (carveLoop 2 2 0 oracle0 fuel 0
        { grid := initGrid 2 2,
          visited := setVisited (initVisited 2 2) 0 0,
          stack := [(0, 0)] }).grid) ∧
    wallSymm 2 2 (carve_passage 2 2 0 oracle0 0 0 (initGrid 2 2)).grid :=
  C5_wall_symmetry 2 2 0 oracle0 0 0 (by decide) (by decide)

/-- C6: construction raises `ValueError` exactly when `rows < 2`, or
`cols < 2`, or `complexity` is outside `[0, 1]`, or `difficulty` is outside
`[0, 1]`; the failure is synchronous and atomic (an `Except.error` carries
no state at all), and on success all four walls of every cell are present
and the endpoints are unset. -/
theorem C6_construction_validation (rows cols cell_size : Int)
    (cx df : ℚ) :
    ((rows < 2 ∨ cols < 2 ∨ ¬ (0 ≤ cx ∧ cx ≤ 1) ∨ ¬ (0 ≤ df ∧ df ≤ 1)) ↔
      ∃ msg, mazeInit rows cols cell_size cx df = .error msg) ∧
    (∀ st, mazeInit rows cols cell_size cx df = .ok st →
      st.rows = rows.toNat ∧ st.cols = cols.toNat ∧
      st.complexity = cx ∧ st.difficulty = df ∧
      st.start = none ∧ st.endCell = none ∧
      (∀ r c d, wallAt st.grid r c d = true)) := by
  constructor
  · constructor
    · intro h
      unfold mazeInit
      by_cases h1 : rows < 2 ∨ cols < 2
      · rw [if_pos h1]
        exact ⟨_, rfl⟩
      · rw [if_neg h1]
        by_cases h2 : ¬ (0 ≤ cx ∧ cx ≤ 1)
        · rw [if_pos h2]
          exact ⟨_, rfl⟩
        · rw [if_neg h2]
          have h3 : ¬ (0 ≤ df ∧ df ≤ 1) := by tauto
          rw [if_pos h3]
          exact ⟨_, rfl⟩
    · rintro ⟨msg, hmsg⟩
      by_contra hcon
      push_neg at hcon
      obtain ⟨hr2, hc2, hcx, hdf⟩ := hcon
      unfold mazeInit at hmsg
      rw [if_neg (by omega), if_neg (by simpa using hcx),
        if_neg (by simpa using hdf)] at hmsg
      exact Except.noConfusion hmsg
  · intro st hst
    unfold mazeInit at hst
    by_cases h1 : rows < 2 ∨ cols < 2
    · rw [if_pos h1] at hst
      exact Except.noConfusion hst
    · rw [if_neg h1] at hst
      by_cases h2 : ¬ (0 ≤ cx ∧ cx ≤ 1)
      · rw [if_pos h2] at hst
        exact Except.noConfusion hst
      · rw [if_neg h2] at hst
        by_cases h3 : ¬ (0 ≤ df ∧ df ≤ 1)
        · rw [if_pos h3] at hst
          exact Except.noConfusion hst
        · rw [if_neg h3] at hst
          obtain rfl := Except.ok.inj hst
          exact ⟨rfl, rfl, rfl, rfl, rfl, rfl,
            fun r c d => wallAt_initGrid _ _ r c d⟩

/-- Witness for C6: `rows = 1` is rejected. -/
theorem C6_construction_validation_witness :
    ∃ msg, mazeInit 1 5 20 (3 / 4) (3 / 4) = .error msg :=
  (C6_construction_validation 1 5 20 (3 / 4) (3 / 4)).1.mp
    (by norm_num)

/-- C7 counterexample: the code never raises on querying the endpoints of a
freshly constructed generator — construction succeeds with `start` and
`end` holding the default `None`, so reading them before `generate()` does
succeed with a default value, contrary to the claim. -/
theorem C7_counterexample :
    ∃ st, mazeInit 5 5 20 (3 / 4) (3 / 4) = .ok st ∧
      st.start = none ∧ st.endCell = none := by
  have hok : mazeInit 5 5 20 (3 / 4) (3 / 4) = .ok
      { rows := (5 : Int).toNat,
        cols := (5 : Int).toNat,
        cell_size := 20,
        complexity := 3 / 4,
        difficulty := 3 / 4,
        grid := initGrid (5 : Int).toNat (5 : Int).toNat,
        start := none,
        endCell := none } := by
    unfold mazeInit
    rw [if_neg (by norm_num), if_neg (by norm_num), if_neg (by norm_num)]
  exact ⟨_, hok, rfl, rfl⟩

/-- C7 as amended: there is no `PreconditionError` in the code; a freshly
constructed generator holds `start = None` and `end = None`, and `draw()`
compensates by running `generate()` whenever either is `None`. -/
theorem C7_amended_no_precondition_error (rows cols cell_size : Int)
    (cx df : ℚ) (st : MazeState)
    (hok : mazeInit rows cols cell_size cx df = .ok st) :
    st.start = none ∧ st.endCell = none ∧
    (∀ o, drawEnsureGenerated st o = generate st o) := by
  have h := (C6_construction_validation rows cols cell_size cx df).2 st hok
  refine ⟨h.2.2.2.2.1, h.2.2.2.2.2.1, ?_⟩
  intro o
  unfold drawEnsureGenerated
  rw [if_pos (Or.inl h.2.2.2.2.1)]

/-- Witness for the amended C7 at a concrete construction. -/
theorem C7_amended_witness :
    demoState.start = none ∧ demoState.endCell = none ∧
    (∀ o, drawEnsureGenerated demoState o = generate demoState o) := by
  refine C7_amended_no_precondition_error 2 2 20 0 0 demoState ?_
  unfold mazeInit
  rw [if_neg (by norm_num), if_neg (by norm_num), if_neg (by norm_num)]
  rfl

/-- C8: `_carve_passage` terminates on every valid input: the visited count
never decreases from one loop iteration to the next, is bounded by
`rows·cols`, and the stack is fully drained within the `2·rows·cols` fuel
(so the loop cannot run forever). -/
theorem C8_carve_terminates (rows cols : Nat) (cx : ℚ) (o : RandOracle)
    (sr sc : Nat) (hsr : sr < rows) (hsc : sc < cols) :
    (carve_passage rows cols cx o sr sc (initGrid rows cols)).stack = [] ∧
    (∀ fuel : Nat, visCount rows cols
      (carveLoop rows cols cx o fuel 0
        { grid := initGrid rows cols,
          visited := setVisited (initVisited rows cols) sr sc,
          stack := [(sr, sc)] }).visited ≤ rows * cols) ∧
    (∀ fuel : Nat, visCount rows cols
        (carveLoop rows cols cx o fuel 0
          { grid := initGrid rows cols,
            visited := setVisited (initVisited rows cols) sr sc,
            stack := [(sr, sc)] }).visited ≤
      visCount rows cols
        (carveLoop rows cols cx o (fuel + 1) 0
          { grid := initGrid rows cols,
            visited := setVisited (initVisited rows cols) sr sc,
            stack := [(sr, sc)] }).visited) := by
  refine ⟨carve_passage_stack_nil cx o hsr hsc _, ?_, ?_⟩
  · intro fuel
    exact visCount_le rows cols _
  · intro fuel
    rw [carveLoop_succ_last]
    split_ifs with hdone
    · exact le_refl _
    · set st2 := carveLoop rows cols cx o fuel 0 _ with hst2
      rcases hstack : st2.stack with _ | ⟨⟨r, c⟩, rest⟩
      · exact absurd hstack hdone
      · rcases hn : unvisited_neighbours rows cols cx r c st2.visited
          (o.perm (0 + fuel)) with _ | ⟨first, tail⟩
        · rw [carveStep_pop hstack hn]
        · rw [carveStep_push hstack hn]
          exact visCount_setVisited_mono rows cols _ _ _

/-- Witness for C8 at `rows = cols = 2`. -/
theorem C8_carve_terminates_witness :
    (carve_passage 2 2 0 oracle0 0 0 (initGrid 2 2)).stack = [] ∧
    (∀ fuel : Nat, visCount 2 2
      (carveLoop 2 2 0 oracle0 fuel 0
        { grid := initGrid 2 2,
          visited := setVisited (initVisited 2 2) 0 0,
          stack := [(0, 0)] }).visited ≤ 2 * 2) ∧
    (∀ fuel : Nat, visCount 2 2
        (carveLoop 2 2 0 oracle0 fuel 0
          { grid := initGrid 2 2,
            visited := setVisited (initVisited 2 2) 0 0,
            stack := [(0, 0)] }).visited ≤
      visCount 2 2
        (carveLoop 2 2 0 oracle0 (fuel + 1) 0
          { grid := initGrid 2 2,
            visited := setVisited (initVisited 2 2) 0 0,
            stack := [(0, 0)] }).visited) :=
  C8_carve_terminates 2 2 0 oracle0 0 0 (by decide) (by decide)

/-- C9: `generate()` is deterministic under a fixed random state: two runs
from equal oracles produce identical states (grid walls and endpoints
included). -/
theorem C9_deterministic_generate (st : MazeState) (o1 o2 : RandOracle)
    (h : o1 = o2) : generate st o1 = generate st o2 := by
  rw [h]

/-- Witness for C9. -/
theorem C9_deterministic_generate_witness :
    generate demoState oracle0 = generate demoState oracle0 :=
  C9_deterministic_generate demoState oracle0 oracle0 rfl

/-- C10: carving never opens a wall on the outer boundary, and therefore
following any open wall from an in-bounds cell of the carved grid lands on
an in-bounds cell — the BFS of `_longest_path_endpoints` never indexes the
distance matrix out of bounds. -/
theorem C10_boundary_containment (rows cols : Nat) (cx : ℚ) (o : RandOracle)
    (sr sc : Nat) (hsr : sr < rows) (hsc : sc < cols) :
    boundaryIntact rows cols
      (carve_passage rows cols cx o sr sc (initGrid rows cols)).grid ∧
    (∀ r c d, r < rows → c < cols →
      wallAt (carve_passage rows cols cx o sr sc (initGrid rows cols)).grid
        r c d = false →
      ∃ p, stepN rows cols r c d = some p ∧ inBounds rows cols p) := by
  have hb := (carve_passage_inv cx o hsr hsc).bdry
  exact ⟨hb, fun r c d hr hc hw => open_wall_step_inBounds hb hr hc hw⟩

/-- Witness for C10 at `rows = cols = 2`. -/
theorem C10_boundary_containment_witness :
    boundaryIntact 2 2
      (carve_passage 2 2 0 oracle0 0 0 (initGrid 2 2)).grid ∧
    (∀ r c d, r < 2 → c < 2 →
      wallAt (carve_passage 2 2 0 oracle0 0 0 (initGrid 2 2)).grid
        r c d = false →
      ∃ p, stepN 2 2 r c d = some p ∧ inBounds 2 2 p) :=
  C10_boundary_containment 2 2 0 oracle0 0 0 (by decide) (by decide)







end TurtleMaze
